import Mathlib

/-! # go-toy-problems: rate-limited, cancellable worker pool

Shallow embedding of `concurrency/context-aware-token-bucket/main.go` and
`concurrency/context-aware-worker-pool/main.go`.

* Go `int` values are `Int`; arithmetic that can overflow is wrapped to 64 bits.
* A `context.Context` is the error it reports: `none` while it is not done,
  `some e` once it is done (a context never becomes un-done).
* A buffered channel is its buffer together with its capacity; for the
  `chan struct{}` of the limiter the elements carry no data, so the buffer is
  its length.  On a channel of capacity 0 a send proceeds only by handing the
  element to a goroutine parked in a receive.
* Goroutines are interleaved: each step of the system is one atomic action of
  one goroutine, chosen by a schedule.  A `select` with two ready cases takes
  either one; the schedule supplies the choice.
-/

namespace TokenBucket

/-! ## Contexts and `select` -/

/-- The two errors `ctx.Err()` can report once the context is done. -/
inductive CtxErr where
  | Canceled
  | DeadlineExceeded
deriving DecidableEq, Repr

/-- A context, observed through `ctx.Done()` / `ctx.Err()`: `none` while the
context is live, `some e` when it is done with error `e`. -/
abbrev Context := Option CtxErr

/-- Go `select` over two cases.  Each argument is `some x` when that case is
ready (and would yield `x`) and `none` when it would block.  When both are ready
Go takes one of them at random: `pick = true` takes the first.  The result is
`none` when the whole `select` blocks. -/
def select2 {α β : Type} : Option α → Option β → Bool → Option (α ⊕ β)
  | none, none, _ => none
  | some a, none, _ => some (Sum.inl a)
  | none, some b, _ => some (Sum.inr b)
  | some a, some b, pick => if pick then some (Sum.inl a) else some (Sum.inr b)

/-! ## Job store -/

/-- Struct `JobStore`.  The mutex makes `Set` and `Snapshot` atomic; it carries
no data of its own. -/
structure JobStore where
  data : List Int
deriving DecidableEq, Repr

/-- Go builtin `copy(dst, src)`: overwrites the first `min (len dst) (len src)`
elements of `dst` with those of `src`. -/
def goCopy (dst src : List Int) : List Int :=
  src.take dst.length ++ dst.drop src.length

/-- Method `JobStore.Set`: `js.data = append(js.data, v)`. -/
def JobStore.Set (js : JobStore) (v : Int) : JobStore :=
  { data := js.data ++ [v] }

/-- Method `JobStore.Snapshot`: `out := make([]int, len(js.data)); copy(out, js.data)`.
Returns the slice handed to the caller and the store afterwards. -/
def JobStore.Snapshot (js : JobStore) : List Int × JobStore :=
  (goCopy (List.replicate js.data.length 0) js.data, js)

/-! ## Rate limiter -/

/-- Struct `limiter`.  `tokens` is `len(l.tokens)`, the number of elements
buffered in the channel; the channel's capacity is `burst`. -/
structure limiter where
  rate : Int
  burst : Int
  tokens : Int
deriving DecidableEq, Repr

/-- Constant `time.Second`, in nanoseconds (the unit of `time.Duration`). -/
def Second : Int := 1000000000

/-- Period of the refill ticker, `time.Second / time.Duration(rate)`: Go integer
division, which truncates. -/
def tickerPeriod (rate : Int) : Int := Int.tdiv Second rate

/-- Function `NewLimiter`: the limiter as returned, with an empty channel of
capacity `burst`.  `none` when the call panics: `make(chan, burst)` with a
negative size, division by a zero `rate`, or `time.NewTicker` with a
non-positive period. -/
def NewLimiter (rate burst : Int) : Option limiter :=
  if burst < 0 then none
  else if rate = 0 then none
  else if tickerPeriod rate ≤ 0 then none
  else some { rate := rate, burst := burst, tokens := 0 }

/-- Body of the `case <-ticker.C:` branch of the refill goroutine: a
non-blocking send on `l.tokens`.  `parked` says whether a goroutine is blocked
in the receive `<-l.tokens` of `Acquire` at that moment.  The result is the
limiter afterwards and whether the token was handed to the parked goroutine,
whose `Acquire` then returns `nil`.

With room in the buffer the send proceeds through the buffer (a goroutine
parked on the empty buffer receives the token from there, in an `Acquire` step
of its own).  With no room, the send still proceeds on the unbuffered channel
of `burst = 0` when a receiver is parked: the token is handed over and the
buffer stays empty.  Otherwise the `default` case runs and the tick is
dropped. -/
def refillTick (l : limiter) (parked : Bool) : limiter × Bool :=
  if l.tokens < l.burst then ({ l with tokens := l.tokens + 1 }, false)
  else if l.burst = 0 ∧ parked = true then (l, true)
  else (l, false)

/-- The receive `<-l.tokens`, ready only when a token is buffered. -/
def limiter.recvToken (l : limiter) : Option limiter :=
  if 0 < l.tokens then some { l with tokens := l.tokens - 1 } else none

/-- Method `limiter.Acquire`.  `none`: the call blocks in its `select`.
`some (err, l')`: it returns `err` (`none` is Go's `nil`) leaving the limiter
`l'`. -/
def limiter.Acquire (l : limiter) (ctx : Context) (pick : Bool) :
    Option (Option CtxErr × limiter) :=
  match select2 ctx l.recvToken pick with
  | none => none
  | some (Sum.inl e) => some (some e, l)
  | some (Sum.inr l') => some (none, l')

/-- One operation on a limiter: a tick handled by the refill goroutine (with
or without a goroutine parked in `Acquire`), or a call of `Acquire` under the
given context with the given `select` choice. -/
inductive LimOp where
  | tick (parked : Bool)
  | acquire (ctx : Context) (pick : Bool)
deriving DecidableEq, Repr

/-- Effect of one operation on the limiter.  An `Acquire` that blocks leaves the
limiter as it is. -/
def limStep (l : limiter) : LimOp → limiter
  | LimOp.tick parked => (refillTick l parked).1
  | LimOp.acquire ctx pick =>
    match l.Acquire ctx pick with
    | some (_, l') => l'
    | none => l

/-- Effect of a sequence of operations, oldest first. -/
def limRun (l : limiter) (ops : List LimOp) : limiter :=
  ops.foldl limStep l

/-! ## Worker pool -/

/-- Constant `tokensPerSecond`. -/
def tokensPerSecond : Int := 5

/-- Constant `maxBucketCapacity`. -/
def maxBucketCapacity : Int := 10

/-- A Go `int` result, wrapped to the signed 64-bit range. -/
def wrapInt (x : Int) : Int := (x + 2 ^ 63) % 2 ^ 64 - 2 ^ 63

/-- The two programs that define `StartWorkerPool`: the rate-limited one of
`context-aware-token-bucket` and the plain one of `context-aware-worker-pool`.
They differ only in the `lim.Acquire` call that opens each loop iteration. -/
inductive Variant where
  | tokenBucket
  | workerPool
deriving DecidableEq, Repr

/-- The `jobs` channel: buffered elements oldest first, capacity, and whether
it has been closed. -/
structure Chan where
  buf : List Int
  cap : Nat
  closed : Bool
deriving DecidableEq, Repr

/-- The receive `j, ok := <-jobs`.  `none`: it blocks (empty and open).
`some (some j, c)`: it yields `j` with `ok = true`.  `some (none, c)`: the
channel is closed and drained, `ok = false`. -/
def Chan.recv (c : Chan) : Option (Option Int × Chan) :=
  match c.buf with
  | j :: rest => some (some j, { c with buf := rest })
  | [] => if c.closed then some (none, c) else none

/-- The send `jobs <- v` into the buffer.  `none` when it cannot complete: the
buffer is full, or the channel is closed (where Go panics). -/
def Chan.send (c : Chan) (v : Int) : Option Chan :=
  if c.closed then none
  else if c.buf.length < c.cap then some { c with buf := c.buf ++ [v] }
  else none

/-- Where a worker goroutine stands. `acquiring`: at `lim.Acquire(ctx)`.
`dequeuing`: at the `select` over `ctx.Done()` and `jobs`. `processing j`: it
has received `j` and has not yet called `js.Set`. `stopped`: it has returned
and its deferred `wg.Done()` has run. -/
inductive Worker where
  | acquiring
  | dequeuing
  | processing (j : Int)
  | stopped
deriving DecidableEq, Repr

/-- First statement of the worker's `for` loop. -/
def loopStart : Variant → Worker
  | Variant.tokenBucket => Worker.acquiring
  | Variant.workerPool => Worker.dequeuing

/-- State of one call of `StartWorkerPool`.  `lim` is the limiter (absent in the
plain pool), `refillAlive` says whether the refill goroutine is still in its
loop, `wg` is the WaitGroup counter, `returned` the value the call has returned
if it has.  The last three fields are history counters that no code reads:
tokens the refill goroutine has put in the bucket, jobs ever sent on the
channel, and jobs received by workers. -/
structure Pool where
  variant : Variant
  ctx : Context
  jobs : Chan
  js : JobStore
  lim : Option limiter
  refillAlive : Bool
  workers : List Worker
  wg : Int
  returned : Option (List Int)
  ticksAdded : Nat
  enqueued : Nat
  received : Nat
deriving DecidableEq, Repr

/-- Function `StartWorkerPool` up to the point where the goroutines are spawned
and none has run.  `none` when `wg.Add(workerCount)` panics on a negative
count.  The jobs already buffered in the channel count as enqueued. -/
def StartWorkerPool (v : Variant) (ctx : Context) (jobs : Chan) (workerCount : Int) :
    Option Pool :=
  if workerCount < 0 then none
  else
    let lim : Option limiter :=
      match v with
      | Variant.tokenBucket => NewLimiter tokensPerSecond maxBucketCapacity
      | Variant.workerPool => none
    some
      { variant := v
        ctx := ctx
        jobs := jobs
        js := { data := [] }
        lim := lim
        refillAlive := lim.isSome
        workers := List.replicate workerCount.toNat (loopStart v)
        wg := workerCount
        returned := none
        ticksAdded := 0
        enqueued := jobs.buf.length
        received := 0 }

/-- A worker returns: it is `stopped` and the deferred `wg.Done()` has run. -/
def Pool.exit (s : Pool) (i : Nat) : Pool :=
  { s with workers := s.workers.set i Worker.stopped, wg := s.wg - 1 }

/-- One action of worker `i`; `none` when the worker is blocked or has returned.
`pick` resolves a `select` with both cases ready (`true`: `ctx.Done()`). -/
def workerStep (s : Pool) (i : Nat) (pick : Bool) : Option Pool :=
  match s.workers[i]? with
  | none => none
  | some Worker.stopped => none
  | some Worker.acquiring =>
    match s.lim with
    | none => none
    | some l =>
      match l.Acquire s.ctx pick with
      | none => none
      | some (some _, _) => some (s.exit i)
      | some (none, l') =>
        some { s with lim := some l', workers := s.workers.set i Worker.dequeuing }
  | some Worker.dequeuing =>
    match select2 s.ctx s.jobs.recv pick with
    | none => none
    | some (Sum.inl _) => some (s.exit i)
    | some (Sum.inr (none, _)) => some (s.exit i)
    | some (Sum.inr (some j, c)) =>
      some { s with jobs := c, workers := s.workers.set i (Worker.processing j),
                    received := s.received + 1 }
  | some (Worker.processing j) =>
    some { s with js := s.js.Set (wrapInt (j * 2)),
                  workers := s.workers.set i (loopStart s.variant) }

/-- The atomic actions of the system.  `cancel`: the context becomes done.
`tick`: the refill goroutine handles a tick.  `refillExit`: the refill goroutine
takes its `ctx.Done()` case.  `send`, `close`: the producer sends into the
buffer, closes the channel.  `handoff v i`: the producer's send of `v` is
received directly by worker `i` waiting at its `select` (the only way to send
on an unbuffered channel).  `worker i pick`: worker `i` acts.  `wait`:
`wg.Wait()` returns and `StartWorkerPool` returns `js.Snapshot()`. -/
inductive Event where
  | cancel (e : CtxErr)
  | tick
  | refillExit
  | send (v : Int)
  | handoff (v : Int) (i : Nat)
  | close
  | worker (i : Nat) (pick : Bool)
  | wait
deriving DecidableEq, Repr

/-- One step of the system; `none` when the action is not possible in `s`.
The bucket of the pool has room for `maxBucketCapacity` tokens, so a tick goes
through the buffer, and a worker waiting in `Acquire` takes the token in a step
of its own. -/
def step (s : Pool) : Event → Option Pool
  | Event.cancel e => some { s with ctx := some (s.ctx.getD e) }
  | Event.tick =>
    match s.lim with
    | none => none
    | some l =>
      if s.refillAlive then
        some { s with lim := some (refillTick l false).1,
                      ticksAdded := if l.tokens < l.burst then s.ticksAdded + 1
                                    else s.ticksAdded }
      else none
  | Event.refillExit =>
    if s.refillAlive && s.ctx.isSome then some { s with refillAlive := false } else none
  | Event.send v =>
    match s.jobs.send v with
    | none => none
    | some c => some { s with jobs := c, enqueued := s.enqueued + 1 }
  | Event.handoff v i =>
    if !s.jobs.closed && s.jobs.buf.isEmpty && (s.workers[i]? == some Worker.dequeuing) then
      some { s with workers := s.workers.set i (Worker.processing v),
                    enqueued := s.enqueued + 1, received := s.received + 1 }
    else none
  | Event.close =>
    if s.jobs.closed then none else some { s with jobs := { s.jobs with closed := true } }
  | Event.worker i pick => workerStep s i pick
  | Event.wait =>
    if s.wg = 0 ∧ s.returned = none then
      some { s with returned := some s.js.Snapshot.1, js := s.js.Snapshot.2 }
    else none

/-- Run a schedule, oldest action first; `none` when some action of the
schedule is not possible at its turn. -/
def run (s : Pool) : List Event → Option Pool
  | [] => some s
  | e :: es =>
    match step s e with
    | none => none
    | some s' => run s' es

/-- An execution of `StartWorkerPool`: the call with its arguments, then a
schedule of actions.  `none` when the call panics or the schedule is not
possible. -/
def exec (v : Variant) (ctx : Context) (jobs : Chan) (workerCount : Int)
    (evs : List Event) : Option Pool :=
  match StartWorkerPool v ctx jobs workerCount with
  | none => none
  | some s => run s evs

/-- Number of workers that have not returned. -/
def numActive (ws : List Worker) : Nat := ws.countP (fun w => w != Worker.stopped)

/-- Number of workers holding a received job they have not recorded yet. -/
def numProcessing (ws : List Worker) : Nat :=
  ws.countP (fun w => match w with | Worker.processing _ => true | _ => false)

/-- Number of workers that hold a token and wait for a job. -/
def numDequeuing (ws : List Worker) : Nat := ws.countP (fun w => w == Worker.dequeuing)

/-- The facts that hold in every state a call of `StartWorkerPool` can reach:
the WaitGroup counter is the number of workers still running; every received
job is recorded or still being processed; every job sent is buffered or
received; every received job and every worker waiting for a job has used up a
token of its own; the limiter exists exactly in the rate-limited program; a
worker has returned only if the context is done or the channel is closed and
drained; and the call returns only at counter zero, with the store's contents. -/
structure Inv (s : Pool) : Prop where
  wg_eq : s.wg = (numActive s.workers : Int)
  recorded : s.js.data.length + numProcessing s.workers = s.received
  queued : s.jobs.buf.length + s.received = s.enqueued
  tokens : ∀ l, s.lim = some l →
    0 ≤ l.tokens ∧ (s.received : Int) + numDequeuing s.workers + l.tokens ≤ s.ticksAdded
  variant_lim : s.lim.isSome = true ↔ s.variant = Variant.tokenBucket
  stopped : numActive s.workers < s.workers.length →
    s.ctx.isSome = true ∨ (s.jobs.closed = true ∧ s.jobs.buf = [])
  ret : ∀ r, s.returned = some r → s.wg = 0 ∧ r = s.js.data

/-- Further facts of every reachable state, used to show that the pool can
always finish: the bucket has room for a token, the refill goroutine runs as
long as the context is live, and only the rate-limited program has workers at
`Acquire`. -/
structure Live (s : Pool) : Prop where
  burst_pos : ∀ l, s.lim = some l → 0 < l.burst
  refill : s.lim.isSome = true → s.ctx = none → s.refillAlive = true
  acq : ∀ k : Nat, s.workers[k]? = some Worker.acquiring → s.lim.isSome = true

/-- A reachable state in which the context is live and the jobs channel has
been closed. -/
structure Draining (s : Pool) : Prop where
  inv : Inv s
  live : Live s
  ctx_live : s.ctx = none
  closed : s.jobs.closed = true

/-- What an action of a worker or of the refill goroutine leaves alone between
`s` and a later state `t`. -/
structure Frame (s t : Pool) : Prop where
  enqueued : t.enqueued = s.enqueued
  returned : t.returned = s.returned
  length : t.workers.length = s.workers.length
  stopped : ∀ k : Nat, s.workers[k]? = some Worker.stopped → t.workers[k]? = some Worker.stopped

/-- Distance of worker `i` from returning once the channel is closed: three loop
positions per job still buffered, plus its position in the loop. -/
def rank (s : Pool) (i : Nat) : Nat :=
  3 * s.jobs.buf.length +
    match s.workers[i]? with
    | some (Worker.processing _) => 3
    | some Worker.acquiring => 2
    | some Worker.dequeuing => 1
    | _ => 0


end TokenBucket

/-! # Data structures

Shallow embedding of `data-structures/bst`, `data-structures/queue` and
`data-structures/set`.  Go `int` keys are `Int`; no arithmetic is done on them.
-/

namespace Bst

/-- Struct `BstNode` behind a `*BstNode`: `nil` is the nil pointer.  A tree
built by `Insert` from an empty tree shares no node between two parents, so it
is the value of this type that its pointers spell out. -/
inductive BstNode where
  | nil : BstNode
  | node (Key : Int) (Left Right : BstNode) : BstNode
deriving DecidableEq, Repr

/-- Struct `Tree`. -/
structure Tree where
  Root : BstNode
deriving DecidableEq, Repr

/-- The loop of `Tree.Search`, started at node `n`. -/
def searchLoop : BstNode → Int → Bool
  | BstNode.nil, _ => false
  | BstNode.node k l r, key =>
    if key < k then searchLoop l key
    else if key > k then searchLoop r key
    else true

/-- Method `Tree.Search`. -/
def Tree.Search (t : Tree) (key : Int) : Bool := searchLoop t.Root key

/-- The `for` loop of `Tree.Insert`, started at the non-nil node `n`; the result
is the subtree at `n` after the loop has returned.  The loop never reaches a nil
`n`. -/
def insertLoop : BstNode → Int → BstNode
  | BstNode.nil, _ => BstNode.nil
  | BstNode.node k l r, key =>
    if key < k then
      match l with
      | BstNode.nil => BstNode.node k (BstNode.node key BstNode.nil BstNode.nil) r
      | BstNode.node kl ll lr => BstNode.node k (insertLoop (BstNode.node kl ll lr) key) r
    else if key > k then
      match r with
      | BstNode.nil => BstNode.node k l (BstNode.node key BstNode.nil BstNode.nil)
      | BstNode.node kr rl rr => BstNode.node k l (insertLoop (BstNode.node kr rl rr) key)
    else BstNode.node k l r

/-- Method `Tree.Insert`. -/
def Tree.Insert (t : Tree) (key : Int) : Tree :=
  match t.Root with
  | BstNode.nil => { Root := BstNode.node key BstNode.nil BstNode.nil }
  | BstNode.node k l r => { Root := insertLoop (BstNode.node k l r) key }

/-- The loop `for succ.Left != nil { succ = succ.Left }` of `deleteNode`, at a
node with key `k` and left subtree `l`: the key of the node where it stops. -/
def succLoop : Int → BstNode → Int
  | k, BstNode.nil => k
  | _, BstNode.node kl ll _ => succLoop kl ll

/-- Function `deleteNode`: the subtree at `n` after the call, which is also the
pointer it returns.  With two children the node takes the key of the leftmost
node of its right subtree, and that key is deleted from the right subtree. -/
def deleteNode : BstNode → Int → BstNode
  | BstNode.nil, _ => BstNode.nil
  | BstNode.node k l r, key =>
    if key < k then BstNode.node k (deleteNode l key) r
    else if key > k then BstNode.node k l (deleteNode r key)
    else
      match l with
      | BstNode.nil => r
      | BstNode.node kl ll lr =>
        match r with
        | BstNode.nil => BstNode.node kl ll lr
        | BstNode.node kr rl rr =>
          BstNode.node (succLoop kr rl) (BstNode.node kl ll lr)
            (deleteNode (BstNode.node kr rl rr) (succLoop kr rl))

/-- Method `Tree.Delete`. -/
def Tree.Delete (t : Tree) (key : Int) : Tree := { Root := deleteNode t.Root key }

/-- The keys stored in a subtree. -/
def BstNode.keys : BstNode → List Int
  | BstNode.nil => []
  | BstNode.node k l r => l.keys ++ k :: r.keys

/-- Binary-search-tree ordering: in every node, the keys of the left subtree are
smaller and the keys of the right subtree larger than the node's key. -/
def BstNode.Ordered : BstNode → Prop
  | BstNode.nil => True
  | BstNode.node k l r =>
    l.Ordered ∧ r.Ordered ∧ (∀ x ∈ l.keys, x < k) ∧ (∀ x ∈ r.keys, k < x)

end Bst

namespace GoQueue

/-- Struct `Queue[T]`. -/
structure Queue (T : Type) where
  data : List T
deriving DecidableEq, Repr

/-- Method `Queue.Enqueue`. -/
def Queue.Enqueue {T : Type} (q : Queue T) (v : T) : Queue T :=
  { data := q.data ++ [v] }

/-- Method `Queue.Dequeue`: the pair it returns and the queue afterwards.  The
zero value of `T` is `default`. -/
def Queue.Dequeue {T : Type} [Inhabited T] (q : Queue T) : (T × Bool) × Queue T :=
  match q.data with
  | [] => ((default, false), q)
  | val :: rest => ((val, true), { data := rest })

/-- Method `Queue.IsEmpty`. -/
def Queue.IsEmpty {T : Type} (q : Queue T) : Bool := q.data.length == 0

/-- A call on a queue. -/
inductive Op (T : Type) where
  | enqueue (v : T)
  | dequeue
deriving DecidableEq, Repr

/-- Run a sequence of calls on `q`: the results of the `Dequeue` calls, oldest
first, and the queue afterwards. -/
def runOps {T : Type} [Inhabited T] (q : Queue T) : List (Op T) → List (T × Bool) × Queue T
  | [] => ([], q)
  | Op.enqueue v :: ops => runOps (q.Enqueue v) ops
  | Op.dequeue :: ops =>
    let r := q.Dequeue
    let rest := runOps r.2 ops
    (r.1 :: rest.1, rest.2)

/-- The list the queue is to refine, in the words of its contract: every
element ever enqueued, in order, and how many of them have been dequeued. -/
structure FifoSpec (T : Type) where
  enqueued : List T
  taken : Nat
deriving DecidableEq, Repr

/-- Contract of `Enqueue`: one more element has been enqueued. -/
def FifoSpec.enqueue {T : Type} (m : FifoSpec T) (v : T) : FifoSpec T :=
  { m with enqueued := m.enqueued ++ [v] }

/-- Contract of `Dequeue`: the earliest enqueued element not yet dequeued with
`true`, or the zero value with `false` when there is none. -/
def FifoSpec.dequeue {T : Type} [Inhabited T] (m : FifoSpec T) : (T × Bool) × FifoSpec T :=
  match m.enqueued[m.taken]? with
  | some x => ((x, true), { m with taken := m.taken + 1 })
  | none => ((default, false), m)

/-- Contract of `IsEmpty`: every enqueued element has been dequeued. -/
def FifoSpec.isEmpty {T : Type} (m : FifoSpec T) : Bool := m.taken == m.enqueued.length

/-- Run a sequence of calls on the contract. -/
def FifoSpec.runOps {T : Type} [Inhabited T] (m : FifoSpec T) :
    List (Op T) → List (T × Bool) × FifoSpec T
  | [] => ([], m)
  | Op.enqueue v :: ops => FifoSpec.runOps (m.enqueue v) ops
  | Op.dequeue :: ops =>
    let r := m.dequeue
    let rest := FifoSpec.runOps r.2 ops
    (r.1 :: rest.1, rest.2)

end GoQueue

namespace GoSet

/-- Struct `Set[T]`: the keys of the map `data`, in the order a `range` over the
map visits them.  Go leaves that order open; every order is a value of this
type.  `T` has a lawful equality (no NaN-like keys). -/
structure Set (T : Type) where
  data : List T
deriving DecidableEq, Repr

/-- Function `NewSet`. -/
def NewSet {T : Type} : Set T := { data := [] }

/-- Method `Set.Add`: `s.data[v] = struct{}{}`; assigning to a key already in
the map adds no entry. -/
def Set.Add {T : Type} [DecidableEq T] (s : Set T) (v : T) : Set T :=
  if v ∈ s.data then s else { data := s.data ++ [v] }

/-- Method `Set.Remove`: `delete(s.data, v)` removes the entry of key `v`, if
there is one. -/
def Set.Remove {T : Type} [DecidableEq T] (s : Set T) (v : T) : Set T :=
  { data := s.data.erase v }

/-- Method `Set.Has`. -/
def Set.Has {T : Type} [DecidableEq T] (s : Set T) (v : T) : Bool := decide (v ∈ s.data)

/-- Method `Set.Size`: `len(s.data)`. -/
def Set.Size {T : Type} (s : Set T) : Int := s.data.length

/-- Method `Set.Values`, on a receiver that may be the nil pointer (`none`). -/
def Set.Values {T : Type} : Option (Set T) → List T
  | none => []
  | some s => if s.data.length = 0 then [] else s.data.foldl (fun out k => out ++ [k]) []

/-- Method `Set.Union`; receiver and argument may be the nil pointer (`none`). -/
def Set.Union {T : Type} [DecidableEq T] (s other : Option (Set T)) : Set T :=
  let out : Set T := NewSet
  let out :=
    match s with
    | some s => s.data.foldl (fun o k => o.Add k) out
    | none => out
  match other with
  | some other => other.data.foldl (fun o k => o.Add k) out
  | none => out

/-- A mutating call on a set. -/
inductive SetOp (T : Type) where
  | add (v : T)
  | remove (v : T)
deriving DecidableEq, Repr

/-- Effect of a sequence of calls, oldest first. -/
def applyOps {T : Type} [DecidableEq T] (s : Set T) (ops : List (SetOp T)) : Set T :=
  ops.foldl (fun s op =>
    match op with
    | SetOp.add v => s.Add v
    | SetOp.remove v => s.Remove v) s

end GoSet

/-! # Singly linked list

Shallow embedding of `data-structures/singly-linked-list`.  A `*SLNode` is the
address of a node in a memory of allocated nodes (`none` is the nil pointer);
allocation takes the next free address and nothing is ever freed.
-/

namespace SinglyLinkedList

/-- Struct `SLNode`. -/
structure SLNode where
  Value : Int
  Next : Option Nat
deriving DecidableEq, Repr

/-- Struct `LinkedList`. -/
structure LinkedList where
  Head : Option Nat
  Tail : Option Nat
deriving DecidableEq, Repr

/-- The allocated nodes, by address. -/
abbrev Mem := List SLNode

/-- Method `LinkedList.Append`: the memory and the list afterwards; `none` when
the call panics on a nil or dangling `l.Tail`.  The new node is `&SLNode{}`. -/
def LinkedList.Append (m : Mem) (l : LinkedList) (_v : Int) : Option (Mem × LinkedList) :=
  let n := m.length
  let m1 := m ++ [{ Value := 0, Next := none }]
  match l.Head with
  | none => some (m1, { Head := some n, Tail := some n })
  | some _ =>
    match l.Tail with
    | none => none
    | some t =>
      match m1[t]? with
      | none => none
      | some tn => some (m1.set t { tn with Next := some n }, { l with Tail := some n })

/-- Method `LinkedList.Prepend`. -/
def LinkedList.Prepend (m : Mem) (l : LinkedList) (v : Int) : Mem × LinkedList :=
  let n := m.length
  let m1 := m ++ [{ Value := v, Next := l.Head }]
  (m1, { Head := some n, Tail := if l.Tail = none then some n else l.Tail })

/-- The `for curr := ...` loop of `LinkedList.Delete`, entered with the given
`prev` and `curr`; `none` when it runs out of fuel or follows a dangling
pointer. -/
def deleteLoop : Nat → Mem → LinkedList → Int → Nat → Option Nat → Option (Mem × LinkedList)
  | 0, _, _, _, _, _ => none
  | fuel + 1, m, l, v, prev, curr =>
    match curr with
    | none => some (m, l)
    | some c =>
      match m[c]? with
      | none => none
      | some cn =>
        if cn.Value = v then
          match m[prev]? with
          | none => none
          | some pn =>
            some (m.set prev { pn with Next := cn.Next },
              if some c = l.Tail then { l with Tail := some prev } else l)
        else deleteLoop fuel m l v c cn.Next

/-- Method `LinkedList.Delete`.  The loop gets one unit of fuel per allocated
node, enough to walk any list without a cycle. -/
def LinkedList.Delete (m : Mem) (l : LinkedList) (v : Int) : Option (Mem × LinkedList) :=
  match l.Head with
  | none => some (m, l)
  | some h =>
    match m[h]? with
    | none => none
    | some hn =>
      if hn.Value = v then
        some (m, { Head := hn.Next, Tail := if hn.Next = none then none else l.Tail })
      else deleteLoop m.length m l v h hn.Next

/-- The loop of `LinkedList.Print`, collecting the values it would print. -/
def valuesFrom : Nat → Mem → Option Nat → Option (List Int)
  | 0, _, _ => none
  | _ + 1, _, none => some []
  | fuel + 1, m, some a =>
    match m[a]? with
    | none => none
    | some n => (valuesFrom fuel m n.Next).map (fun vs => n.Value :: vs)

/-- The sequence of values read from `Head`, as `LinkedList.Print` walks it. -/
def LinkedList.values (m : Mem) (l : LinkedList) : Option (List Int) :=
  valuesFrom (m.length + 1) m l.Head

/-- The value stored at an address (0 when nothing is allocated there). -/
def valueAt (m : Mem) (a : Nat) : Int :=
  match m[a]? with
  | some n => n.Value
  | none => 0

/-- The pointer `p` leads through the nodes at addresses `addrs`, in order, and
the `Next` of the last of them is `q`. -/
def IsSeg (m : Mem) : Option Nat → List Nat → Option Nat → Prop
  | p, [], q => p = q
  | p, a :: rest, q => p = some a ∧ ∃ n, m[a]? = some n ∧ IsSeg m n.Next rest q

/-- A well-formed list: `Head` leads through the distinct nodes `addrs` to nil,
and `Tail` is the last of them (nil when there is none). -/
structure WF (m : Mem) (l : LinkedList) (addrs : List Nat) : Prop where
  chain : IsSeg m l.Head addrs none
  nodup : addrs.Nodup
  tail : l.Tail = addrs.getLast?

end SinglyLinkedList

/-! # Concurrent pipeline

Shallow embedding of `concurrency/concurrent-pipeline`.  The five goroutines
(`generator`, `square`, `addOne`, `filterEven` and the caller running `collect`)
are interleaved; every channel is unbuffered, so a send and the matching
receive are one joint step of the two goroutines.
-/

namespace ConcurrentPipeline

open TokenBucket (Context CtxErr wrapInt)

/-- Where the goroutine of `square`, `addOne` or `filterEven` stands.
`recv`: at `for n := range in`, waiting for a value.  `got n`: it has received
`n` and has not tested it yet (`filterEven` only).  `send v`: at the `select`
that sends `v` on `out`.  `done`: it has returned and `out` is closed. -/
inductive Stage where
  | recv
  | got (n : Int)
  | send (v : Int)
  | done
deriving DecidableEq, Repr

/-- State of one run of `collect(filterEven(addOne(square(generator(nums)))))`
under one context.  `gen` is `some rest` while the generator's loop still has
`rest` to send and `none` once it has returned and closed its channel; `col` is
the `out` slice of `collect`; `returned` is what `collect` has returned, if it
has. -/
structure Pipe where
  ctx : Context
  gen : Option (List Int)
  sq : Stage
  add : Stage
  flt : Stage
  col : List Int
  returned : Option (List Int)
deriving DecidableEq, Repr

/-- The pipeline right after the four stages are started and `collect` is
called. -/
def start (ctx : Context) (nums : List Int) : Pipe :=
  { ctx := ctx, gen := some nums, sq := Stage.recv, add := Stage.recv, flt := Stage.recv,
    col := [], returned := none }

/-- The atomic actions.  `cancel`: the context becomes done.  `genSend`,
`sqSend`, `addSend`, `fltSend`: a stage's `out <- v` meets the receive of the
next stage.  `genExit`: the generator's loop ends, or takes `ctx.Done()`.
`sqAbort`, `addAbort`, `fltAbort`: a stage takes `ctx.Done()` instead of
sending.  `sqClosed`, `addClosed`, `fltClosed`: a stage's `range in` ends on a
closed channel.  `fltTest`: `filterEven` tests the value it has received.
`colClosed`, `colAbort`: `collect` returns on a closed channel, on
`ctx.Done()`. -/
inductive Event where
  | cancel (e : CtxErr)
  | genSend
  | genExit
  | sqClosed
  | sqSend
  | sqAbort
  | addClosed
  | addSend
  | addAbort
  | fltTest
  | fltClosed
  | fltSend
  | fltAbort
  | colClosed
  | colAbort
deriving DecidableEq, Repr

/-- One step of the pipeline; `none` when the action is not possible in `s`. -/
def step (s : Pipe) : Event → Option Pipe
  | Event.cancel e => some { s with ctx := some (s.ctx.getD e) }
  | Event.genSend =>
    match s.gen, s.sq with
    | some (v :: rest), Stage.recv =>
      some { s with gen := some rest, sq := Stage.send (wrapInt (v * v)) }
    | _, _ => none
  | Event.genExit =>
    match s.gen with
    | some [] => some { s with gen := none }
    | some (_ :: _) => if s.ctx.isSome then some { s with gen := none } else none
    | none => none
  | Event.sqClosed =>
    match s.gen, s.sq with
    | none, Stage.recv => some { s with sq := Stage.done }
    | _, _ => none
  | Event.sqSend =>
    match s.sq, s.add with
    | Stage.send n, Stage.recv =>
      some { s with sq := Stage.recv, add := Stage.send (wrapInt (n + 1)) }
    | _, _ => none
  | Event.sqAbort =>
    match s.sq with
    | Stage.send _ => if s.ctx.isSome then some { s with sq := Stage.done } else none
    | _ => none
  | Event.addClosed =>
    match s.sq, s.add with
    | Stage.done, Stage.recv => some { s with add := Stage.done }
    | _, _ => none
  | Event.addSend =>
    match s.add, s.flt with
    | Stage.send n, Stage.recv => some { s with add := Stage.recv, flt := Stage.got n }
    | _, _ => none
  | Event.addAbort =>
    match s.add with
    | Stage.send _ => if s.ctx.isSome then some { s with add := Stage.done } else none
    | _ => none
  | Event.fltTest =>
    match s.flt with
    | Stage.got n =>
      if Int.tmod n 2 ≠ 0 then
        if s.ctx.isSome then some { s with flt := Stage.done }
        else some { s with flt := Stage.recv }
      else some { s with flt := Stage.send n }
    | _ => none
  | Event.fltClosed =>
    match s.add, s.flt with
    | Stage.done, Stage.recv => some { s with flt := Stage.done }
    | _, _ => none
  | Event.fltSend =>
    match s.flt, s.returned with
    | Stage.send n, none => some { s with flt := Stage.recv, col := s.col ++ [n] }
    | _, _ => none
  | Event.fltAbort =>
    match s.flt with
    | Stage.send _ => if s.ctx.isSome then some { s with flt := Stage.done } else none
    | _ => none
  | Event.colClosed =>
    match s.flt, s.returned with
    | Stage.done, none => some { s with returned := some s.col }
    | _, _ => none
  | Event.colAbort =>
    match s.returned with
    | none => if s.ctx.isSome then some { s with returned := some s.col } else none
    | some _ => none

/-- Run a schedule, oldest action first; `none` when some action of the
schedule is not possible at its turn. -/
def run (s : Pipe) : List Event → Option Pipe
  | [] => some s
  | e :: es =>
    match step s e with
    | none => none
    | some s' => run s' es

/-- What the pipeline is to return, in the words of its contract: the even
values of `n*n+1` for `n` in `nums`, in the order of `nums`, in Go `int`
arithmetic. -/
def evenSquaresPlusOne (nums : List Int) : List Int :=
  (nums.map (fun n => wrapInt (wrapInt (n * n) + 1))).filter (fun x => x % 2 = 0)

/-- Whether a value passes the test of `filterEven`, as a one-element or empty
list. -/
def keepEven (n : Int) : List Int := [n].filter (fun x => x % 2 = 0)

/-- What the value held by `filterEven` will add to the output. -/
def fltPending : Stage → List Int
  | Stage.got n => keepEven n
  | Stage.send v => [v]
  | _ => []

/-- What the value held by `addOne` will add to the output. -/
def addPending : Stage → List Int
  | Stage.send v => keepEven v
  | _ => []

/-- What the value held by `square` will add to the output. -/
def sqPending : Stage → List Int
  | Stage.send v => keepEven (wrapInt (v + 1))
  | _ => []

/-- The output still to come from the stages and the generator. -/
def Pipe.pending (s : Pipe) : List Int :=
  fltPending s.flt ++ addPending s.add ++ sqPending s.sq ++ evenSquaresPlusOne (s.gen.getD [])

/-- The facts that hold in every state the pipeline reaches while the context
is live: collected and pending output together are the contract's output; the
stages and `collect` finish in pipeline order; and `collect` returns its
slice. -/
structure PInv (nums : List Int) (s : Pipe) : Prop where
  output : s.col ++ s.pending = evenSquaresPlusOne nums
  sq_done : s.sq = Stage.done → s.gen = none
  add_done : s.add = Stage.done → s.sq = Stage.done
  flt_done : s.flt = Stage.done → s.add = Stage.done
  ret : ∀ r, s.returned = some r → r = s.col ∧ s.flt = Stage.done
  shape : (∀ n, s.sq ≠ Stage.got n) ∧ (∀ n, s.add ≠ Stage.got n)

/-- Steps the pipeline still has to take to finish, at most. -/
def Pipe.fuel (s : Pipe) : Nat :=
  (match s.gen with
    | some rest => 1 + 5 * rest.length
    | none => 0) +
  (match s.sq with
    | Stage.recv => 1
    | Stage.got _ => 5
    | Stage.send _ => 5
    | Stage.done => 0) +
  (match s.add with
    | Stage.recv => 1
    | Stage.got _ => 4
    | Stage.send _ => 4
    | Stage.done => 0) +
  (match s.flt with
    | Stage.recv => 1
    | Stage.got _ => 3
    | Stage.send _ => 2
    | Stage.done => 0) +
  (match s.returned with
    | none => 1
    | some _ => 0)

end ConcurrentPipeline

/-! # Heaps

Shallow embedding of `data-structures/int-min-heap` and
`top-k-dedupe-with-sort`, over the functions of Go's `container/heap` that they
call.  A heap is the slice behind it, as a list; `IntMinHeap` and `UserMinHeap`
implement `Len`, `Swap`, `Push` and `Pop` of `heap.Interface` in the same way,
and `h.Less(i, j)` compares the elements at `i` and `j`, so the functions of
`container/heap` take that comparison of elements as their argument `less`.
-/

namespace ContainerHeap

/-- Element `h[i]` (the zero value outside the slice, where Go panics; the
functions below stay inside). -/
def elem {α : Type} [Inhabited α] (h : List α) (i : Nat) : α := h.getD i default

/-- Method `Swap` of both heap types: `h[i], h[j] = h[j], h[i]`. -/
def Swap {α : Type} [Inhabited α] (h : List α) (i j : Nat) : List α :=
  (h.set i (elem h j)).set j (elem h i)

/-- The loop of `container/heap.up`, with the index `j` it stands at.  Every
iteration at least halves `j`, so `fuel = j` iterations are enough: with no fuel
left `j` is 0 and the loop breaks on `i == j`. -/
def upLoop {α : Type} [Inhabited α] (less : α → α → Bool) : Nat → List α → Nat → List α
  | 0, h, _ => h
  | fuel + 1, h, j =>
    let i := (j - 1) / 2
    if i = j ∨ less (elem h j) (elem h i) = false then h
    else upLoop less fuel (Swap h i j) i

/-- Function `container/heap.up`. -/
def up {α : Type} [Inhabited α] (less : α → α → Bool) (h : List α) (j : Nat) : List α :=
  upLoop less j h j

/-- The loop of `container/heap.down` on the first `n` elements, with the index
`i` it stands at.  Every iteration moves `i` to a child, so `n` iterations are
enough.  Go also breaks on `j1 < 0`, an overflow of `2*i + 1` that no slice in
memory reaches. -/
def downLoop {α : Type} [Inhabited α] (less : α → α → Bool) :
    Nat → List α → Nat → Nat → List α
  | 0, h, _, _ => h
  | fuel + 1, h, i, n =>
    let j1 := 2 * i + 1
    if n ≤ j1 then h
    else
      let j := if j1 + 1 < n ∧ less (elem h (j1 + 1)) (elem h j1) = true then j1 + 1 else j1
      if less (elem h j) (elem h i) = false then h
      else downLoop less fuel (Swap h i j) j n

/-- Function `container/heap.down` (the slice it leaves; its boolean result is
not used by `Init`, `Push` or `Pop`). -/
def down {α : Type} [Inhabited α] (less : α → α → Bool) (h : List α) (i0 n : Nat) : List α :=
  downLoop less n h i0 n

/-- The loop of `container/heap.Init`: `down(h, i, n)` for `i = k-1, ..., 0`. -/
def initLoop {α : Type} [Inhabited α] (less : α → α → Bool) : Nat → List α → Nat → List α
  | 0, h, _ => h
  | k + 1, h, n => initLoop less k (down less h k n) n

/-- Function `container/heap.Init`. -/
def Init {α : Type} [Inhabited α] (less : α → α → Bool) (h : List α) : List α :=
  initLoop less (h.length / 2) h h.length

/-- Function `container/heap.Push`: `h.Push(x)` appends, then `up`. -/
def Push {α : Type} [Inhabited α] (less : α → α → Bool) (h : List α) (x : α) : List α :=
  up less (h ++ [x]) (h.length + 1 - 1)

/-- Function `container/heap.Pop`: swap first and last, `down` on the rest,
then `h.Pop()` takes the last element off.  `none` on an empty heap, where Go
panics. -/
def Pop {α : Type} [Inhabited α] (less : α → α → Bool) (h : List α) : Option (α × List α) :=
  if h.length = 0 then none
  else
    let n := h.length - 1
    let h1 := down less (Swap h 0 n) 0 n
    some (elem h1 n, h1.take n)

/-- The loop `for h.Len() > 0 { out = append(out, heap.Pop(h)) }`, with one
unit of fuel per element. -/
def drainLoop {α : Type} [Inhabited α] (less : α → α → Bool) :
    Nat → List α → List α → List α
  | 0, _, out => out
  | fuel + 1, h, out =>
    match Pop less h with
    | none => out
    | some (x, h1) => drainLoop less fuel h1 (out ++ [x])

/-- Pop until the heap is empty; the popped elements in order. -/
def drain {α : Type} [Inhabited α] (less : α → α → Bool) (h : List α) : List α :=
  drainLoop less h.length h []

/-- One iteration of the loop that keeps the `k` largest elements seen: push
while the heap holds fewer than `k`, else replace the minimum `h[0]` when `x` is
larger, else skip `x`. -/
def keepLargest {α : Type} [Inhabited α] (less : α → α → Bool) (k : Nat) (h : List α)
    (x : α) : List α :=
  if h.length < k then Push less h x
  else if less (elem h 0) x = true then
    match Pop less h with
    | none => h
    | some (_, h1) => Push less h1 x
  else h

/-- The comparison is a strict weak order: asymmetric, with a transitive
"not less". -/
structure StrictWeak {α : Type} (less : α → α → Bool) : Prop where
  asymm : ∀ a b, less a b = true → less b a = false
  negtrans : ∀ a b c, less a b = false → less b c = false → less a c = false

/-- Heap order on the first `n` elements for every parent from `lo` on: no
child is less than its parent. -/
def HeapFrom {α : Type} [Inhabited α] (less : α → α → Bool) (h : List α) (lo n : Nat) : Prop :=
  ∀ c, 1 ≤ c → c < n → lo ≤ (c - 1) / 2 → less (elem h c) (elem h ((c - 1) / 2)) = false

/-- Invariant of the loop of `down`, started at `i0` and standing at `i`: heap
order holds for every parent from `i0` on except `i`, and the children of `i`
are not less than the parent of `i`. -/
def DownInv {α : Type} [Inhabited α] (less : α → α → Bool) (h : List α) (i0 i n : Nat) :
    Prop :=
  (∀ c, 1 ≤ c → c < n → i0 ≤ (c - 1) / 2 → (c - 1) / 2 ≠ i →
      less (elem h c) (elem h ((c - 1) / 2)) = false) ∧
    (i0 < i → ∀ c, 1 ≤ c → c < n → (c - 1) / 2 = i →
      less (elem h c) (elem h ((i - 1) / 2)) = false)

/-- Invariant of the loop of `up`, standing at `j`: heap order holds for every
child except `j`, and the children of `j` are not less than the parent of
`j`. -/
def UpInv {α : Type} [Inhabited α] (less : α → α → Bool) (h : List α) (j : Nat) : Prop :=
  (∀ c, 1 ≤ c → c < h.length → c ≠ j → less (elem h c) (elem h ((c - 1) / 2)) = false) ∧
    (1 ≤ j → ∀ c, 1 ≤ c → c < h.length → (c - 1) / 2 = j →
      less (elem h c) (elem h ((j - 1) / 2)) = false)

/-- Heap order on the whole slice. -/
def IsHeap {α : Type} [Inhabited α] (less : α → α → Bool) (h : List α) : Prop :=
  HeapFrom less h 0 h.length

/-- Invariant of the loop that keeps the `k` largest: `h` is a heap of at most
`k` elements which, together with the elements `dropped` so far, are the
elements `seen`; nothing dropped is larger than anything kept; and nothing is
dropped while the heap holds fewer than `k`. -/
structure TopInv {α : Type} [Inhabited α] (less : α → α → Bool) (k : Nat)
    (h seen dropped : List α) : Prop where
  heap : IsHeap less h
  perm : seen.Perm (h ++ dropped)
  cross : ∀ r ∈ dropped, ∀ t ∈ h, less t r = false
  size : h.length ≤ k
  full : h.length < k → dropped = []

end ContainerHeap

namespace IntMinHeap

/-- Comparison behind `IntMinHeap.Less`. -/
def less (a b : Int) : Bool := decide (a < b)

/-- Method `IntMinHeap.Less`. -/
def Less (h : List Int) (i j : Nat) : Bool := less (ContainerHeap.elem h i) (ContainerHeap.elem h j)

/-- Function `TopKLargest`.  `k` is a Go `int`; a `nil` result is the empty
list. -/
def TopKLargest (nums : List Int) (k : Int) : List Int :=
  if k ≤ 0 then []
  else
    let h := ContainerHeap.Init less []
    let h := nums.foldl (fun h x =>
      if (h.length : Int) < k then ContainerHeap.Push less h x
      else if x > ContainerHeap.elem h 0 then
        match ContainerHeap.Pop less h with
        | none => h
        | some (_, h1) => ContainerHeap.Push less h1 x
      else h) h
    ContainerHeap.drain less h

/-- The `min(k, len(nums))` largest elements of `nums`, with multiplicity, in
ascending order: sort descending, keep the first `k`, reverse. -/
def largestAscending (nums : List Int) (k : Nat) : List Int :=
  ((nums.insertionSort (fun a b => a ≥ b)).take k).reverse

end IntMinHeap

namespace TopKDedupe

open ContainerHeap

/-- Struct `User`. -/
structure User where
  ID : Int
  Name : String
  Score : Int
deriving DecidableEq, Repr, Inhabited

/-- Comparison behind `UserMinHeap.Less`: smaller score first, and on equal
scores the larger ID first. -/
def less (a b : User) : Bool :=
  if a.Score ≠ b.Score then decide (a.Score < b.Score) else decide (a.ID > b.ID)

/-- Method `UserMinHeap.Less`. -/
def Less (h : List User) (i j : Nat) : Bool := less (elem h i) (elem h j)

/-- The `less` closure handed to `sort.Slice`: larger score first, and on equal
scores the smaller ID first. -/
def byScoreDesc (a b : User) : Bool :=
  if a.Score ≠ b.Score then decide (a.Score > b.Score) else decide (a.ID < b.ID)

/-- The map read `curr, ok := best[id]`; the map `best` is the list of its
values, one per key. -/
def bestLookup (best : List User) (id : Int) : Option User :=
  best.find? (fun w => w.ID = id)

/-- The map write `best[u.ID] = u`. -/
def bestStore (best : List User) (u : User) : List User :=
  best.filter (fun w => w.ID ≠ u.ID) ++ [u]

/-- The first loop of `TopKUsers`: one record per ID. -/
def dedupe (users : List User) : List User :=
  users.foldl (fun best u =>
    match bestLookup best u.ID with
    | none => bestStore best u
    | some curr =>
      if u.Score > curr.Score ∨ (u.Score = curr.Score ∧ u.ID < curr.ID) then bestStore best u
      else best) []

/-- Function `TopKUsers`.  `order` is the order in which `range best` visits
the map, which Go leaves open; `sortSlice` is `sort.Slice`.  A `nil` result is
the empty list. -/
def TopKUsers (order : List User → List User)
    (sortSlice : (User → User → Bool) → List User → List User)
    (users : List User) (k : Int) : List User :=
  if k ≤ 0 then []
  else if users.length = 0 then []
  else
    let uniq := order (dedupe users)
    if k ≥ uniq.length then sortSlice byScoreDesc uniq
    else
      let h := Init less []
      let h := uniq.foldl (fun h u =>
        if (h.length : Int) < k then Push less h u
        else
          let min := elem h 0
          if u.Score > min.Score ∨ (u.Score = min.Score ∧ u.ID < min.ID) then
            match Pop less h with
            | none => h
            | some (_, h1) => Push less h1 u
          else h) h
      (drain less h).reverse

/-- Invariant of the first loop of `TopKUsers`, with the records `seen` so far:
the map has one record per ID; each is a record seen whose score no record seen
with the same ID exceeds; and every ID seen is in the map. -/
structure BestInv (best seen : List User) : Prop where
  nodup : (best.map (fun u => u.ID)).Nodup
  top : ∀ u ∈ best, u ∈ seen ∧ ∀ v ∈ seen, v.ID = u.ID → v.Score ≤ u.Score
  all : ∀ v ∈ seen, ∃ u ∈ best, u.ID = v.ID

/-- What `equalUsers` compares: the pair `(ID, Score)`. -/
def key (u : User) : Int × Int := (u.ID, u.Score)

/-- Order of the contract on `(ID, Score)` pairs: score descending, ties by ID
ascending. -/
def pairBefore (p q : Int × Int) : Bool :=
  decide (p.2 > q.2 ∨ (p.2 = q.2 ∧ p.1 ≤ q.1))

/-- The highest score among the records of `users` with the given ID (0 when
there is none). -/
def bestScore (users : List User) (id : Int) : Int :=
  match (users.filter (fun u => u.ID = id)).map (fun u => u.Score) with
  | [] => 0
  | s :: rest => rest.foldl max s

/-- The list of the contract: one `(ID, Score)` pair per distinct ID, with the
highest score of that ID, sorted by score descending and ID ascending; then its
first `k` entries. -/
def topPairs (users : List User) (k : Nat) : List (Int × Int) :=
  ((((users.map (fun u => u.ID)).dedup).map (fun id => (id, bestScore users id))).insertionSort
    (fun p q => pairBefore p q = true)).take k

/-- An implementation of `sort.Slice` by insertion. -/
def insertionSlice (lt : User → User → Bool) (l : List User) : List User :=
  l.insertionSort (fun a b => lt b a = false)

end TopKDedupe

/-! # Floating-point comparisons

`float64` values appear in `worker-pool-waitgroup` and `dedupe-api` only under
the comparisons `<`, `<=` and `>`.  The model keeps what those comparisons can
tell apart: not-a-number, the two infinities, and the finite values (each
finite `float64` is a rational number; both zeros are the rational `0`). -/

namespace GoFloat

/-- A Go `float64` as seen by comparisons. -/
inductive Float64 where
  | nan
  | negInf
  | fin (q : ℚ)
  | posInf
deriving DecidableEq

/-- The Go comparison `a < b`: false as soon as one side is not a number. -/
def Float64.lt : Float64 → Float64 → Bool
  | Float64.nan, _ => false
  | _, Float64.nan => false
  | _, Float64.negInf => false
  | Float64.negInf, _ => true
  | Float64.posInf, _ => false
  | Float64.fin _, Float64.posInf => true
  | Float64.fin a, Float64.fin b => decide (a < b)

/-- The Go comparison `a <= b`: false as soon as one side is not a number. -/
def Float64.le : Float64 → Float64 → Bool
  | Float64.nan, _ => false
  | _, Float64.nan => false
  | Float64.negInf, _ => true
  | _, Float64.posInf => true
  | Float64.posInf, _ => false
  | Float64.fin _, Float64.negInf => false
  | Float64.fin a, Float64.fin b => decide (a ≤ b)

/-- The Go comparison `a > b`. -/
def Float64.gt (a b : Float64) : Bool := Float64.lt b a

/-- The value is a number (finite or infinite). -/
def Float64.isNumber : Float64 → Bool
  | Float64.nan => false
  | _ => true

end GoFloat

/-! # Transaction validation (`concurrency/worker-pool-waitgroup`) -/

namespace WorkerPoolWaitgroup

open GoFloat

/-- Type `Transaction`. -/
structure Transaction where
  ID : Int
  Symbol : String
  Price : Float64
  Volume : Float64
  GasEstimate : Float64
  Signature : String
deriving DecidableEq

/-- Constant `reasonableGasPriceMin`. -/
def reasonableGasPriceMin : Float64 := Float64.fin 21000

/-- Constant `reasonableGasPriceMax`. -/
def reasonableGasPriceMax : Float64 := Float64.fin 1000000

/-- Keys of the map `supportedSymbolWhitelist`. -/
def supportedSymbolWhitelist : List String := ["BTC", "ETH", "SOL"]

/-- The five errors `validate` builds with `fmt.Errorf`, named after the check
that failed (the message text also prints the transaction). -/
inductive ValidateError where
  | price
  | volume
  | gasEstimate
  | symbol
  | signature
deriving DecidableEq, Repr

/-- Function `validate`: the checks in the order of the source; the second
component is the error, `none` for Go's `nil`. -/
def validate (tx : Transaction) : Bool × Option ValidateError :=
  if Float64.le tx.Price (Float64.fin 0) then (false, some ValidateError.price)
  else if Float64.le tx.Volume (Float64.fin 0) then (false, some ValidateError.volume)
  else if Float64.lt tx.GasEstimate reasonableGasPriceMin
      || Float64.gt tx.GasEstimate reasonableGasPriceMax then
    (false, some ValidateError.gasEstimate)
  else if !(supportedSymbolWhitelist.contains tx.Symbol) then
    (false, some ValidateError.symbol)
  else if tx.Signature = "" then (false, some ValidateError.signature)
  else (true, none)

/-- What the package comment requires of a valid transaction. -/
def Acceptable (tx : Transaction) : Prop :=
  tx.Symbol ∈ ["BTC", "ETH", "SOL"] ∧
  Float64.gt tx.Price (Float64.fin 0) = true ∧
  Float64.gt tx.Volume (Float64.fin 0) = true ∧
  Float64.le (Float64.fin 21000) tx.GasEstimate = true ∧
  Float64.le tx.GasEstimate (Float64.fin 1000000) = true ∧
  tx.Signature ≠ ""

end WorkerPoolWaitgroup

/-! # In-memory users database (`in-memory-users-db`) -/

namespace UsersDb

/-- Type `User`. -/
structure User where
  Name : String
  Phone : String
  Email : String
deriving DecidableEq, Repr

/-- Type `UserStore`.  The Go map `UserDB` is a list of key/value pairs with
no key twice; the Go set `seenEmails` is the list of its keys. -/
structure UserStore where
  UserDB : List (String × User)
  seenEmails : List String
deriving DecidableEq, Repr

/-- Function `NewUserStore`. -/
def NewUserStore : UserStore := { UserDB := [], seenEmails := [] }

/-- The map assignment `m[k] = v`: an entry under `k` is replaced. -/
def mapStore (m : List (String × User)) (k : String) (v : User) : List (String × User) :=
  m.filter (fun p => p.1 != k) ++ [(k, v)]

/-- The map read `v, ok := m[k]`. -/
def mapLoad (m : List (String × User)) (k : String) : Option User :=
  (m.find? (fun p => p.1 == k)).map Prod.snd

/-- Body of the `for` loop of `ImportUsers` for one user of the request. -/
def importOne (us : UserStore) (u : User) : UserStore :=
  if u.Name = "" ∨ u.Email = "" ∨ u.Phone = "" then us
  else if u.Email ∈ us.seenEmails then us
  else
    { seenEmails := us.seenEmails ++ [u.Email]
      UserDB := mapStore us.UserDB u.Name u }

/-- Method `ImportUsers`: the returned error (`none` for `nil`) and the store
afterwards. -/
def UserStore.ImportUsers (us : UserStore) (usersRequest : List User) :
    Option String × UserStore :=
  if usersRequest.length = 0 then (some "no users to import", us)
  else (none, usersRequest.foldl importOne us)

/-- Method `GetUsers`, with the map traversed in the order of the pairs.  Go
leaves the order of a map traversal open: a caller may see any permutation of
this list. -/
def UserStore.GetUsers (us : UserStore) : List User := us.UserDB.map Prod.snd

/-- Method `GetUserById`: the record pointed to (`none` for `nil`) and the
flag. -/
def UserStore.GetUserById (us : UserStore) (userName : String) : Option User × Bool :=
  if userName = "" then (none, false)
  else
    match mapLoad us.UserDB userName with
    | none => (none, false)
    | some u => (some u, true)

end UsersDb

/-! # Customer order deduplication (`dedupe-api`) -/

namespace DedupeApi

open GoFloat

/-- Type `Order`. -/
structure Order where
  ID : String
  CustomerName : String
  Email : String
  Amount : Float64
deriving DecidableEq

/-- The library call `strings.Trim(s, " ")` on the characters of `s`: leading
and trailing spaces are removed, nothing else. -/
def trimSpaces (cs : List Char) : List Char :=
  ((cs.dropWhile (fun c => c == ' ')).reverse.dropWhile (fun c => c == ' ')).reverse

/-- The library call `strings.Trim(s, " ")`. -/
def Trim (s : String) : String := String.mk (trimSpaces s.data)

/-- Function `NormalizeName`. -/
def NormalizeName (s : String) : String := Trim s

/-- Function `NormalizeEmail`; `toLower` is the library function
`strings.ToLower`. -/
def NormalizeEmail (toLower : String → String) (s : String) : String := Trim (toLower s)

/-- Function `NormalizeOrder`. -/
def NormalizeOrder (toLower : String → String) (order : Order) : Order :=
  { ID := order.ID
    Amount := order.Amount
    Email := NormalizeEmail toLower order.Email
    CustomerName := NormalizeName order.CustomerName }

/-- A character the regular expression `.` matches: any but the newline. -/
def anyChar (c : Char) : Bool := c != Char.ofNat 10

/-- Last part of the pattern, `.+` right after the literal dot. -/
def matchTail : List Char → Bool
  | [] => false
  | c :: _ => anyChar c

/-- Middle of the pattern once one character of the second `.+` is consumed:
more such characters, then a literal dot followed by the last part. -/
def matchDot : List Char → Bool
  | [] => false
  | c :: cs => (c == '.' && matchTail cs) || (anyChar c && matchDot cs)

/-- The pattern after the `@`: `.+\..+`. -/
def matchAfterAt : List Char → Bool
  | [] => false
  | c :: cs => anyChar c && matchDot cs

/-- Some part of the text matches `.+@.+\..+`: an `@` with a character before
it and the rest of the pattern after it. -/
def matchEmail : List Char → Bool
  | [] => false
  | c :: cs =>
    (match cs with
     | d :: ds => anyChar c && d == '@' && matchAfterAt ds
     | [] => false) || matchEmail cs

/-- Function `ValidateEmail`: `regexp.MatchString` of the pattern. -/
def ValidateEmail (s : String) : Bool := matchEmail s.data

/-- The map read `existing, ok := byEmail[k]`. -/
def mapLoad (m : List (String × Order)) (k : String) : Option Order :=
  (m.find? (fun p => p.1 == k)).map Prod.snd

/-- The map assignment `byEmail[k] = v`. -/
def mapStore (m : List (String × Order)) (k : String) (v : Order) : List (String × Order) :=
  m.filter (fun p => p.1 != k) ++ [(k, v)]

/-- Body of the deduplication loop of `handleOrders` for one record. -/
def dedupeStep (toLower : String → String) (byEmail : List (String × Order)) (o : Order) :
    List (String × Order) :=
  let no := NormalizeOrder toLower o
  if !ValidateEmail no.Email then byEmail
  else
    match mapLoad byEmail no.Email with
    | none => mapStore byEmail no.Email no
    | some existing =>
      if Float64.gt no.Amount existing.Amount then mapStore byEmail no.Email no
      else byEmail

/-- The map `byEmail` that `handleOrders` builds from the decoded request:
`all` is `SystemA` followed by `SystemB`. -/
def dedupeByEmail (toLower : String → String) (systemA systemB : List Order) :
    List (String × Order) :=
  (systemA ++ systemB).foldl (dedupeStep toLower) []

/-- The Go comparison `a < b` of two strings: lexicographic. -/
def strLess (a b : String) : Bool := decide (a.data < b.data)

/-- What `strings.ToLower` does to a text of ASCII characters. -/
def asciiLower (s : String) : String := String.mk (s.data.map Char.toLower)

/-- The text has two spaces in a row. -/
def hasSpaceRun : List Char → Bool
  | c :: d :: cs => (c == ' ' && d == ' ') || hasSpaceRun (d :: cs)
  | _ => false

/-- The name normalisation the package comment describes: outer spaces
trimmed, every inner run of spaces replaced by one space. -/
def collapseSpaces : List Char → List Char
  | c :: d :: cs =>
    if c == ' ' && d == ' ' then collapseSpaces (d :: cs) else c :: collapseSpaces (d :: cs)
  | cs => cs

/-- The documented name normalisation as a function on strings. -/
def normalizeNameDoc (s : String) : String := String.mk (collapseSpaces (trimSpaces s.data))

end DedupeApi

/-! # Exponential backoff with jitter (`time-and-retries`,
`time-and-retries-with-ctx`, `networking/pagination-and-retries`) -/

namespace Retries

/-- A value of Go type `int64` (also `time.Duration`, a count of nanoseconds)
after an operation: the result wrapped to the signed 64-bit range. -/
def wrap64 (x : Int) : Int := (x + 2 ^ 63) % 2 ^ 64 - 2 ^ 63

/-- Constant `jitterDivider`. -/
def jitterDivider : Int := 4

/-- Function `min` of the source. -/
def min (a b : Int) : Int := if a < b then a else b

/-- Function `jitter`.  `neg` and `pos` are the outcomes of the two calls
`rand.Int63n(n)`, which are made only when `n > 0`. -/
def jitter (d : Int) (neg pos : Int) : Int :=
  let n := Int.tdiv d jitterDivider
  if n ≤ 0 then d
  else
    let x := wrap64 (wrap64 (d - neg) + pos)
    if x < 0 then d else x

/-- The Go shift `base << attempt` on a `time.Duration`, `attempt >= 0`: the
low 64 bits of the product, read as a signed number. -/
def shl (base : Int) (attempt : Nat) : Int := wrap64 (base * 2 ^ attempt)

/-- The statement `delay := min(max, base<<attempt)` of `Retry` and
`RetryCtx`. -/
def delayAt (base max : Int) (attempt : Nat) : Int := min max (shl base attempt)

/-- The duration passed to `time.Sleep` (in `RetryCtx`, to `time.NewTimer`)
at `attempt`: the jittered delay, capped at `max`. -/
def sleepAt (base max : Int) (attempt : Nat) (neg pos : Int) : Int :=
  let sleep := jitter (delayAt base max attempt) neg pos
  if sleep > max then max else sleep

/-- How a call of `Retry` or `RetryCtx` ends. -/
inductive Outcome where
  | ok
  | maxRetriesReached
  | ctxErr
deriving DecidableEq, Repr

/-- The loop of `Retry` from `attempt` on, with `left = maxRetries - attempt`
iterations after this one.  `op k` says whether the call of `op` at attempt
`k` fails, `draws k` gives the two random outcomes at attempt `k`.  The
result is how the call ends and the durations slept, oldest first. -/
def retryLoop (base max : Int) (op : Nat → Bool) (draws : Nat → Int × Int) :
    Nat → Nat → Outcome × List Int
  | 0, attempt =>
    if op attempt then (Outcome.maxRetriesReached, []) else (Outcome.ok, [])
  | left + 1, attempt =>
    if op attempt then
      let sleep := sleepAt base max attempt (draws attempt).1 (draws attempt).2
      let r := retryLoop base max op draws left (attempt + 1)
      (r.1, sleep :: r.2)
    else (Outcome.ok, [])

/-- Function `Retry`.  With a negative `maxRetries` the loop body never runs
and the function returns `nil`. -/
def Retry (maxRetries : Int) (base max : Int) (op : Nat → Bool) (draws : Nat → Int × Int) :
    Outcome × List Int :=
  if maxRetries < 0 then (Outcome.ok, [])
  else retryLoop base max op draws maxRetries.toNat 0

/-- The loop of `RetryCtx`; as `retryLoop`, and `done k` says whether the
`select` after attempt `k` takes `ctx.Done()` instead of the timer.  The
timer durations are listed, also the one the context interrupts. -/
def retryCtxLoop (base max : Int) (op : Nat → Bool) (draws : Nat → Int × Int)
    (done : Nat → Bool) : Nat → Nat → Outcome × List Int
  | 0, attempt =>
    if op attempt then (Outcome.maxRetriesReached, []) else (Outcome.ok, [])
  | left + 1, attempt =>
    if op attempt then
      let sleep := sleepAt base max attempt (draws attempt).1 (draws attempt).2
      if done attempt then (Outcome.ctxErr, [sleep])
      else
        let r := retryCtxLoop base max op draws done left (attempt + 1)
        (r.1, sleep :: r.2)
    else (Outcome.ok, [])

/-- Function `RetryCtx`.  With a negative `maxRetries` it returns the `nil`
that `err` holds. -/
def RetryCtx (maxRetries : Int) (base max : Int) (op : Nat → Bool)
    (draws : Nat → Int × Int) (done : Nat → Bool) : Outcome × List Int :=
  if maxRetries < 0 then (Outcome.ok, [])
  else retryCtxLoop base max op draws done maxRetries.toNat 0

end Retries

/-! # HMAC-verified fetch with retry (`hmac-with-retry`) -/

namespace HmacRetry

/-- Type `Event`. -/
structure Event where
  EventID : String
  Timestamp : String
  UserID : String
  Action : String
deriving DecidableEq, Repr

/-- What one call `client.Get(parnerUrl)` gives: a network error, or a
response with its status code and with what reading, parsing and verifying its
body yields (the error text, or the decoded event). -/
inductive Reply where
  | netErr
  | http (status : Int) (payload : Except String Event)

/-- How a call of `fetchEvents` ends: with an event, with an error, or in a
run-time panic. -/
inductive Result where
  | event (e : Event)
  | err (msg : String)
  | panics
deriving DecidableEq, Repr

/-- Constant `http.StatusTooManyRequests`. -/
def StatusTooManyRequests : Int := 429

/-- Constant `baseJitter`, in nanoseconds. -/
def baseJitter : Int := 500000000

/-- A Go `int64` result wrapped to the signed 64-bit range. -/
def wrap64 (x : Int) : Int := (x + 2 ^ 63) % 2 ^ 64 - 2 ^ 63

/-- Function `jitterBackoff`; `draw` is `rand.Int63n`.  `none` when it panics:
on the negative shift count of `attempt = 0`, and in `rand.Int63n` when its
argument is not positive. -/
def jitterBackoff (draw : Int → Int) (baseJ : Int) (attempt : Int) : Option Int :=
  if attempt - 1 < 0 then none
  else
    let max := wrap64 (baseJ * wrap64 (2 ^ (attempt - 1).toNat))
    if max ≤ 0 then none else some (draw max)

/-- The loop of `fetchEvents` at index `i` with `left` iterations to go
(`left = retries - i`).  `get k` is the outcome of the `k`-th call of
`client.Get`, counted from 0.  The result comes with the number of calls of
`client.Get` made. -/
def fetchLoop (get : Nat → Reply) (draw : Int → Int) : Nat → Nat → Result × Nat
  | 0, i => (Result.err "fetchEvents: reties exhausted", i)
  | left + 1, i =>
    match get i with
    | Reply.netErr => (Result.err "fetchEvents: could not retrieve events", i + 1)
    | Reply.http status payload =>
      if status ≥ 400 then
        if status = StatusTooManyRequests then
          match jitterBackoff draw baseJitter i with
          | none => (Result.panics, i + 1)
          | some _ => fetchLoop get draw left (i + 1)
        else (Result.err "fetchEvents: bad request", i + 1)
      else
        match payload with
        | Except.error msg => (Result.err msg, i + 1)
        | Except.ok e => (Result.event e, i + 1)

/-- Function `fetchEvents`: how it ends, and how many times it called
`client.Get`. -/
def fetchEvents (get : Nat → Reply) (draw : Int → Int) (retries : Int) : Result × Nat :=
  fetchLoop get draw retries.toNat 0

/-- Constant `maxRetries`. -/
def maxRetries : Int := 5

end HmacRetry

/-! # Producer goroutine of `main` (`context-aware-token-bucket`,
`context-aware-worker-pool`) -/

namespace JobProducer

/-- Constant `totalJobsCount`. -/
def totalJobsCount : Int := 12

/-- What the producer goroutine does to the `jobs` channel. -/
inductive Action where
  | send (v : Int)
  | close
deriving DecidableEq, Repr

/-- The producer's `for` loop from `i` on, with fuel for `fuel` iterations and
the final `close(jobs)`.  `cancelled k` says whether the `select` of the
iteration that has `k` sends behind it runs its `ctx.Done()` case (otherwise it
runs the send).  The result is the channel operations of the goroutine up to
its return, oldest first; `none` when the fuel runs out before it returns. -/
def producerLoop (cancelled : Nat → Bool) : Nat → Int → Nat → Option (List Action)
  | 0, _, _ => none
  | fuel + 1, i, k =>
    if i ≤ totalJobsCount then
      if cancelled k then some [Action.close]
      else (producerLoop cancelled fuel (i + 1) (k + 1)).map (fun acts => Action.send i :: acts)
    else some [Action.close]

/-- The producer goroutine of `main`: `i` starts at 1. -/
def producer (cancelled : Nat → Bool) (fuel : Nat) : Option (List Action) :=
  producerLoop cancelled fuel 1 0

/-- Number of `close(jobs)` among the operations. -/
def closes (acts : List Action) : Nat := acts.count Action.close

/-- No send comes after a close in the sequence of operations. -/
def noSendAfterClose : List Action → Bool
  | [] => true
  | Action.send _ :: rest => noSendAfterClose rest
  | Action.close :: rest => rest.all (fun a => a == Action.close)

end JobProducer
namespace TokenBucket

/-! ## Job store: proofs -/

theorem goCopy_replicate (xs : List Int) :
    goCopy (List.replicate xs.length 0) xs = xs := by
  simp [goCopy]

theorem Snapshot_fst (js : JobStore) : js.Snapshot.1 = js.data := by
  simp [JobStore.Snapshot, goCopy_replicate]

theorem foldl_Set_data (vs : List Int) (js : JobStore) :
    (vs.foldl JobStore.Set js).data = js.data ++ vs := by
  induction vs generalizing js with
  | nil => simp
  | cons v vs ih => simp [List.foldl_cons, ih, JobStore.Set]

/-- C6: after `Set v1`, ..., `Set vn` on an empty store, `Snapshot` returns
exactly `[v1, ..., vn]`, in call order. -/
theorem Snapshot_after_Sets (vs : List Int) :
    (vs.foldl JobStore.Set { data := [] }).Snapshot.1 = vs := by
  rw [Snapshot_fst, foldl_Set_data]
  simp

/-- C7: `Snapshot` leaves the store as it was, and a second `Snapshot` taken
right after the first returns the same sequence. -/
theorem Snapshot_idempotent (js : JobStore) :
    js.Snapshot.2 = js ∧ js.Snapshot.2.Snapshot.1 = js.Snapshot.1 := by
  constructor <;> rfl

/-! ## Rate limiter: proofs -/

theorem NewLimiter_some {rate burst : Int} {l : limiter}
    (h : NewLimiter rate burst = some l) :
    l = { rate := rate, burst := burst, tokens := 0 } ∧ 0 ≤ burst ∧ rate ≠ 0 ∧
      0 < tickerPeriod rate := by
  unfold NewLimiter at h
  split_ifs at h with h1 h2 h3
  simp only [Option.some.injEq] at h
  exact ⟨h.symm, by omega, h2, by omega⟩

/-- Whoever receives the token, a tick changes the buffer only by the one token
it has room for. -/
theorem refillTick_fst (l : limiter) (parked : Bool) :
    (refillTick l parked).1 =
      if l.tokens < l.burst then { l with tokens := l.tokens + 1 } else l := by
  unfold refillTick
  split_ifs <;> rfl

theorem limStep_burst (l : limiter) (op : LimOp) : (limStep l op).burst = l.burst := by
  cases op with
  | tick parked => simp only [limStep, refillTick_fst]; split_ifs <;> rfl
  | acquire ctx pick =>
    simp only [limStep, limiter.Acquire, limiter.recvToken]
    cases ctx <;> cases pick <;> by_cases h : 0 < l.tokens <;> simp [select2, h]

theorem limStep_bounds (l : limiter) (op : LimOp)
    (h : 0 ≤ l.tokens ∧ l.tokens ≤ l.burst) :
    0 ≤ (limStep l op).tokens ∧ (limStep l op).tokens ≤ l.burst := by
  cases op with
  | tick parked =>
    simp only [limStep, refillTick_fst]
    split_ifs <;> (try simp only []) <;> omega
  | acquire ctx pick =>
    simp only [limStep, limiter.Acquire, limiter.recvToken]
    cases ctx <;> cases pick <;> by_cases h0 : 0 < l.tokens <;> simp [select2, h0] <;> omega

theorem limRun_bounds (ops : List LimOp) (l : limiter)
    (h : 0 ≤ l.tokens ∧ l.tokens ≤ l.burst) :
    (limRun l ops).burst = l.burst ∧ 0 ≤ (limRun l ops).tokens ∧
      (limRun l ops).tokens ≤ l.burst := by
  induction ops generalizing l with
  | nil => simpa [limRun] using h
  | cons op ops ih =>
    have hb := limStep_burst l op
    have hs := limStep_bounds l op h
    have := ih (limStep l op) (by rw [hb]; exact hs)
    simpa [limRun, hb] using this

/-- C1: from creation on, after every sequence of refill ticks and `Acquire`
calls the bucket holds at least 0 and at most `burst` tokens. -/
theorem tokens_within_burst (rate burst : Int) (l : limiter)
    (h : NewLimiter rate burst = some l) (ops : List LimOp) :
    0 ≤ (limRun l ops).tokens ∧ (limRun l ops).tokens ≤ burst := by
  obtain ⟨rfl, hb, -, -⟩ := NewLimiter_some h
  exact (limRun_bounds ops _ ⟨le_refl _, hb⟩).2

theorem tokens_within_burst_witness :
    NewLimiter 5 2 = some { rate := 5, burst := 2, tokens := 0 } ∧
      0 ≤ (limRun { rate := 5, burst := 2, tokens := 0 }
            [LimOp.tick false, LimOp.tick false, LimOp.tick false,
              LimOp.acquire none false]).tokens ∧
      (limRun { rate := 5, burst := 2, tokens := 0 }
            [LimOp.tick false, LimOp.tick false, LimOp.tick false,
              LimOp.acquire none false]).tokens ≤ 2 :=
  ⟨by decide, tokens_within_burst 5 2 _ (by decide) _⟩


/-- After `n` ticks with no `Acquire` in between, a bucket that held `k` tokens
holds `min(burst, k + n)`: ticks are counted as they are handled, whenever the
ticker delivers them. -/
theorem limRun_ticks (ps : List Bool) (l : limiter) (h : 0 ≤ l.tokens ∧ l.tokens ≤ l.burst) :
    (limRun l (ps.map LimOp.tick)).tokens = min l.burst (l.tokens + ps.length) := by
  induction ps generalizing l with
  | nil => simp [limRun]; omega
  | cons p ps ih =>
    have hb := limStep_burst l (LimOp.tick p)
    have hs := limStep_bounds l (LimOp.tick p) h
    have := ih (limStep l (LimOp.tick p)) (by rw [hb]; exact hs)
    simp only [limRun, List.map_cons, List.foldl_cons, List.length_cons] at this ⊢
    rw [this, hb]
    simp only [limStep, refillTick_fst]
    split_ifs <;> (try simp only []) <;> push_cast <;> omega

/-- C3, as the code has it: with the context already done, `Acquire` never
blocks.  On an empty bucket it returns the context's error and leaves the count
unchanged.  On a bucket holding tokens both `select` cases are ready: it
returns either the context's error with the count unchanged, or `nil` with
exactly one token consumed. -/
theorem Acquire_cancelled (l : limiter) (e : CtxErr) (pick : Bool) :
    l.Acquire (some e) pick =
      if 0 < l.tokens ∧ pick = false then some (none, { l with tokens := l.tokens - 1 })
      else some (some e, l) := by
  simp only [limiter.Acquire, limiter.recvToken]
  by_cases h : 0 < l.tokens <;> cases pick <;> simp [select2, h]

/-- C3 as stated fails on a bucket holding tokens: with the context already
cancelled and one token buffered, `Acquire` can take the token and return `nil`. -/
theorem Acquire_cancelled_takes_token :
    limiter.Acquire { rate := 5, burst := 10, tokens := 1 } (some CtxErr.Canceled) false =
      some (none, { rate := 5, burst := 10, tokens := 0 }) := by
  decide

/-- C4 as stated fails on the unbuffered bucket of `NewLimiter(5, 0)`: it holds
`burst` (zero) tokens, a goroutine that calls `Acquire` blocks, and the next
tick is not dropped: the send proceeds and hands its token to that goroutine. -/
theorem refillTick_hands_token_at_burst_zero :
    NewLimiter 5 0 = some { rate := 5, burst := 0, tokens := 0 } ∧
    ({ rate := 5, burst := 0, tokens := 0 } : limiter).tokens =
      ({ rate := 5, burst := 0, tokens := 0 } : limiter).burst ∧
    limiter.Acquire { rate := 5, burst := 0, tokens := 0 } none false = none ∧
    refillTick { rate := 5, burst := 0, tokens := 0 } true =
      ({ rate := 5, burst := 0, tokens := 0 }, true) := by
  decide

/-- C4, amended: one refill tick adds exactly one token when the bucket holds
fewer than `burst` tokens.  When it holds `burst` tokens the tick leaves the
bucket unchanged; it is dropped, and any number of further ticks leave the
limiter exactly as it was (nothing is carried over), if `burst >= 1` or no
goroutine is blocked in `Acquire`; with `burst = 0` and a goroutine blocked in
`Acquire` the token is handed to that goroutine. -/
theorem refillTick_spec (l : limiter) (parked : Bool) :
    (l.tokens < l.burst →
        refillTick l parked = ({ l with tokens := l.tokens + 1 }, false)) ∧
    (l.tokens = l.burst → (0 < l.burst ∨ parked = false) →
        refillTick l parked = (l, false) ∧
          ∀ ps : List Bool, limRun l (ps.map LimOp.tick) = l) ∧
    (l.tokens = l.burst → l.burst = 0 → parked = true →
        refillTick l parked = (l, true)) := by
  refine ⟨fun h => by simp [refillTick, h], fun h hb => ⟨?_, fun ps => ?_⟩, fun h h0 hp => ?_⟩
  · have hn : ¬ (l.burst = 0 ∧ parked = true) := by
      rintro ⟨h0, hp⟩
      rcases hb with hb | hb
      · omega
      · rw [hp] at hb; cases hb
    simp [refillTick, h, hn]
  · have h1 : ∀ p, (refillTick l p).1 = l := fun p => by simp [refillTick_fst, h]
    induction ps with
    | nil => rfl
    | cons p ps ih => simpa [limRun, limStep, h1] using ih
  · simp [refillTick, h, h0, hp]

theorem refillTick_spec_witness :
    refillTick { rate := 5, burst := 10, tokens := 3 } true =
        ({ rate := 5, burst := 10, tokens := 3 + 1 }, false) ∧
      (refillTick { rate := 5, burst := 10, tokens := 10 } true =
          ({ rate := 5, burst := 10, tokens := 10 }, false) ∧
        ∀ ps : List Bool,
          limRun { rate := 5, burst := 10, tokens := 10 } (ps.map LimOp.tick) =
            { rate := 5, burst := 10, tokens := 10 }) ∧
      refillTick { rate := 5, burst := 0, tokens := 0 } true =
        ({ rate := 5, burst := 0, tokens := 0 }, true) :=
  ⟨(refillTick_spec { rate := 5, burst := 10, tokens := 3 } true).1 (by decide),
   (refillTick_spec { rate := 5, burst := 10, tokens := 10 } true).2.1 rfl
     (Or.inl (by decide)),
   (refillTick_spec { rate := 5, burst := 0, tokens := 0 } true).2.2 rfl rfl rfl⟩


/-! ## Worker pool: proofs -/

theorem countP_set (p : Worker → Bool) (ws : List Worker) (i : Nat) (a b : Worker)
    (h : ws[i]? = some a) :
    (ws.set i b).countP p + (if p a then 1 else 0) = ws.countP p + (if p b then 1 else 0) := by
  induction ws generalizing i with
  | nil => simp at h
  | cons w ws ih =>
    cases i with
    | zero =>
      simp only [List.getElem?_cons_zero, Option.some.injEq] at h
      subst h
      simp only [List.set_cons_zero, List.countP_cons]
      omega
    | succ i =>
      simp only [List.getElem?_cons_succ] at h
      have := ih i h
      simp only [List.set_cons_succ, List.countP_cons]
      omega

theorem counts_set (ws : List Worker) (i : Nat) (a b : Worker) (h : ws[i]? = some a) :
    numActive (ws.set i b) + (if a != Worker.stopped then 1 else 0) =
        numActive ws + (if b != Worker.stopped then 1 else 0) ∧
      numProcessing (ws.set i b) +
          (if (match a with | Worker.processing _ => true | _ => false) then 1 else 0) =
        numProcessing ws +
          (if (match b with | Worker.processing _ => true | _ => false) then 1 else 0) ∧
      numDequeuing (ws.set i b) + (if a == Worker.dequeuing then 1 else 0) =
        numDequeuing ws + (if b == Worker.dequeuing then 1 else 0) :=
  ⟨countP_set _ ws i a b h, countP_set _ ws i a b h, countP_set _ ws i a b h⟩

theorem numActive_le (ws : List Worker) : numActive ws ≤ ws.length :=
  List.countP_le_length _

theorem active_of_get {ws : List Worker} {i : Nat} {a : Worker} (h : ws[i]? = some a)
    (ha : a ≠ Worker.stopped) : 1 ≤ numActive ws := by
  have := (counts_set ws i a Worker.stopped h).1
  simp [ha] at this
  omega

theorem select2_inl {α β : Type} {a : Option α} {b : Option β} {pick : Bool} {x : α}
    (h : select2 a b pick = some (Sum.inl x)) : a = some x := by
  cases a <;> cases b <;> cases pick <;> simp_all [select2]

theorem select2_inr {α β : Type} {a : Option α} {b : Option β} {pick : Bool} {y : β}
    (h : select2 a b pick = some (Sum.inr y)) : b = some y := by
  cases a <;> cases b <;> cases pick <;> simp_all [select2]

theorem Acquire_err {l l' : limiter} {ctx : Context} {pick : Bool} {e : CtxErr}
    (h : l.Acquire ctx pick = some (some e, l')) : ctx = some e ∧ l' = l := by
  unfold limiter.Acquire at h
  cases hs : select2 ctx l.recvToken pick with
  | none => simp [hs] at h
  | some r =>
    cases r with
    | inl x =>
      simp only [hs, Option.some.injEq, Prod.mk.injEq] at h
      obtain ⟨h1, h2⟩ := h
      subst h1 h2
      exact ⟨select2_inl hs, rfl⟩
    | inr y => simp [hs] at h

theorem Acquire_ok {l l' : limiter} {ctx : Context} {pick : Bool}
    (h : l.Acquire ctx pick = some (none, l')) :
    0 < l.tokens ∧ l' = { l with tokens := l.tokens - 1 } := by
  unfold limiter.Acquire at h
  cases hs : select2 ctx l.recvToken pick with
  | none => simp [hs] at h
  | some r =>
    cases r with
    | inl x => simp [hs] at h
    | inr y =>
      simp only [hs, Option.some.injEq, Prod.mk.injEq, true_and] at h
      subst h
      have := select2_inr hs
      unfold limiter.recvToken at this
      split_ifs at this with h0
      simp only [Option.some.injEq] at this
      exact ⟨h0, this.symm⟩

theorem recv_closed {c c' : Chan} (h : c.recv = some (none, c')) :
    c.closed = true ∧ c.buf = [] := by
  unfold Chan.recv at h
  cases hb : c.buf with
  | nil =>
    simp only [hb] at h
    split_ifs at h with hc
    exact ⟨hc, rfl⟩
  | cons j rest => simp [hb] at h

theorem recv_job {c c' : Chan} {j : Int} (h : c.recv = some (some j, c')) :
    c.buf = j :: c'.buf ∧ c'.closed = c.closed ∧ c'.cap = c.cap := by
  unfold Chan.recv at h
  cases hb : c.buf with
  | nil =>
    simp only [hb] at h
    split_ifs at h
    simp at h
  | cons j0 rest =>
    simp only [hb, Option.some.injEq, Prod.mk.injEq] at h
    obtain ⟨h1, h2⟩ := h
    subst h1 h2
    exact ⟨rfl, rfl, rfl⟩

theorem exit_inv {s : Pool} {i : Nat} {a : Worker} (hw : s.workers[i]? = some a)
    (hns : a ≠ Worker.stopped) (hnp : ∀ j, a ≠ Worker.processing j)
    (hstop : s.ctx.isSome = true ∨ (s.jobs.closed = true ∧ s.jobs.buf = []))
    (hi : Inv s) : Inv (s.exit i) := by
  obtain ⟨c1, c2, c3⟩ := counts_set s.workers i a Worker.stopped hw
  have hp : (match a with | Worker.processing _ => true | _ => false) = false := by
    cases a with
    | processing j => exact absurd rfl (hnp j)
    | _ => rfl
  simp [hns, hp] at c1 c2 c3
  obtain ⟨i1, i2, i3, i4, i5, i6, i7⟩ := hi
  refine ⟨?_, ?_, ?_, ?_, ?_, ?_, ?_⟩
  · simp only [Pool.exit]; omega
  · simp only [Pool.exit]; omega
  · simpa [Pool.exit] using i3
  · intro l hl
    have := i4 l (by simpa [Pool.exit] using hl)
    simp only [Pool.exit]
    split_ifs at c3 <;> omega
  · simpa [Pool.exit] using i5
  · intro _
    simpa [Pool.exit] using hstop
  · intro r hr
    have := i7 r (by simpa [Pool.exit] using hr)
    omega

theorem workerStep_inv {s s' : Pool} {i : Nat} {pick : Bool}
    (h : workerStep s i pick = some s') (hi : Inv s) : Inv s' := by
  unfold workerStep at h
  cases hw : s.workers[i]? with
  | none => simp [hw] at h
  | some w =>
    cases w with
    | stopped => simp [hw] at h
    | acquiring =>
      simp only [hw] at h
      cases hl : s.lim with
      | none => simp [hl] at h
      | some l =>
        simp only [hl] at h
        cases ha : l.Acquire s.ctx pick with
        | none => simp [ha] at h
        | some r =>
          obtain ⟨err, l'⟩ := r
          cases err with
          | some e =>
            simp only [ha, Option.some.injEq] at h
            subst h
            have hc := (Acquire_err ha).1
            exact exit_inv hw (by simp) (by simp) (Or.inl (by simp [hc])) hi
          | none =>
            simp only [ha, Option.some.injEq] at h
            subst h
            obtain ⟨ht, rfl⟩ := Acquire_ok ha
            obtain ⟨c1, c2, c3⟩ := counts_set s.workers i _ Worker.dequeuing hw
            simp at c1 c2 c3
            obtain ⟨i1, i2, i3, i4, i5, i6, i7⟩ := hi
            have i4l := i4 l hl
            refine ⟨?_, ?_, ?_, ?_, ?_, ?_, ?_⟩
            · simp only; omega
            · simp only; omega
            · exact i3
            · intro l2 hl2
              simp only [Option.some.injEq] at hl2
              subst hl2
              simp only
              omega
            · simpa [hl] using i5
            · intro hlt
              simp only [List.length_set] at hlt
              exact i6 (by omega)
            · exact i7
    | dequeuing =>
      simp only [hw] at h
      cases hsel : select2 s.ctx s.jobs.recv pick with
      | none => simp [hsel] at h
      | some r =>
        cases r with
        | inl e =>
          simp only [hsel, Option.some.injEq] at h
          subst h
          exact exit_inv hw (by simp) (by simp) (Or.inl (by simp [select2_inl hsel])) hi
        | inr y =>
          obtain ⟨oj, c⟩ := y
          cases oj with
          | none =>
            simp only [hsel, Option.some.injEq] at h
            subst h
            exact exit_inv hw (by simp) (by simp) (Or.inr (recv_closed (select2_inr hsel))) hi
          | some j =>
            simp only [hsel, Option.some.injEq] at h
            subst h
            obtain ⟨hb, hcl, -⟩ := recv_job (select2_inr hsel)
            obtain ⟨c1, c2, c3⟩ := counts_set s.workers i _ (Worker.processing j) hw
            simp at c1 c2 c3
            obtain ⟨i1, i2, i3, i4, i5, i6, i7⟩ := hi
            simp only [hb, List.length_cons] at i3
            refine ⟨?_, ?_, ?_, ?_, ?_, ?_, ?_⟩
            · simp only; omega
            · simp only; omega
            · simp only; omega
            · intro l hl
              have := i4 l hl
              simp only
              push_cast
              omega
            · exact i5
            · intro hlt
              simp only [List.length_set] at hlt
              rcases i6 (by omega) with h1 | ⟨-, h2⟩
              · exact Or.inl h1
              · simp [hb] at h2
            · intro r hr
              have := i7 r hr
              exact ⟨this.1, this.2⟩
    | processing j =>
      simp only [hw, Option.some.injEq] at h
      subst h
      obtain ⟨i1, i2, i3, i4, i5, i6, i7⟩ := hi
      have hact := active_of_get hw (by simp)
      obtain ⟨c1, c2, c3⟩ := counts_set s.workers i _ (loopStart s.variant) hw
      have hls : (s.lim.isSome = true ∧ loopStart s.variant = Worker.acquiring) ∨
          (s.lim = none ∧ loopStart s.variant = Worker.dequeuing) := by
        cases hv : s.variant with
        | tokenBucket => exact Or.inl ⟨i5.2 hv, rfl⟩
        | workerPool =>
          refine Or.inr ⟨?_, rfl⟩
          cases hl : s.lim with
          | none => rfl
          | some l =>
            have := i5.1 (by simp [hl])
            simp [hv] at this
      have hset : (JobStore.Set s.js (wrapInt (j * 2))).data.length = s.js.data.length + 1 := by
        simp [JobStore.Set]
      rcases hls with ⟨h1, h2⟩ | ⟨h1, h2⟩
      · simp only [h2] at c1 c2 c3 ⊢
        simp at c1 c2 c3
        refine ⟨?_, ?_, ?_, ?_, ?_, ?_, ?_⟩
        · simp only; omega
        · simp only [hset]; omega
        · exact i3
        · intro l hl
          have := i4 l hl
          simp only
          omega
        · exact i5
        · intro hlt
          simp only [List.length_set] at hlt
          exact i6 (by omega)
        · intro r hr
          have := i7 r hr
          omega
      · simp only [h2] at c1 c2 c3 ⊢
        simp at c1 c2 c3
        refine ⟨?_, ?_, ?_, ?_, ?_, ?_, ?_⟩
        · simp only; omega
        · simp only [hset]; omega
        · exact i3
        · intro l hl
          have hl0 : s.lim = some l := hl
          simp [h1] at hl0
        · exact i5
        · intro hlt
          simp only [List.length_set] at hlt
          exact i6 (by omega)
        · intro r hr
          have := i7 r hr
          omega

theorem step_inv {s s' : Pool} {e : Event} (h : step s e = some s') (hi : Inv s) : Inv s' := by
  cases e with
  | worker i pick => exact workerStep_inv h hi
  | cancel e =>
    simp only [step, Option.some.injEq] at h
    subst h
    obtain ⟨i1, i2, i3, i4, i5, i6, i7⟩ := hi
    exact ⟨i1, i2, i3, i4, i5, fun _ => Or.inl rfl, i7⟩
  | tick =>
    simp only [step] at h
    cases hl : s.lim with
    | none => simp [hl] at h
    | some l =>
      simp only [hl] at h
      by_cases ha : s.refillAlive = true
      · simp only [ha, if_true, Option.some.injEq] at h
        subst h
        obtain ⟨i1, i2, i3, i4, i5, i6, i7⟩ := hi
        have i4l := i4 l hl
        refine ⟨i1, i2, i3, ?_, ?_, i6, i7⟩
        · intro l2 hl2
          simp only [Option.some.injEq] at hl2
          subst hl2
          simp only [refillTick_fst]
          split_ifs <;> (try simp only []) <;> push_cast <;> omega
        · simpa [hl] using i5
      · simp [ha] at h
  | refillExit =>
    simp only [step] at h
    split_ifs at h
    simp only [Option.some.injEq] at h
    subst h
    obtain ⟨i1, i2, i3, i4, i5, i6, i7⟩ := hi
    exact ⟨i1, i2, i3, i4, i5, i6, i7⟩
  | send v =>
    simp only [step] at h
    cases hc : s.jobs.send v with
    | none => simp [hc] at h
    | some c =>
      simp only [hc, Option.some.injEq] at h
      subst h
      unfold Chan.send at hc
      split_ifs at hc with h1 h2
      simp only [Option.some.injEq] at hc
      subst hc
      obtain ⟨i1, i2, i3, i4, i5, i6, i7⟩ := hi
      refine ⟨i1, i2, ?_, i4, i5, ?_, i7⟩
      · simp only [List.length_append, List.length_singleton]; omega
      · intro hlt
        rcases i6 hlt with h3 | ⟨h3, -⟩
        · exact Or.inl h3
        · exact absurd h3 h1
  | handoff v i =>
    simp only [step] at h
    split_ifs at h with hc
    simp only [Option.some.injEq] at h
    subst h
    simp only [Bool.and_eq_true, Bool.not_eq_true', List.isEmpty_iff, beq_iff_eq] at hc
    obtain ⟨⟨hcl, hb⟩, hw⟩ := hc
    obtain ⟨c1, c2, c3⟩ := counts_set s.workers i _ (Worker.processing v) hw
    simp at c1 c2 c3
    obtain ⟨i1, i2, i3, i4, i5, i6, i7⟩ := hi
    refine ⟨?_, ?_, ?_, ?_, i5, ?_, i7⟩
    · simp only; omega
    · simp only; omega
    · simp only; omega
    · intro l hl
      have := i4 l hl
      simp only
      push_cast
      omega
    · intro hlt
      simp only [List.length_set] at hlt
      rcases i6 (by omega) with h3 | ⟨h3, -⟩
      · exact Or.inl h3
      · simp [hcl] at h3
  | close =>
    simp only [step] at h
    split_ifs at h with hc
    simp only [Option.some.injEq] at h
    subst h
    obtain ⟨i1, i2, i3, i4, i5, i6, i7⟩ := hi
    refine ⟨i1, i2, i3, i4, i5, ?_, i7⟩
    intro hlt
    rcases i6 hlt with h3 | ⟨h3, -⟩
    · exact Or.inl h3
    · exact absurd h3 hc
  | wait =>
    simp only [step] at h
    split_ifs at h with hc
    simp only [Option.some.injEq] at h
    subst h
    obtain ⟨i1, i2, i3, i4, i5, i6, i7⟩ := hi
    refine ⟨i1, i2, i3, i4, i5, i6, ?_⟩
    intro r hr
    simp only [Option.some.injEq] at hr
    subst hr
    exact ⟨hc.1, Snapshot_fst s.js⟩

theorem run_inv {evs : List Event} {s s' : Pool} (h : run s evs = some s') (hi : Inv s) :
    Inv s' := by
  induction evs generalizing s with
  | nil =>
    simp only [run, Option.some.injEq] at h
    exact h ▸ hi
  | cons e es ih =>
    simp only [run] at h
    cases hs : step s e with
    | none => simp [hs] at h
    | some s1 =>
      simp only [hs] at h
      exact ih h (step_inv hs hi)

theorem numActive_replicate (n : Nat) (v : Variant) :
    numActive (List.replicate n (loopStart v)) = n := by
  cases v <;> simp [numActive, loopStart, List.countP_replicate]

theorem numProcessing_replicate (n : Nat) (v : Variant) :
    numProcessing (List.replicate n (loopStart v)) = 0 := by
  cases v <;> simp [numProcessing, loopStart, List.countP_replicate]

theorem NewLimiter_const :
    NewLimiter tokensPerSecond maxBucketCapacity = some { rate := 5, burst := 10, tokens := 0 } := by
  decide

theorem StartWorkerPool_some {v : Variant} {ctx : Context} {jobs : Chan} {n : Int} {s : Pool}
    (h : StartWorkerPool v ctx jobs n = some s) :
    0 ≤ n ∧ s.variant = v ∧ s.ctx = ctx ∧ s.jobs = jobs ∧ s.js.data = [] ∧
      s.workers = List.replicate n.toNat (loopStart v) ∧ s.wg = n ∧ s.returned = none ∧
      s.ticksAdded = 0 ∧ s.enqueued = jobs.buf.length ∧ s.received = 0 ∧
      s.lim = (match v with
        | Variant.tokenBucket => some { rate := 5, burst := 10, tokens := 0 }
        | Variant.workerPool => none) ∧
      s.refillAlive = (match v with
        | Variant.tokenBucket => true
        | Variant.workerPool => false) := by
  unfold StartWorkerPool at h
  split_ifs at h with hn
  simp only [Option.some.injEq] at h
  subst h
  refine ⟨by omega, rfl, rfl, rfl, rfl, rfl, rfl, rfl, rfl, rfl, rfl, ?_, ?_⟩
  · cases v
    · exact NewLimiter_const
    · rfl
  · cases v
    · simp [NewLimiter_const]
    · rfl

theorem init_inv {v : Variant} {ctx : Context} {jobs : Chan} {n : Int} {s : Pool}
    (h : StartWorkerPool v ctx jobs n = some s) : Inv s := by
  obtain ⟨hn, hv, -, hj, hd, hw, hwg, hr, ht, he, hrc, hl, -⟩ := StartWorkerPool_some h
  refine ⟨?_, ?_, ?_, ?_, ?_, ?_, ?_⟩
  · rw [hwg, hw, numActive_replicate]; omega
  · rw [hd, hw, numProcessing_replicate, hrc]; rfl
  · rw [hrc, he, hj]; rfl
  · intro l hl2
    rw [hl] at hl2
    cases v with
    | tokenBucket =>
      simp only [Option.some.injEq] at hl2
      subst hl2
      rw [hw, hrc, ht]
      simp [numDequeuing, loopStart, List.countP_replicate]
    | workerPool => simp at hl2
  · rw [hl, hv]
    cases v <;> simp
  · intro hlt
    rw [hw, numActive_replicate] at hlt
    simp at hlt
  · intro r hr2
    rw [hr] at hr2
    simp at hr2

theorem step_length {s s' : Pool} {e : Event} (h : step s e = some s') :
    s'.workers.length = s.workers.length := by
  cases e with
  | worker i pick =>
    simp only [step, workerStep] at h
    repeat' split at h
    all_goals first
      | (simp only [Option.some.injEq] at h; subst h; simp [Pool.exit])
      | simp at h
  | _ =>
    simp only [step] at h
    repeat' split at h
    all_goals first
      | (simp only [Option.some.injEq] at h; subst h; simp)
      | simp at h

theorem run_length {evs : List Event} {s s' : Pool} (h : run s evs = some s') :
    s'.workers.length = s.workers.length := by
  induction evs generalizing s with
  | nil =>
    simp only [run, Option.some.injEq] at h
    rw [h]
  | cons e es ih =>
    simp only [run] at h
    cases hs : step s e with
    | none => simp [hs] at h
    | some s1 =>
      simp only [hs] at h
      rw [ih h, step_length hs]

theorem all_stopped_of_numActive {ws : List Worker} (h : numActive ws = 0) :
    ∀ w ∈ ws, w = Worker.stopped := by
  intro w hw
  have := (List.countP_eq_zero.1 h) w hw
  simpa using this

theorem step_variant {s s' : Pool} {e : Event} (h : step s e = some s') :
    s'.variant = s.variant := by
  cases e with
  | worker i pick =>
    simp only [step, workerStep] at h
    repeat' split at h
    all_goals first
      | (simp only [Option.some.injEq] at h; subst h; simp [Pool.exit])
      | simp at h
  | _ =>
    simp only [step] at h
    repeat' split at h
    all_goals first
      | (simp only [Option.some.injEq] at h; subst h; simp)
      | simp at h

theorem run_variant {evs : List Event} {s s' : Pool} (h : run s evs = some s') :
    s'.variant = s.variant := by
  induction evs generalizing s with
  | nil =>
    simp only [run, Option.some.injEq] at h
    rw [h]
  | cons e es ih =>
    simp only [run] at h
    cases hs : step s e with
    | none => simp [hs] at h
    | some s1 =>
      simp only [hs] at h
      rw [ih h, step_variant hs]

theorem exec_some {v : Variant} {ctx : Context} {jobs : Chan} {n : Int} {evs : List Event}
    {s : Pool} (h : exec v ctx jobs n evs = some s) :
    ∃ s0, StartWorkerPool v ctx jobs n = some s0 ∧ run s0 evs = some s := by
  unfold exec at h
  cases h0 : StartWorkerPool v ctx jobs n with
  | none => simp [h0] at h
  | some s0 => exact ⟨s0, rfl, by simpa [h0] using h⟩

theorem exec_inv {v : Variant} {ctx : Context} {jobs : Chan} {n : Int} {evs : List Event}
    {s : Pool} (h : exec v ctx jobs n evs = some s) : Inv s := by
  obtain ⟨s0, h0, hrun⟩ := exec_some h
  exact run_inv hrun (init_inv h0)


/-! ## Worker pool: every run can finish -/

theorem acq_set {ws : List Worker} {i : Nat} {b : Worker} {P : Prop}
    (h : ∀ k : Nat, ws[k]? = some Worker.acquiring → P) (hb : b = Worker.acquiring → P) :
    ∀ k : Nat, (ws.set i b)[k]? = some Worker.acquiring → P := by
  intro k hk
  rw [List.getElem?_set] at hk
  split_ifs at hk with h1 h2
  · simp only [Option.some.injEq] at hk
    exact hb hk
  · exact h k hk

theorem workerStep_live {s s' : Pool} {i : Nat} {pick : Bool}
    (h : workerStep s i pick = some s') (hi : Inv s) (hl : Live s) : Live s' := by
  obtain ⟨l1, l2, l3⟩ := hl
  unfold workerStep at h
  cases hw : s.workers[i]? with
  | none => simp [hw] at h
  | some w =>
    cases w with
    | stopped => simp [hw] at h
    | acquiring =>
      simp only [hw] at h
      cases hlim : s.lim with
      | none => simp [hlim] at h
      | some l =>
        simp only [hlim] at h
        cases ha : l.Acquire s.ctx pick with
        | none => simp [ha] at h
        | some r =>
          obtain ⟨err, l'⟩ := r
          cases err with
          | some e =>
            simp only [ha, Option.some.injEq] at h
            subst h
            exact ⟨l1, l2, acq_set l3 (by simp)⟩
          | none =>
            simp only [ha, Option.some.injEq] at h
            subst h
            obtain ⟨-, rfl⟩ := Acquire_ok ha
            refine ⟨?_, ?_, ?_⟩
            · intro l2' hl2
              simp only [Option.some.injEq] at hl2
              subst hl2
              exact l1 l hlim
            · intro _ hc
              exact l2 (by simp [hlim]) hc
            · exact acq_set (fun k _ => by simp) (by simp)
    | dequeuing =>
      simp only [hw] at h
      cases hsel : select2 s.ctx s.jobs.recv pick with
      | none => simp [hsel] at h
      | some r =>
        cases r with
        | inl e =>
          simp only [hsel, Option.some.injEq] at h
          subst h
          exact ⟨l1, l2, acq_set l3 (by simp)⟩
        | inr y =>
          obtain ⟨oj, c⟩ := y
          cases oj with
          | none =>
            simp only [hsel, Option.some.injEq] at h
            subst h
            exact ⟨l1, l2, acq_set l3 (by simp)⟩
          | some j =>
            simp only [hsel, Option.some.injEq] at h
            subst h
            exact ⟨l1, l2, acq_set l3 (by simp)⟩
    | processing j =>
      simp only [hw, Option.some.injEq] at h
      subst h
      refine ⟨l1, l2, acq_set l3 ?_⟩
      intro hls
      apply hi.variant_lim.2
      cases hv : s.variant with
      | tokenBucket => rfl
      | workerPool => simp [hv, loopStart] at hls

theorem step_live {s s' : Pool} {e : Event} (h : step s e = some s') (hi : Inv s)
    (hl : Live s) : Live s' := by
  cases e with
  | worker i pick => exact workerStep_live h hi hl
  | cancel e =>
    simp only [step, Option.some.injEq] at h
    subst h
    exact ⟨hl.1, fun _ hc => by simp at hc, hl.3⟩
  | tick =>
    simp only [step] at h
    cases hlim : s.lim with
    | none => simp [hlim] at h
    | some l =>
      simp only [hlim] at h
      by_cases ha : s.refillAlive = true
      · simp only [ha, if_true, Option.some.injEq] at h
        subst h
        refine ⟨?_, fun _ _ => rfl, fun k hk => by simp⟩
        intro l2 hl2
        simp only [Option.some.injEq] at hl2
        subst hl2
        have := hl.1 l hlim
        simp only [refillTick_fst]
        split_ifs <;> exact this
      · simp [ha] at h
  | refillExit =>
    simp only [step] at h
    split_ifs at h with hc
    simp only [Option.some.injEq] at h
    subst h
    simp only [Bool.and_eq_true] at hc
    refine ⟨hl.1, fun _ hn => ?_, hl.3⟩
    have := hc.2
    simp only at hn
    simp [hn] at this
  | send v =>
    simp only [step] at h
    cases hc : s.jobs.send v with
    | none => simp [hc] at h
    | some c =>
      simp only [hc, Option.some.injEq] at h
      subst h
      exact ⟨hl.1, hl.2, hl.3⟩
  | handoff v i =>
    simp only [step] at h
    split_ifs at h with hc
    simp only [Option.some.injEq] at h
    subst h
    exact ⟨hl.1, hl.2, acq_set hl.3 (by simp)⟩
  | close =>
    simp only [step] at h
    split_ifs at h with hc
    simp only [Option.some.injEq] at h
    subst h
    exact ⟨hl.1, hl.2, hl.3⟩
  | wait =>
    simp only [step] at h
    split_ifs at h with hc
    simp only [Option.some.injEq] at h
    subst h
    exact ⟨hl.1, hl.2, hl.3⟩

theorem run_live {evs : List Event} {s s' : Pool} (h : run s evs = some s') (hi : Inv s)
    (hl : Live s) : Live s' := by
  induction evs generalizing s with
  | nil =>
    simp only [run, Option.some.injEq] at h
    exact h ▸ hl
  | cons e es ih =>
    simp only [run] at h
    cases hs : step s e with
    | none => simp [hs] at h
    | some s1 =>
      simp only [hs] at h
      exact ih h (step_inv hs hi) (step_live hs hi hl)

theorem init_live {v : Variant} {ctx : Context} {jobs : Chan} {n : Int} {s : Pool}
    (h : StartWorkerPool v ctx jobs n = some s) : Live s := by
  obtain ⟨-, -, -, -, -, hw, -, -, -, -, -, hl, hr⟩ := StartWorkerPool_some h
  cases v with
  | tokenBucket =>
    simp only at hl hr
    refine ⟨?_, fun _ _ => hr, fun _ _ => by simp [hl]⟩
    intro l hl2
    rw [hl] at hl2
    simp only [Option.some.injEq] at hl2
    subst hl2
    decide
  | workerPool =>
    simp only at hl
    refine ⟨?_, ?_, ?_⟩
    · intro l hl2
      simp [hl] at hl2
    · intro h1
      simp [hl] at h1
    · intro k hk
      rw [hw] at hk
      simp [List.getElem?_replicate, loopStart] at hk

theorem run_append {evs evs' : List Event} {s s' s'' : Pool} (h : run s evs = some s')
    (h' : run s' evs' = some s'') : run s (evs ++ evs') = some s'' := by
  induction evs generalizing s with
  | nil =>
    simp only [run, Option.some.injEq] at h
    subst h
    simpa using h'
  | cons e es ih =>
    simp only [run] at h
    cases hs : step s e with
    | none => simp [hs] at h
    | some s1 =>
      simp only [hs] at h
      simp only [List.cons_append, run, hs]
      exact ih h

theorem Frame.rfl (s : Pool) : Frame s s := ⟨Eq.refl _, Eq.refl _, Eq.refl _, fun _ h => h⟩

theorem Frame.trans {s t u : Pool} (h1 : Frame s t) (h2 : Frame t u) : Frame s u :=
  ⟨h2.1.trans h1.1, h2.2.trans h1.2, h2.3.trans h1.3, fun k h => h2.4 k (h1.4 k h)⟩

theorem lt_of_get {ws : List Worker} {i : Nat} {w : Worker} (h : ws[i]? = some w) :
    i < ws.length := by
  by_contra hn
  rw [List.getElem?_eq_none (by omega)] at h
  simp at h

theorem get_set_self {ws : List Worker} {i : Nat} {w : Worker} (b : Worker)
    (h : ws[i]? = some w) : (ws.set i b)[i]? = some b := by
  rw [List.getElem?_set, if_pos rfl, if_pos (lt_of_get h)]

theorem set_keeps_stopped {ws : List Worker} {i : Nat} {w : Worker} (b : Worker)
    (h : ws[i]? = some w) (hns : w ≠ Worker.stopped) :
    ∀ k : Nat, ws[k]? = some Worker.stopped → (ws.set i b)[k]? = some Worker.stopped := by
  intro k hk
  rw [List.getElem?_set]
  split_ifs with h1 h2
  · subst h1
    rw [h] at hk
    simp only [Option.some.injEq] at hk
    exact absurd hk hns
  · subst h1
    exact absurd (lt_of_get h) h2
  · exact hk

theorem step_processing {s : Pool} {i : Nat} {j : Int} (hd : Draining s)
    (hw : s.workers[i]? = some (Worker.processing j)) :
    ∃ s1, step s (Event.worker i false) = some s1 ∧ Draining s1 ∧ Frame s s1 ∧
      rank s1 i < rank s i := by
  have hstep : step s (Event.worker i false) =
      some { s with js := s.js.Set (wrapInt (j * 2)),
                    workers := s.workers.set i (loopStart s.variant) } := by
    simp [step, workerStep, hw]
  refine ⟨_, hstep, ⟨step_inv hstep hd.inv, step_live hstep hd.inv hd.live, hd.ctx_live,
    hd.closed⟩, ⟨rfl, rfl, by simp, set_keeps_stopped _ hw (by simp)⟩, ?_⟩
  have hg := get_set_self (loopStart s.variant) hw
  simp only [rank, hg, hw]
  cases s.variant <;> simp [loopStart]

theorem step_acquire {s : Pool} {i : Nat} {l : limiter} (hd : Draining s)
    (hw : s.workers[i]? = some Worker.acquiring) (hlim : s.lim = some l)
    (ht : 0 < l.tokens) :
    ∃ s1, step s (Event.worker i false) = some s1 ∧ Draining s1 ∧ Frame s s1 ∧
      rank s1 i < rank s i := by
  have hstep : step s (Event.worker i false) =
      some { s with lim := some { l with tokens := l.tokens - 1 },
                    workers := s.workers.set i Worker.dequeuing } := by
    simp [step, workerStep, hw, hlim, limiter.Acquire, limiter.recvToken, ht, select2,
      hd.ctx_live]
  refine ⟨_, hstep, ⟨step_inv hstep hd.inv, step_live hstep hd.inv hd.live, hd.ctx_live,
    hd.closed⟩, ⟨rfl, rfl, by simp, set_keeps_stopped _ hw (by simp)⟩, ?_⟩
  have hg := get_set_self Worker.dequeuing hw
  simp only [rank, hg, hw]
  omega

theorem step_tick {s : Pool} {l : limiter} (hd : Draining s) (hlim : s.lim = some l)
    (ht : l.tokens ≤ 0) :
    ∃ s1 l1, step s Event.tick = some s1 ∧ Draining s1 ∧ Frame s s1 ∧
      s1.workers = s.workers ∧ s1.jobs = s.jobs ∧ s1.lim = some l1 ∧ 0 < l1.tokens := by
  have hb := hd.live.burst_pos l hlim
  have h0 := (hd.inv.tokens l hlim).1
  have ha := hd.live.refill (by simp [hlim]) hd.ctx_live
  have hlt : l.tokens < l.burst := by omega
  have hstep : step s Event.tick =
      some { s with lim := some { l with tokens := l.tokens + 1 },
                    ticksAdded := s.ticksAdded + 1 } := by
    simp [step, hlim, ha, refillTick_fst, hlt]
  refine ⟨_, _, hstep, ⟨step_inv hstep hd.inv, step_live hstep hd.inv hd.live, hd.ctx_live,
    hd.closed⟩, ⟨rfl, rfl, rfl, fun _ h => h⟩, rfl, rfl, rfl, ?_⟩
  simp only
  omega

theorem step_dequeue {s : Pool} {i : Nat} (hd : Draining s)
    (hw : s.workers[i]? = some Worker.dequeuing) :
    ∃ s1, step s (Event.worker i false) = some s1 ∧ Draining s1 ∧ Frame s s1 ∧
      rank s1 i < rank s i := by
  cases hb : s.jobs.buf with
  | nil =>
    have hstep : step s (Event.worker i false) = some (s.exit i) := by
      simp [step, workerStep, hw, select2, Chan.recv, hb, hd.closed, hd.ctx_live]
    refine ⟨_, hstep, ⟨step_inv hstep hd.inv, step_live hstep hd.inv hd.live, hd.ctx_live,
      hd.closed⟩, ⟨rfl, rfl, by simp [Pool.exit], set_keeps_stopped _ hw (by simp)⟩, ?_⟩
    have hg := get_set_self Worker.stopped hw
    simp only [rank, Pool.exit, hg, hw]
    omega
  | cons j rest =>
    have hstep : step s (Event.worker i false) =
        some { s with jobs := { s.jobs with buf := rest },
                      workers := s.workers.set i (Worker.processing j),
                      received := s.received + 1 } := by
      simp [step, workerStep, hw, select2, Chan.recv, hb, hd.ctx_live]
    refine ⟨_, hstep, ⟨step_inv hstep hd.inv, step_live hstep hd.inv hd.live, hd.ctx_live,
      hd.closed⟩, ⟨rfl, rfl, by simp, set_keeps_stopped _ hw (by simp)⟩, ?_⟩
    have hg := get_set_self (Worker.processing j) hw
    simp only [rank, hg, hw, hb, List.length_cons]
    omega

theorem one_round {s : Pool} {i : Nat} {w : Worker} (hd : Draining s)
    (hw : s.workers[i]? = some w) (hns : w ≠ Worker.stopped) :
    ∃ evs s1, run s evs = some s1 ∧ Draining s1 ∧ Frame s s1 ∧ rank s1 i < rank s i := by
  cases w with
  | stopped => exact absurd rfl hns
  | processing j =>
    obtain ⟨s1, h1, d1, f1, r1⟩ := step_processing hd hw
    exact ⟨[Event.worker i false], s1, by simp [run, h1], d1, f1, r1⟩
  | dequeuing =>
    obtain ⟨s1, h1, d1, f1, r1⟩ := step_dequeue hd hw
    exact ⟨[Event.worker i false], s1, by simp [run, h1], d1, f1, r1⟩
  | acquiring =>
    have hsome := hd.live.acq i hw
    cases hlim : s.lim with
    | none => simp [hlim] at hsome
    | some l =>
      by_cases ht : 0 < l.tokens
      · obtain ⟨s1, h1, d1, f1, r1⟩ := step_acquire hd hw hlim ht
        exact ⟨[Event.worker i false], s1, by simp [run, h1], d1, f1, r1⟩
      · obtain ⟨s1, l1, h1, d1, f1, hws, hjobs, hl1, ht1⟩ := step_tick hd hlim (by omega)
        obtain ⟨s2, h2, d2, f2, r2⟩ := step_acquire d1 (hws ▸ hw) hl1 ht1
        refine ⟨[Event.tick, Event.worker i false], s2, by simp [run, h1, h2], d2,
          f1.trans f2, ?_⟩
        have : rank s1 i = rank s i := by simp [rank, hws, hjobs]
        omega

theorem drive_worker (i : Nat) :
    ∀ (m : Nat) (s : Pool), Draining s → rank s i ≤ m → i < s.workers.length →
      ∃ evs s1, run s evs = some s1 ∧ Draining s1 ∧ Frame s s1 ∧
        s1.workers[i]? = some Worker.stopped := by
  intro m
  induction m with
  | zero =>
    intro s hd hr hi
    cases hw : s.workers[i]? with
    | none => rw [List.getElem?_eq_none_iff] at hw; omega
    | some w =>
      by_cases hns : w = Worker.stopped
      · subst hns
        exact ⟨[], s, rfl, hd, Frame.rfl s, hw⟩
      · obtain ⟨evs, s1, -, -, -, r1⟩ := one_round hd hw hns
        omega
  | succ m ih =>
    intro s hd hr hi
    cases hw : s.workers[i]? with
    | none => rw [List.getElem?_eq_none_iff] at hw; omega
    | some w =>
      by_cases hns : w = Worker.stopped
      · subst hns
        exact ⟨[], s, rfl, hd, Frame.rfl s, hw⟩
      · obtain ⟨evs, s1, h1, d1, f1, r1⟩ := one_round hd hw hns
        obtain ⟨evs2, s2, h2, d2, f2, hst⟩ := ih s1 d1 (by omega) (by rw [f1.length]; exact hi)
        exact ⟨evs ++ evs2, s2, run_append h1 h2, d2, f1.trans f2, hst⟩

theorem drive_all (s : Pool) (hd : Draining s) :
    ∀ k, k ≤ s.workers.length →
      ∃ evs s1, run s evs = some s1 ∧ Draining s1 ∧ Frame s s1 ∧
        ∀ i, i < k → s1.workers[i]? = some Worker.stopped := by
  intro k
  induction k with
  | zero =>
    intro _
    exact ⟨[], s, rfl, hd, Frame.rfl s, fun i hi => absurd hi (Nat.not_lt_zero i)⟩
  | succ k ih =>
    intro hk
    obtain ⟨evs, s1, h1, d1, f1, hst⟩ := ih (by omega)
    obtain ⟨evs2, s2, h2, d2, f2, hst2⟩ :=
      drive_worker k (rank s1 k) s1 d1 (le_refl _) (by rw [f1.length]; omega)
    refine ⟨evs ++ evs2, s2, run_append h1 h2, d2, f1.trans f2, fun i hi => ?_⟩
    by_cases hik : i = k
    · subst hik
      exact hst2
    · exact f2.stopped i (hst i (by omega))

theorem numActive_zero_of_all_stopped {ws : List Worker}
    (h : ∀ i, i < ws.length → ws[i]? = some Worker.stopped) : numActive ws = 0 := by
  unfold numActive
  rw [List.countP_eq_zero]
  intro a ha
  obtain ⟨n, hn⟩ := List.mem_iff_getElem?.1 ha
  have := h n (lt_of_get hn)
  rw [hn] at this
  simp only [Option.some.injEq] at this
  simp [this]

theorem numProcessing_zero_of_numActive {ws : List Worker} (h : numActive ws = 0) :
    numProcessing ws = 0 := by
  unfold numProcessing
  rw [List.countP_eq_zero]
  intro a ha
  rw [all_stopped_of_numActive h a ha]
  simp

theorem snapshot_length_of_inv {s : Pool} {r : List Int} (hi : Inv s) (hc : s.ctx = none)
    (hpos : 0 < s.workers.length) (hr : s.returned = some r) : r.length = s.enqueued := by
  obtain ⟨hwg, rfl⟩ := hi.ret r hr
  have hact : numActive s.workers = 0 := by
    have := hi.wg_eq
    omega
  have hp := numProcessing_zero_of_numActive hact
  have h1 := hi.recorded
  have h2 := hi.queued
  rcases hi.stopped (by omega) with h3 | ⟨-, h3⟩
  · simp [hc] at h3
  · simp only [h3, List.length_nil] at h2
    omega

theorem can_return {s : Pool} (hd : Draining s) :
    ∃ evs s1 r, run s evs = some s1 ∧ Draining s1 ∧ s1.enqueued = s.enqueued ∧
      s1.workers.length = s.workers.length ∧ s1.returned = some r := by
  obtain ⟨evs, s1, h1, d1, f1, hst⟩ := drive_all s hd s.workers.length (le_refl _)
  have hact : numActive s1.workers = 0 :=
    numActive_zero_of_all_stopped (fun i hi => hst i (by rw [← f1.length]; exact hi))
  have hwg : s1.wg = 0 := by
    have := d1.inv.wg_eq
    omega
  cases hret : s1.returned with
  | some r => exact ⟨evs, s1, r, h1, d1, f1.enqueued, f1.length, hret⟩
  | none =>
    have hstep : step s1 Event.wait =
        some { s1 with returned := some s1.js.Snapshot.1, js := s1.js.Snapshot.2 } := by
      simp [step, hwg, hret]
    refine ⟨evs ++ [Event.wait], _, s1.js.Snapshot.1, run_append h1 (by simp [run, hstep]),
      ⟨step_inv hstep d1.inv, step_live hstep d1.inv d1.live, d1.ctx_live, d1.closed⟩,
      f1.enqueued, f1.length, rfl⟩


theorem exec_append {v : Variant} {ctx : Context} {jobs : Chan} {n : Int}
    {evs evs' : List Event} {s s' : Pool} (h : exec v ctx jobs n evs = some s)
    (h' : run s evs' = some s') : exec v ctx jobs n (evs ++ evs') = some s' := by
  obtain ⟨s0, h0, hrun⟩ := exec_some h
  simp only [exec, h0]
  exact run_append hrun h'

theorem exec_live {v : Variant} {ctx : Context} {jobs : Chan} {n : Int} {evs : List Event}
    {s : Pool} (h : exec v ctx jobs n evs = some s) : Live s := by
  obtain ⟨s0, h0, hrun⟩ := exec_some h
  exact run_live hrun (init_inv h0) (init_live h0)

theorem exec_length {v : Variant} {ctx : Context} {jobs : Chan} {n : Int} {evs : List Event}
    {s : Pool} (h : exec v ctx jobs n evs = some s) : (s.workers.length : Int) = n := by
  obtain ⟨s0, h0, hrun⟩ := exec_some h
  obtain ⟨hn, -, -, -, -, hw, -⟩ := StartWorkerPool_some h0
  rw [run_length hrun, hw, List.length_replicate]
  omega

/-- C5, as the code has it: in every execution of `StartWorkerPool` (either
program) with `workerCount >= 1` in which the context is not cancelled, a
returned snapshot has exactly as many entries as jobs were enqueued; and once
the jobs channel is closed such an execution can always be continued, by
actions of the workers and the refill goroutine alone, until the call returns
such a snapshot. -/
theorem snapshot_length_eq_enqueued (v : Variant) (ctx : Context) (jobs : Chan)
    (workerCount : Int) (evs : List Event) (s : Pool)
    (h : exec v ctx jobs workerCount evs = some s) (hpos : 0 < workerCount)
    (hctx : s.ctx = none) :
    (∀ r, s.returned = some r → r.length = s.enqueued) ∧
      (s.jobs.closed = true →
        ∃ evs' s' r, exec v ctx jobs workerCount (evs ++ evs') = some s' ∧ s'.ctx = none ∧
          s'.enqueued = s.enqueued ∧ s'.returned = some r ∧ r.length = s.enqueued) := by
  have hi := exec_inv h
  have hlen := exec_length h
  refine ⟨fun r hr => snapshot_length_of_inv hi hctx (by omega) hr, fun hcl => ?_⟩
  obtain ⟨evs', s', r, hrun, hd, henq, hl, hret⟩ :=
    can_return (s := s) ⟨hi, exec_live h, hctx, hcl⟩
  refine ⟨evs', s', r, exec_append h hrun, hd.ctx_live, henq, hret, ?_⟩
  rw [← henq]
  exact snapshot_length_of_inv hd.inv hd.ctx_live (by omega) hret

theorem snapshot_length_eq_enqueued_witness :
    ∃ s, exec Variant.tokenBucket none { buf := [], cap := 8, closed := false } 2
          [Event.send 7, Event.send 9, Event.tick, Event.tick, Event.worker 0 false,
            Event.worker 0 false, Event.worker 1 false, Event.worker 1 false,
            Event.worker 0 false, Event.worker 1 false, Event.close, Event.tick, Event.tick,
            Event.worker 0 false, Event.worker 0 false, Event.worker 1 false,
            Event.worker 1 false, Event.wait] = some s ∧
      (0 : Int) < 2 ∧ s.ctx = none ∧ s.returned = some [14, 18] ∧ s.enqueued = 2 ∧
      (∀ r, s.returned = some r → r.length = s.enqueued) ∧
      (s.jobs.closed = true →
        ∃ evs' s' r,
          exec Variant.tokenBucket none { buf := [], cap := 8, closed := false } 2
              ([Event.send 7, Event.send 9, Event.tick, Event.tick, Event.worker 0 false,
                Event.worker 0 false, Event.worker 1 false, Event.worker 1 false,
                Event.worker 0 false, Event.worker 1 false, Event.close, Event.tick,
                Event.tick, Event.worker 0 false, Event.worker 0 false, Event.worker 1 false,
                Event.worker 1 false, Event.wait] ++ evs') = some s' ∧
            s'.ctx = none ∧ s'.enqueued = s.enqueued ∧ s'.returned = some r ∧
            r.length = s.enqueued) :=
  ⟨{ variant := Variant.tokenBucket, ctx := none,
     jobs := { buf := [], cap := 8, closed := true }, js := { data := [14, 18] },
     lim := some { rate := 5, burst := 10, tokens := 0 }, refillAlive := true,
     workers := [Worker.stopped, Worker.stopped], wg := 0, returned := some [14, 18],
     ticksAdded := 4, enqueued := 2, received := 2 },
   by decide, by decide, rfl, rfl, rfl,
   snapshot_length_eq_enqueued Variant.tokenBucket none { buf := [], cap := 8, closed := false }
     2 _ _ (by decide) (by decide) rfl⟩

/-- C5 as stated fails when `workerCount` is 0: with one job buffered in the
channel, the channel closed and the context never cancelled, `StartWorkerPool`
returns an empty snapshot, in either program. -/
theorem snapshot_empty_without_workers :
    (exec Variant.tokenBucket none { buf := [], cap := 8, closed := false } 0
          [Event.send 7, Event.close, Event.wait]).map
        (fun s => (s.ctx, s.jobs.closed, s.enqueued, s.returned)) =
        some (none, true, 1, some []) ∧
      (exec Variant.workerPool none { buf := [], cap := 8, closed := false } 0
          [Event.send 7, Event.close, Event.wait]).map
        (fun s => (s.ctx, s.jobs.closed, s.enqueued, s.returned)) =
        some (none, true, 1, some []) := by
  constructor <;> decide


/-- C8: at every point of every execution of `StartWorkerPool` (either program,
any schedule), the number of results in the `JobStore`, and so the length of a
snapshot taken then, is at most the number of jobs workers have received from
the channel. -/
theorem recorded_le_received (v : Variant) (ctx : Context) (jobs : Chan) (workerCount : Int)
    (evs : List Event) (s : Pool) (h : exec v ctx jobs workerCount evs = some s) :
    s.js.data.length ≤ s.received ∧ s.js.Snapshot.1.length ≤ s.received := by
  have := (exec_inv h).recorded
  rw [Snapshot_fst]
  omega

theorem recorded_le_received_witness :
    ∃ s, exec Variant.tokenBucket none { buf := [7], cap := 8, closed := false } 2
          [Event.tick, Event.worker 1 false, Event.worker 1 false, Event.worker 1 false] =
        some s ∧
      s.js.data = [14] ∧ s.received = 1 ∧
      s.js.data.length ≤ s.received ∧ s.js.Snapshot.1.length ≤ s.received :=
  ⟨{ variant := Variant.tokenBucket, ctx := none,
     jobs := { buf := [], cap := 8, closed := false }, js := { data := [14] },
     lim := some { rate := 5, burst := 10, tokens := 0 }, refillAlive := true,
     workers := [Worker.acquiring, Worker.acquiring], wg := 2, returned := none,
     ticksAdded := 1, enqueued := 1, received := 1 },
   by decide, rfl, rfl,
   recorded_le_received Variant.tokenBucket none { buf := [7], cap := 8, closed := false } 2
     [Event.tick, Event.worker 1 false, Event.worker 1 false, Event.worker 1 false] _
     (by decide)⟩

/-- C9: in every execution of the rate-limited `StartWorkerPool`, the jobs
received by workers, the workers that hold a token while waiting for a job, and
the tokens left in the bucket together never exceed the tokens the refill
goroutine has added; in particular the number of jobs received never exceeds
the number of tokens added. -/
theorem received_le_tokens_added (ctx : Context) (jobs : Chan) (workerCount : Int)
    (evs : List Event) (s : Pool)
    (h : exec Variant.tokenBucket ctx jobs workerCount evs = some s) :
    s.received ≤ s.ticksAdded ∧
      ∃ l, s.lim = some l ∧
        (s.received : Int) + numDequeuing s.workers + l.tokens ≤ s.ticksAdded := by
  have hi := exec_inv h
  obtain ⟨s0, h0, hrun⟩ := exec_some h
  have hvar : s.variant = Variant.tokenBucket := by
    rw [run_variant hrun]
    exact (StartWorkerPool_some h0).2.1
  have hl := hi.variant_lim.2 hvar
  cases hlim : s.lim with
  | none => simp [hlim] at hl
  | some l =>
    have := hi.tokens l hlim
    exact ⟨by omega, l, rfl, this.2⟩

theorem received_le_tokens_added_witness :
    ∃ s, exec Variant.tokenBucket none { buf := [7, 9], cap := 8, closed := false } 2
          [Event.tick, Event.tick, Event.tick, Event.worker 0 false, Event.worker 1 false,
            Event.worker 0 false] = some s ∧
      s.received = 1 ∧ s.ticksAdded = 3 ∧
      s.received ≤ s.ticksAdded ∧
      ∃ l, s.lim = some l ∧
        (s.received : Int) + numDequeuing s.workers + l.tokens ≤ s.ticksAdded :=
  ⟨{ variant := Variant.tokenBucket, ctx := none,
     jobs := { buf := [9], cap := 8, closed := false }, js := { data := [] },
     lim := some { rate := 5, burst := 10, tokens := 1 }, refillAlive := true,
     workers := [Worker.processing 7, Worker.dequeuing], wg := 2, returned := none,
     ticksAdded := 3, enqueued := 2, received := 1 },
   by decide, rfl, rfl,
   received_le_tokens_added none { buf := [7, 9], cap := 8, closed := false } 2
     [Event.tick, Event.tick, Event.tick, Event.worker 0 false, Event.worker 1 false,
       Event.worker 0 false] _ (by decide)⟩

/-- C10: in every execution, once `StartWorkerPool` has returned a value `r`,
every one of its `workerCount` workers has left its loop, which a worker does
only when the context is done or the jobs channel is closed and drained; the
WaitGroup counter is zero; and `r` is the store's contents at that point. -/
theorem returns_after_all_workers (v : Variant) (ctx : Context) (jobs : Chan)
    (workerCount : Int) (evs : List Event) (s : Pool) (r : List Int)
    (h : exec v ctx jobs workerCount evs = some s) (hret : s.returned = some r) :
    (s.workers.length : Int) = workerCount ∧ (∀ w ∈ s.workers, w = Worker.stopped) ∧
      s.wg = 0 ∧ r = s.js.data ∧
      (0 < workerCount →
        s.ctx.isSome = true ∨ (s.jobs.closed = true ∧ s.jobs.buf = [])) := by
  have hi := exec_inv h
  obtain ⟨s0, h0, hrun⟩ := exec_some h
  obtain ⟨hn, -, -, -, -, hw, -⟩ := StartWorkerPool_some h0
  have hlen : s.workers.length = workerCount.toNat := by
    rw [run_length hrun, hw, List.length_replicate]
  obtain ⟨hwg, hr⟩ := hi.ret r hret
  have hact : numActive s.workers = 0 := by
    have := hi.wg_eq
    omega
  refine ⟨by omega, all_stopped_of_numActive hact, hwg, hr, fun hpos => ?_⟩
  exact hi.stopped (by omega)

theorem returns_after_all_workers_witness :
    ∃ s, exec Variant.workerPool none { buf := [], cap := 0, closed := false } 1
          [Event.handoff 4 0, Event.worker 0 false, Event.close, Event.worker 0 false,
            Event.wait] = some s ∧
      s.returned = some [8] ∧
      (s.workers.length : Int) = 1 ∧ (∀ w ∈ s.workers, w = Worker.stopped) ∧
      s.wg = 0 ∧ [8] = s.js.data ∧
      ((0 : Int) < 1 → s.ctx.isSome = true ∨ (s.jobs.closed = true ∧ s.jobs.buf = [])) :=
  ⟨{ variant := Variant.workerPool, ctx := none,
     jobs := { buf := [], cap := 0, closed := true }, js := { data := [8] },
     lim := none, refillAlive := false, workers := [Worker.stopped], wg := 0,
     returned := some [8], ticksAdded := 0, enqueued := 1, received := 1 },
   by decide, rfl,
   returns_after_all_workers Variant.workerPool none { buf := [], cap := 0, closed := false } 1
     [Event.handoff 4 0, Event.worker 0 false, Event.close, Event.worker 0 false,
       Event.wait] _ [8] (by decide) rfl⟩

end TokenBucket

namespace Bst

/-! ## Binary search tree: proofs -/

theorem mem_keys_node (k : Int) (l r : BstNode) (x : Int) :
    x ∈ (BstNode.node k l r).keys ↔ x ∈ l.keys ∨ x = k ∨ x ∈ r.keys := by
  simp [BstNode.keys]

theorem insertLoop_lt (k : Int) (l r : BstNode) (key : Int) (h : key < k) :
    insertLoop (BstNode.node k l r) key =
      BstNode.node k
        (match l with
          | BstNode.nil => BstNode.node key BstNode.nil BstNode.nil
          | BstNode.node kl ll lr => insertLoop (BstNode.node kl ll lr) key) r := by
  cases l <;> cases r <;> simp [insertLoop, h]

theorem insertLoop_gt (k : Int) (l r : BstNode) (key : Int) (h : k < key) :
    insertLoop (BstNode.node k l r) key =
      BstNode.node k l
        (match r with
          | BstNode.nil => BstNode.node key BstNode.nil BstNode.nil
          | BstNode.node kr rl rr => insertLoop (BstNode.node kr rl rr) key) := by
  have h1 : ¬ key < k := by omega
  cases l <;> cases r <;> simp [insertLoop, h, h1]

theorem insertLoop_eq (k : Int) (l r : BstNode) : insertLoop (BstNode.node k l r) k =
    BstNode.node k l r := by
  cases l <;> cases r <;> simp [insertLoop]

theorem insertLoop_keys (n : BstNode) (key x : Int) (hn : n ≠ BstNode.nil) :
    x ∈ (insertLoop n key).keys ↔ x = key ∨ x ∈ n.keys := by
  induction n with
  | nil => exact absurd rfl hn
  | node k l r ihl ihr =>
    rcases lt_trichotomy key k with h | h | h
    · rw [insertLoop_lt k l r key h, mem_keys_node, mem_keys_node]
      cases l with
      | nil => simp [BstNode.keys]
      | node kl ll lr =>
        simp only []
        rw [ihl (by simp)]
        exact ⟨fun h => by rcases h with (h | h) | h | h <;> simp [h],
          fun h => by rcases h with h | h | h | h <;> simp [h]⟩
    · subst h
      rw [insertLoop_eq, mem_keys_node]
      exact ⟨fun h => Or.inr h, fun h => by rcases h with h | h <;> simp [h]⟩
    · rw [insertLoop_gt k l r key h, mem_keys_node, mem_keys_node]
      cases r with
      | nil =>
        simp only [BstNode.keys, List.mem_singleton, List.not_mem_nil, or_false, List.nil_append]
        exact ⟨fun h => by rcases h with h | h | h <;> simp [h],
          fun h => by rcases h with h | h | h <;> simp [h]⟩
      | node kr rl rr =>
        simp only []
        rw [ihr (by simp)]
        exact ⟨fun h => by rcases h with h | h | h | h <;> simp [h],
          fun h => by rcases h with h | h | h | h <;> simp [h]⟩

theorem insertLoop_ordered (n : BstNode) (key : Int) (ho : n.Ordered) :
    (insertLoop n key).Ordered := by
  induction n with
  | nil => simp [insertLoop, BstNode.Ordered]
  | node k l r ihl ihr =>
    obtain ⟨hl, hr, hlk, hrk⟩ := ho
    rcases lt_trichotomy key k with h | h | h
    · rw [insertLoop_lt k l r key h]
      cases l with
      | nil =>
        refine ⟨⟨trivial, trivial, by simp [BstNode.keys], by simp [BstNode.keys]⟩, hr, ?_, hrk⟩
        intro x hx
        simp only [BstNode.keys, List.nil_append, List.mem_singleton] at hx
        omega
      | node kl ll lr =>
        refine ⟨ihl hl, hr, ?_, hrk⟩
        intro x hx
        rcases (insertLoop_keys _ key x (by simp)).1 hx with rfl | hx
        · exact h
        · exact hlk x hx
    · subst h
      rw [insertLoop_eq]
      exact ⟨hl, hr, hlk, hrk⟩
    · rw [insertLoop_gt k l r key h]
      cases r with
      | nil =>
        refine ⟨hl, ⟨trivial, trivial, by simp [BstNode.keys], by simp [BstNode.keys]⟩, hlk, ?_⟩
        intro x hx
        simp only [BstNode.keys, List.nil_append, List.mem_singleton] at hx
        omega
      | node kr rl rr =>
        refine ⟨hl, ihr hr, hlk, ?_⟩
        intro x hx
        rcases (insertLoop_keys _ key x (by simp)).1 hx with rfl | hx
        · exact h
        · exact hrk x hx

theorem searchLoop_iff (n : BstNode) (key : Int) (ho : n.Ordered) :
    searchLoop n key = true ↔ key ∈ n.keys := by
  induction n with
  | nil => simp [searchLoop, BstNode.keys]
  | node k l r ihl ihr =>
    obtain ⟨hl, hr, hlk, hrk⟩ := ho
    unfold searchLoop
    simp only [BstNode.keys, List.mem_append, List.mem_cons]
    split_ifs with h1 h2
    · rw [ihl hl]
      constructor
      · exact Or.inl
      · rintro (h | rfl | h)
        · exact h
        · omega
        · have := hrk key h
          omega
    · rw [ihr hr]
      constructor
      · exact fun h => Or.inr (Or.inr h)
      · rintro (h | rfl | h)
        · have := hlk key h
          omega
        · omega
        · exact h
    · have : key = k := by omega
      simp [this]

theorem Insert_keys (t : Tree) (key x : Int) :
    x ∈ (t.Insert key).Root.keys ↔ x = key ∨ x ∈ t.Root.keys := by
  unfold Tree.Insert
  cases h : t.Root with
  | nil => simp [BstNode.keys]
  | node k l r => exact insertLoop_keys _ key x (by simp)

theorem Insert_ordered (t : Tree) (key : Int) (ho : t.Root.Ordered) :
    (t.Insert key).Root.Ordered := by
  unfold Tree.Insert
  cases h : t.Root with
  | nil => simp [BstNode.Ordered, BstNode.keys]
  | node k l r =>
    rw [h] at ho
    exact insertLoop_ordered _ key ho

theorem foldl_Insert (keys : List Int) (t : Tree) (ho : t.Root.Ordered) :
    (keys.foldl Tree.Insert t).Root.Ordered ∧
      ∀ x, x ∈ (keys.foldl Tree.Insert t).Root.keys ↔ x ∈ keys ∨ x ∈ t.Root.keys := by
  induction keys generalizing t with
  | nil => simpa using ho
  | cons k ks ih =>
    obtain ⟨h1, h2⟩ := ih (t.Insert k) (Insert_ordered t k ho)
    refine ⟨h1, fun x => ?_⟩
    simp only [List.foldl_cons, List.mem_cons]
    rw [h2, Insert_keys]
    tauto

/-- C11: after the keys of any list have been inserted with `Insert` into an
empty tree, `Search k` returns true if and only if `k` occurs in the list. -/
theorem Search_after_Inserts (keys : List Int) (k : Int) :
    (keys.foldl Tree.Insert { Root := BstNode.nil }).Search k = true ↔ k ∈ keys := by
  obtain ⟨h1, h2⟩ := foldl_Insert keys { Root := BstNode.nil } trivial
  unfold Tree.Search
  rw [searchLoop_iff _ _ h1, h2]
  simp [BstNode.keys]

end Bst

namespace GoQueue

/-! ## Queue: proofs -/

theorem runOps_refines {T : Type} [Inhabited T] (ops : List (Op T)) (q : Queue T)
    (m : FifoSpec T) (h : q.data = m.enqueued.drop m.taken) (hle : m.taken ≤ m.enqueued.length) :
    (runOps q ops).1 = (FifoSpec.runOps m ops).1 ∧
      (runOps q ops).2.data =
        (FifoSpec.runOps m ops).2.enqueued.drop (FifoSpec.runOps m ops).2.taken ∧
      (FifoSpec.runOps m ops).2.taken ≤ (FifoSpec.runOps m ops).2.enqueued.length := by
  induction ops generalizing q m with
  | nil => exact ⟨rfl, h, hle⟩
  | cons op ops ih =>
    cases op with
    | enqueue v =>
      simp only [runOps, FifoSpec.runOps]
      apply ih
      · simp only [Queue.Enqueue, FifoSpec.enqueue, h]
        rw [List.drop_append_of_le_length hle]
      · simp only [FifoSpec.enqueue, List.length_append, List.length_singleton]
        omega
    | dequeue =>
      simp only [runOps, FifoSpec.runOps]
      cases hd : m.enqueued.drop m.taken with
      | nil =>
        have hlen : m.enqueued.length ≤ m.taken := by
          have := congrArg List.length hd
          simp only [List.length_drop, List.length_nil] at this
          omega
        have hget : m.enqueued[m.taken]? = none := List.getElem?_eq_none hlen
        have hq : q.Dequeue = ((default, false), q) := by
          simp [Queue.Dequeue, h, hd]
        have hm : m.dequeue = ((default, false), m) := by
          simp [FifoSpec.dequeue, hget]
        rw [hq, hm]
        obtain ⟨i1, i2, i3⟩ := ih q m h hle
        exact ⟨by simp [i1], i2, i3⟩
      | cons x rest =>
        have hlt : m.taken < m.enqueued.length := by
          have := congrArg List.length hd
          simp only [List.length_drop, List.length_cons] at this
          omega
        have hdrop := List.drop_eq_getElem_cons hlt
        rw [hd] at hdrop
        simp only [List.cons.injEq] at hdrop
        have hget : m.enqueued[m.taken]? = some x := by
          rw [List.getElem?_eq_getElem hlt, hdrop.1]
        have hq : q.Dequeue = ((x, true), { data := rest }) := by
          simp [Queue.Dequeue, h, hd]
        have hm : m.dequeue = ((x, true), { m with taken := m.taken + 1 }) := by
          simp [FifoSpec.dequeue, hget]
        rw [hq, hm]
        obtain ⟨i1, i2, i3⟩ :=
          ih { data := rest } { m with taken := m.taken + 1 } hdrop.2 (by simpa using hlt)
        exact ⟨by simp [i1], i2, i3⟩

/-- C15: `Queue` refines the list of its contract.  For every sequence of
`Enqueue` and `Dequeue` calls on an empty queue, every `Dequeue` returns what
the contract says (the earliest enqueued element not yet dequeued with `true`,
or the zero value with `false`), and `IsEmpty` is true exactly when every
enqueued element has been dequeued. -/
theorem Queue_refines_list {T : Type} [Inhabited T] (ops : List (Op T)) :
    (runOps ({ data := [] } : Queue T) ops).1 =
        (FifoSpec.runOps ({ enqueued := [], taken := 0 } : FifoSpec T) ops).1 ∧
      (runOps ({ data := [] } : Queue T) ops).2.IsEmpty =
        (FifoSpec.runOps ({ enqueued := [], taken := 0 } : FifoSpec T) ops).2.isEmpty := by
  obtain ⟨h1, h2, h3⟩ :=
    runOps_refines ops ({ data := [] } : Queue T) { enqueued := [], taken := 0 } rfl
      (Nat.le_refl _)
  refine ⟨h1, ?_⟩
  simp only [Queue.IsEmpty, FifoSpec.isEmpty, h2, List.length_drop]
  rw [Bool.eq_iff_iff]
  simp only [beq_iff_eq]
  omega

end GoQueue

namespace GoSet

/-! ## Set: proofs -/

theorem mem_Add {T : Type} [DecidableEq T] (s : Set T) (v k : T) :
    k ∈ (s.Add v).data ↔ k = v ∨ k ∈ s.data := by
  unfold Set.Add
  split_ifs with h
  · constructor
    · exact Or.inr
    · rintro (rfl | h')
      · exact h
      · exact h'
  · simp only [List.mem_append, List.mem_singleton]
    tauto

theorem nodup_Add {T : Type} [DecidableEq T] (s : Set T) (v : T) (h : s.data.Nodup) :
    (s.Add v).data.Nodup := by
  unfold Set.Add
  split_ifs with hv
  · exact h
  · rw [List.nodup_append]
    refine ⟨h, List.nodup_singleton v, ?_⟩
    intro a ha hb
    simp only [List.mem_singleton] at hb
    subst hb
    exact hv ha

theorem foldl_Add {T : Type} [DecidableEq T] (ks : List T) (o : Set T) :
    (∀ k, k ∈ (ks.foldl (fun o k => o.Add k) o).data ↔ k ∈ ks ∨ k ∈ o.data) ∧
      (o.data.Nodup → (ks.foldl (fun o k => o.Add k) o).data.Nodup) := by
  induction ks generalizing o with
  | nil => simp
  | cons a ks ih =>
    obtain ⟨h1, h2⟩ := ih (o.Add a)
    refine ⟨fun k => ?_, fun hn => h2 (nodup_Add o a hn)⟩
    simp only [List.foldl_cons, List.mem_cons]
    rw [h1, mem_Add]
    tauto

theorem Union_data {T : Type} [DecidableEq T] (a b : Set T) :
    (∀ k, k ∈ (Set.Union (some a) (some b)).data ↔ k ∈ a.data ∨ k ∈ b.data) ∧
      (Set.Union (some a) (some b)).data.Nodup := by
  simp only [Set.Union]
  obtain ⟨a1, a2⟩ := foldl_Add a.data (NewSet : Set T)
  obtain ⟨b1, b2⟩ := foldl_Add b.data (a.data.foldl (fun o k => o.Add k) (NewSet : Set T))
  refine ⟨fun k => ?_, b2 (a2 (by simp [NewSet]))⟩
  rw [b1, a1]
  simp only [NewSet, List.not_mem_nil, or_false]
  tauto

/-- C17: for every two sets `a` and `b` (either may be empty) and every value
`k`, `a.Union(b).Has(k)` holds if and only if `a.Has(k)` or `b.Has(k)`, and
`a.Union(b).Size()`, like the length of `a.Union(b).Values()`, is the number of
distinct values in `a` or `b`. -/
theorem Union_spec {T : Type} [DecidableEq T] (a b : Set T) (k : T) :
    ((Set.Union (some a) (some b)).Has k = true ↔ (a.Has k = true ∨ b.Has k = true)) ∧
      (Set.Union (some a) (some b)).Size = ((a.data.toFinset ∪ b.data.toFinset).card : Int) ∧
      (Set.Values (some (Set.Union (some a) (some b)))).length =
        (a.data.toFinset ∪ b.data.toFinset).card := by
  obtain ⟨h1, h2⟩ := Union_data a b
  have hcard : (Set.Union (some a) (some b)).data.length =
      (a.data.toFinset ∪ b.data.toFinset).card := by
    rw [← List.toFinset_card_of_nodup h2]
    congr 1
    ext x
    simp [h1]
  refine ⟨?_, ?_, ?_⟩
  · simp only [Set.Has, decide_eq_true_eq]
    exact h1 k
  · simp only [Set.Size, hcard]
  · have hfold : ∀ (xs acc : List T), xs.foldl (fun out k => out ++ [k]) acc = acc ++ xs := by
      intro xs
      induction xs with
      | nil => simp
      | cons x xs ih =>
        intro acc
        simp [List.foldl_cons, ih]
    simp only [Set.Values, hfold, List.nil_append]
    split_ifs with h0
    · rw [← hcard, h0]
      rfl
    · exact hcard

theorem applyOps_nodup {T : Type} [DecidableEq T] (ops : List (SetOp T)) (s : Set T)
    (h : s.data.Nodup) : (applyOps s ops).data.Nodup := by
  induction ops generalizing s with
  | nil => exact h
  | cons op ops ih =>
    simp only [applyOps, List.foldl_cons]
    cases op with
    | add v => exact ih _ (nodup_Add s v h)
    | remove v => exact ih _ (h.erase v)

/-- C18: for every set `s` built from `NewSet` by any sequence of `Add` and
`Remove` calls and every value `v`, after `s.Remove(v)` the call `s.Has(v)` is
false, however many times `v` was added, and the membership of every other
value is unchanged. -/
theorem Remove_spec {T : Type} [DecidableEq T] (ops : List (SetOp T)) (v k : T) :
    ((applyOps (NewSet : Set T) ops).Remove v).Has v = false ∧
      (k ≠ v →
        ((applyOps (NewSet : Set T) ops).Remove v).Has k = (applyOps (NewSet : Set T) ops).Has k) := by
  have hn := applyOps_nodup ops (NewSet : Set T) (by simp [NewSet])
  constructor
  · simp only [Set.Has, Set.Remove, decide_eq_false_iff_not]
    exact hn.not_mem_erase
  · intro hk
    simp only [Set.Has, Set.Remove]
    rw [Bool.eq_iff_iff]
    simp only [decide_eq_true_eq]
    exact List.mem_erase_of_ne hk

theorem Remove_spec_witness :
    ((applyOps (NewSet : Set String)
          [SetOp.add "apple", SetOp.add "banana", SetOp.add "apple"]).Remove "apple").Has
        "apple" = false ∧
      ((applyOps (NewSet : Set String)
          [SetOp.add "apple", SetOp.add "banana", SetOp.add "apple"]).Remove "apple").Has
        "banana" =
        (applyOps (NewSet : Set String)
          [SetOp.add "apple", SetOp.add "banana", SetOp.add "apple"]).Has "banana" :=
  ⟨(Remove_spec [SetOp.add "apple", SetOp.add "banana", SetOp.add "apple"] "apple" "banana").1,
   (Remove_spec [SetOp.add "apple", SetOp.add "banana", SetOp.add "apple"] "apple" "banana").2
     (by decide)⟩

end GoSet

namespace SinglyLinkedList

/-! ## Singly linked list: proofs -/

theorem getElem?_set_next (m : Mem) (a b : Nat) (n : SLNode) (nx : Option Nat)
    (h : m[a]? = some n) :
    (m.set a { n with Next := nx })[b]? =
      if a = b then some { n with Next := nx } else m[b]? := by
  rw [List.getElem?_set]
  split_ifs with h1 h2
  · rfl
  · subst h1
    rw [List.getElem?_eq_none (by omega)] at h
    simp at h
  · rfl

theorem valueAt_set_next (m : Mem) (a b : Nat) (n : SLNode) (nx : Option Nat)
    (h : m[a]? = some n) : valueAt (m.set a { n with Next := nx }) b = valueAt m b := by
  unfold valueAt
  rw [getElem?_set_next m a b n nx h]
  split_ifs with h1
  · subst h1
    simp [h]
  · rfl

theorem IsSeg_frame (m m' : Mem) (addrs : List Nat) (p q : Option Nat)
    (hm : ∀ a ∈ addrs, m'[a]? = m[a]?) (h : IsSeg m p addrs q) : IsSeg m' p addrs q := by
  induction addrs generalizing p with
  | nil => exact h
  | cons a rest ih =>
    obtain ⟨hp, n, hn, hrest⟩ := h
    refine ⟨hp, n, ?_, ih _ (fun b hb => hm b (List.mem_cons_of_mem _ hb)) hrest⟩
    rw [hm a (List.mem_cons_self _ _)]
    exact hn

theorem IsSeg_lt (m : Mem) (addrs : List Nat) (p q : Option Nat) (h : IsSeg m p addrs q) :
    ∀ a ∈ addrs, a < m.length := by
  induction addrs generalizing p with
  | nil => simp
  | cons a rest ih =>
    obtain ⟨-, n, hn, hrest⟩ := h
    intro b hb
    rcases List.mem_cons.1 hb with rfl | hb
    · by_contra hlt
      rw [List.getElem?_eq_none (by omega)] at hn
      simp at hn
    · exact ih _ hrest b hb

theorem length_le_of_nodup_lt (addrs : List Nat) (n : Nat) (hn : addrs.Nodup)
    (hlt : ∀ a ∈ addrs, a < n) : addrs.length ≤ n := by
  have h1 : addrs.toFinset ⊆ Finset.range n := by
    intro a ha
    simp only [List.mem_toFinset] at ha
    simpa using hlt a ha
  have h2 := Finset.card_le_card h1
  rw [List.toFinset_card_of_nodup hn, Finset.card_range] at h2
  exact h2

theorem valuesFrom_of_IsSeg (m : Mem) (addrs : List Nat) :
    ∀ (fuel : Nat) (p : Option Nat), IsSeg m p addrs none → addrs.length < fuel →
      valuesFrom fuel m p = some (addrs.map (valueAt m)) := by
  induction addrs with
  | nil =>
    intro fuel p h hf
    cases fuel with
    | zero => omega
    | succ f =>
      have : p = none := h
      subst this
      rfl
  | cons a rest ih =>
    intro fuel p h hf
    obtain ⟨hp, n, hn, hrest⟩ := h
    cases fuel with
    | zero => omega
    | succ f =>
      subst hp
      simp only [List.length_cons] at hf
      simp only [valuesFrom, hn, ih f n.Next hrest (by omega), Option.map_some', List.map_cons,
        valueAt]

theorem WF.values_eq {m : Mem} {l : LinkedList} {addrs : List Nat} (h : WF m l addrs) :
    l.values m = some (addrs.map (valueAt m)) := by
  have hlen := length_le_of_nodup_lt addrs m.length h.nodup (IsSeg_lt m addrs _ _ h.chain)
  exact valuesFrom_of_IsSeg m addrs _ _ h.chain (by omega)

theorem deleteLoop_spec (v : Int) (suf : List Nat) :
    ∀ (fuel : Nat) (m : Mem) (l : LinkedList) (prev : Nat) (pn : SLNode),
      suf.length < fuel → m[prev]? = some pn → IsSeg m pn.Next suf none →
      (prev :: suf).Nodup → l.Tail = (prev :: suf).getLast? →
      ∃ m' l' suf', deleteLoop fuel m l v prev pn.Next = some (m', l') ∧
        IsSeg m' (some prev) (prev :: suf') none ∧ List.Sublist suf' suf ∧
        l'.Tail = (prev :: suf').getLast? ∧ l'.Head = l.Head ∧
        (∀ a, a ∉ prev :: suf → m'[a]? = m[a]?) ∧
        (∀ a, valueAt m' a = valueAt m a) ∧
        suf'.map (valueAt m) = (suf.map (valueAt m)).erase v ∧
        (v ∉ suf.map (valueAt m) → m' = m ∧ l' = l) := by
  induction suf with
  | nil =>
    intro fuel m l prev pn hf hp hseg hnd htail
    cases fuel with
    | zero => omega
    | succ f =>
      have hnx : pn.Next = none := hseg
      refine ⟨m, l, [], ?_, ⟨rfl, pn, hp, hnx⟩, List.Sublist.refl _, htail, rfl,
        fun _ _ => rfl, fun _ => rfl, rfl, fun _ => ⟨rfl, rfl⟩⟩
      rw [hnx]
      rfl
  | cons c s2 ih =>
    intro fuel m l prev pn hf hp hseg hnd htail
    obtain ⟨hnx, cn, hc, hrest⟩ := hseg
    have hvc : valueAt m c = cn.Value := by simp [valueAt, hc]
    cases fuel with
    | zero => omega
    | succ f =>
      simp only [List.length_cons] at hf
      have hnd' := List.nodup_cons.1 hnd
      have hnd2 := List.nodup_cons.1 hnd'.2
      by_cases hv : cn.Value = v
      · have hstep : deleteLoop (f + 1) m l v prev pn.Next =
            some (m.set prev { pn with Next := cn.Next },
              if some c = l.Tail then { l with Tail := some prev } else l) := by
          rw [hnx]
          simp [deleteLoop, hc, hv, hp]
        have hprev2 : prev ∉ s2 := fun h => hnd'.1 (List.mem_cons_of_mem _ h)
        refine ⟨_, _, s2, hstep, ⟨rfl, { pn with Next := cn.Next }, ?_, ?_⟩,
          List.sublist_cons_self _ _, ?_, ?_, ?_, ?_, ?_, ?_⟩
        · rw [getElem?_set_next m prev prev pn cn.Next hp, if_pos rfl]
        · refine IsSeg_frame m _ s2 _ _ (fun a ha => ?_) hrest
          rw [getElem?_set_next m prev a pn cn.Next hp, if_neg]
          rintro rfl
          exact hprev2 ha
        · by_cases hs2 : s2 = []
          · subst hs2
            simp only [List.getLast?_cons_cons, List.getLast?_singleton] at htail
            simp [htail]
          · obtain ⟨x, xs, rfl⟩ := List.exists_cons_of_ne_nil hs2
            simp only [List.getLast?_cons_cons] at htail ⊢
            have hne : some c ≠ l.Tail := by
              rw [htail]
              intro hEq
              have hmem : c ∈ x :: xs := List.mem_of_getLast?_eq_some hEq.symm
              exact hnd2.1 hmem
            simp only [hne, if_false]
            exact htail
        · split_ifs <;> rfl
        · intro a ha
          rw [getElem?_set_next m prev a pn cn.Next hp, if_neg]
          rintro rfl
          exact ha (List.mem_cons_self _ _)
        · intro a
          exact valueAt_set_next m prev a pn cn.Next hp
        · simp only [List.map_cons, hvc, hv, List.erase_cons_head]
        · intro habs
          exact absurd (by simp [hvc, hv]) habs
      · have hstep : deleteLoop (f + 1) m l v prev pn.Next = deleteLoop f m l v c cn.Next := by
          rw [hnx]
          simp [deleteLoop, hc, hv]
        have htail2 : l.Tail = (c :: s2).getLast? := by
          simpa only [List.getLast?_cons_cons] using htail
        obtain ⟨m', l', s2', h1, h2, h3, h4, h5, h6, h7, h8, h9⟩ :=
          ih f m l c cn (by omega) hc hrest hnd'.2 htail2
        have hprev : m'[prev]? = some pn := by
          rw [h6 prev hnd'.1]
          exact hp
        refine ⟨m', l', c :: s2', hstep.trans h1, ⟨rfl, pn, hprev, ?_⟩, h3.cons₂ c, ?_, h5, ?_, h7,
          ?_, ?_⟩
        · rw [hnx]
          exact h2
        · simpa only [List.getLast?_cons_cons] using h4
        · intro a ha
          exact h6 a (fun h => ha (List.mem_cons_of_mem _ h))
        · simp only [List.map_cons, hvc]
          rw [List.erase_cons_tail (by simpa using hv), h8]
        · intro habs
          exact h9 (fun h => habs (by simp [h]))

/-- C20: on a well-formed list, `Delete(v)` returns; the values read from
`Head` afterwards are the old ones without the first occurrence of `v`, in the
same order; memory and list are untouched when `v` is absent; and the list is
well formed again, so `Tail` is the last node reachable from `Head` (nil when
the list is empty). -/
theorem Delete_spec (m : Mem) (l : LinkedList) (addrs : List Nat) (v : Int)
    (h : WF m l addrs) :
    ∃ m' l' addrs', l.Delete m v = some (m', l') ∧ WF m' l' addrs' ∧
      l'.Tail = addrs'.getLast? ∧
      l.values m = some (addrs.map (valueAt m)) ∧
      l'.values m' = some ((addrs.map (valueAt m)).erase v) ∧
      (v ∉ addrs.map (valueAt m) → m' = m ∧ l' = l) := by
  obtain ⟨hchain, hnd, htail⟩ := h
  have hvals := WF.values_eq ⟨hchain, hnd, htail⟩
  cases addrs with
  | nil =>
    have hh : l.Head = none := hchain
    refine ⟨m, l, [], by simp [LinkedList.Delete, hh], ⟨hchain, hnd, htail⟩, htail, hvals, ?_,
      fun _ => ⟨rfl, rfl⟩⟩
    simpa using hvals
  | cons a rest =>
    obtain ⟨hh, hn, ha, hrest⟩ := hchain
    have hva : valueAt m a = hn.Value := by simp [valueAt, ha]
    have hnd' := List.nodup_cons.1 hnd
    by_cases hv : hn.Value = v
    · have hstep : l.Delete m v =
          some (m, { Head := hn.Next, Tail := if hn.Next = none then none else l.Tail }) := by
        simp [LinkedList.Delete, hh, ha, hv]
      have hwf : WF m { Head := hn.Next, Tail := if hn.Next = none then none else l.Tail }
          rest := by
        refine ⟨hrest, hnd'.2, ?_⟩
        cases rest with
        | nil =>
          have : hn.Next = none := hrest
          simp [this]
        | cons b bs =>
          have : hn.Next = some b := hrest.1
          simp only [this, List.getLast?_cons_cons] at htail ⊢
          simpa using htail
      refine ⟨_, _, rest, hstep, hwf, hwf.tail, hvals, ?_, ?_⟩
      · rw [WF.values_eq hwf]
        simp only [List.map_cons, hva, hv, List.erase_cons_head]
      · intro habs
        exact absurd (by simp [hva, hv]) habs
    · have hstep : l.Delete m v = deleteLoop m.length m l v a hn.Next := by
        simp [LinkedList.Delete, hh, ha, hv]
      have hlen := length_le_of_nodup_lt (a :: rest) m.length hnd
        (IsSeg_lt m (a :: rest) _ _ ⟨hh, hn, ha, hrest⟩)
      simp only [List.length_cons] at hlen
      obtain ⟨m', l', rest', h1, h2, h3, h4, h5, h6, h7, h8, h9⟩ :=
        deleteLoop_spec v rest m.length m l a hn (by omega) ha hrest hnd htail
      have hwf : WF m' l' (a :: rest') := by
        refine ⟨?_, hnd.sublist (h3.cons₂ a), h4⟩
        rw [h5, hh]
        exact h2
      refine ⟨m', l', a :: rest', hstep.trans h1, hwf, h4, hvals, ?_, ?_⟩
      · rw [WF.values_eq hwf]
        have hm : (a :: rest').map (valueAt m') = (a :: rest').map (valueAt m) :=
          List.map_congr_left (fun x _ => h7 x)
        rw [hm]
        simp only [List.map_cons, hva]
        rw [List.erase_cons_tail (by simpa using hv), h8]
      · intro habs
        exact h9 (fun h => habs (by simp [h]))

theorem IsSeg_append (m : Mem) (xs ys : List Nat) (p q : Option Nat) :
    IsSeg m p (xs ++ ys) q ↔ ∃ r, IsSeg m p xs r ∧ IsSeg m r ys q := by
  induction xs generalizing p with
  | nil =>
    constructor
    · intro h
      exact ⟨p, rfl, h⟩
    · rintro ⟨r, h1, h2⟩
      have : p = r := h1
      subst this
      exact h2
  | cons a rest ih =>
    constructor
    · rintro ⟨hp, n, hn, hrest⟩
      obtain ⟨r, h1, h2⟩ := (ih n.Next).1 hrest
      exact ⟨r, ⟨hp, n, hn, h1⟩, h2⟩
    · rintro ⟨r, ⟨hp, n, hn, h1⟩, h2⟩
      exact ⟨hp, n, hn, (ih n.Next).2 ⟨r, h1, h2⟩⟩

theorem Append_spec (m : Mem) (l : LinkedList) (addrs : List Nat) (v : Int)
    (h : WF m l addrs) :
    ∃ m' l', l.Append m v = some (m', l') ∧ WF m' l' (addrs ++ [m.length]) ∧
      l'.values m' = some (addrs.map (valueAt m) ++ [0]) := by
  obtain ⟨hchain, hnd, htail⟩ := h
  have hlt := IsSeg_lt m addrs _ _ hchain
  have hfresh : m.length ∉ addrs := fun hmem => Nat.lt_irrefl _ (hlt _ hmem)
  have hnew : (m ++ [({ Value := 0, Next := none } : SLNode)])[m.length]? =
      some { Value := 0, Next := none } := by simp
  have hold : ∀ a, a < m.length →
      (m ++ [({ Value := 0, Next := none } : SLNode)])[a]? = m[a]? := by
    intro a ha
    exact List.getElem?_append_left ha
  rcases List.eq_nil_or_concat addrs with rfl | ⟨init, t, rfl⟩
  · have hh : l.Head = none := hchain
    have hwf : WF (m ++ [({ Value := 0, Next := none } : SLNode)])
        { Head := some m.length, Tail := some m.length } ([] ++ [m.length]) :=
      ⟨⟨rfl, _, hnew, rfl⟩, by simp, rfl⟩
    refine ⟨_, _, by simp [LinkedList.Append, hh], hwf, ?_⟩
    rw [WF.values_eq hwf]
    simp [valueAt]
  · rw [List.concat_eq_append] at hchain hnd htail hlt hfresh ⊢
    obtain ⟨r, hinit, hr, tn, ht, htn⟩ := (IsSeg_append m init [t] l.Head none).1 hchain
    have htn' : tn.Next = none := htn
    have htl : t < m.length := hlt t (by simp)
    have hhead : ∃ a, l.Head = some a := by
      cases init with
      | nil =>
        have : l.Head = r := hinit
        exact ⟨t, this.trans hr⟩
      | cons a rest => exact ⟨a, hinit.1⟩
    obtain ⟨a, hhead⟩ := hhead
    have htail' : l.Tail = some t := by simpa using htail
    have hstep : l.Append m v =
        some ((m ++ [({ Value := 0, Next := none } : SLNode)]).set t
            { tn with Next := some m.length }, { l with Tail := some m.length }) := by
      simp [LinkedList.Append, hhead, htail', hold t htl, ht]
    have hnd' := List.nodup_append.1 hnd
    have htinit : t ∉ init := fun hmem => hnd'.2.2 hmem (by simp)
    have hget : ∀ b, ((m ++ [({ Value := 0, Next := none } : SLNode)]).set t
        { tn with Next := some m.length })[b]? =
        if t = b then some { tn with Next := some m.length }
        else (m ++ [({ Value := 0, Next := none } : SLNode)])[b]? := by
      intro b
      exact getElem?_set_next _ t b tn (some m.length) ((hold t htl).trans ht)
    have hwf : WF ((m ++ [({ Value := 0, Next := none } : SLNode)]).set t
        { tn with Next := some m.length }) { l with Tail := some m.length }
        (init ++ [t] ++ [m.length]) := by
      refine ⟨?_, ?_, by simp⟩
      · rw [List.append_assoc, IsSeg_append]
        refine ⟨r, IsSeg_frame m _ init _ _ (fun b hb => ?_) hinit, hr,
          { tn with Next := some m.length }, ?_, rfl, { Value := 0, Next := none }, ?_, rfl⟩
        · have hne : ¬ t = b := by
            rintro rfl
            exact htinit hb
          rw [hget b, if_neg hne]
          exact hold b (hlt b (by simp [hb]))
        · rw [hget t, if_pos rfl]
        · rw [hget m.length, if_neg (by omega)]
          exact hnew
      · rw [List.nodup_append]
        refine ⟨hnd, by simp, ?_⟩
        intro b hb hb'
        simp only [List.mem_singleton] at hb'
        subst hb'
        exact hfresh hb
    refine ⟨_, _, hstep, hwf, ?_⟩
    rw [WF.values_eq hwf, List.map_append]
    have e1 : (init ++ [t]).map (valueAt ((m ++ [({ Value := 0, Next := none } : SLNode)]).set t
        { tn with Next := some m.length })) = (init ++ [t]).map (valueAt m) := by
      apply List.map_congr_left
      intro b hb
      have hbl := hlt b hb
      rw [valueAt_set_next _ t b tn (some m.length) ((hold t htl).trans ht)]
      simp only [valueAt, hold b hbl]
    have e2 : [m.length].map (valueAt ((m ++ [({ Value := 0, Next := none } : SLNode)]).set t
        { tn with Next := some m.length })) = [0] := by
      simp only [List.map_cons, List.map_nil, valueAt, hget m.length]
      rw [if_neg (by omega), hnew]
    rw [e1, e2]

theorem Delete_spec_witness :
    WF [⟨5, none⟩, ⟨6, some 0⟩, ⟨7, some 1⟩] ⟨some 2, some 0⟩ [2, 1, 0] ∧
      LinkedList.Delete [⟨5, none⟩, ⟨6, some 0⟩, ⟨7, some 1⟩] ⟨some 2, some 0⟩ 5 =
        some ([⟨5, none⟩, ⟨6, none⟩, ⟨7, some 1⟩], ⟨some 2, some 1⟩) ∧
      ∃ m' l' addrs',
        LinkedList.Delete [⟨5, none⟩, ⟨6, some 0⟩, ⟨7, some 1⟩] ⟨some 2, some 0⟩ 5 =
            some (m', l') ∧
          WF m' l' addrs' ∧ l'.Tail = addrs'.getLast? ∧
          LinkedList.values [⟨5, none⟩, ⟨6, some 0⟩, ⟨7, some 1⟩] ⟨some 2, some 0⟩ =
            some (([2, 1, 0] : List Nat).map (valueAt [⟨5, none⟩, ⟨6, some 0⟩, ⟨7, some 1⟩])) ∧
          l'.values m' =
            some ((([2, 1, 0] : List Nat).map
              (valueAt [⟨5, none⟩, ⟨6, some 0⟩, ⟨7, some 1⟩])).erase 5) ∧
          (5 ∉ ([2, 1, 0] : List Nat).map (valueAt [⟨5, none⟩, ⟨6, some 0⟩, ⟨7, some 1⟩]) →
            m' = [⟨5, none⟩, ⟨6, some 0⟩, ⟨7, some 1⟩] ∧ l' = ⟨some 2, some 0⟩) :=
  have hwf : WF [⟨5, none⟩, ⟨6, some 0⟩, ⟨7, some 1⟩] ⟨some 2, some 0⟩ [2, 1, 0] :=
    ⟨⟨rfl, ⟨7, some 1⟩, rfl, rfl, ⟨6, some 0⟩, rfl, rfl, ⟨5, none⟩, rfl, rfl⟩, by decide, rfl⟩
  ⟨hwf, by decide, Delete_spec _ _ _ 5 hwf⟩

/-- C19, what the code does: `Append(5)` on the empty list, and on the list
holding 1, adds a node whose value is 0, not 5. -/
theorem Append_stores_zero :
    ((LinkedList.Append [] ⟨none, none⟩ 5).bind (fun s => s.2.values s.1)) = some [0] ∧
      ((LinkedList.Append (LinkedList.Prepend [] ⟨none, none⟩ 1).1
            (LinkedList.Prepend [] ⟨none, none⟩ 1).2 5).bind (fun s => s.2.values s.1)) =
        some [1, 0] := by
  constructor <;> decide

end SinglyLinkedList

namespace ConcurrentPipeline

open TokenBucket (Context CtxErr wrapInt)

/-! ## Concurrent pipeline: proofs -/

theorem evenSquaresPlusOne_cons (v : Int) (rest : List Int) :
    evenSquaresPlusOne (v :: rest) =
      keepEven (wrapInt (wrapInt (v * v) + 1)) ++ evenSquaresPlusOne rest := by
  simp only [evenSquaresPlusOne, keepEven, List.map_cons, List.filter_cons, List.filter_nil]
  split_ifs <;> simp

theorem keepEven_of_odd {n : Int} (h : Int.tmod n 2 ≠ 0) : keepEven n = [] := by
  have : n % 2 ≠ 0 := by
    intro h0
    apply h
    have hd : (2 : Int) ∣ n := Int.dvd_of_emod_eq_zero h0
    exact Int.tmod_eq_zero_of_dvd hd
  simp only [keepEven, List.filter_cons, List.filter_nil, decide_eq_true_eq]
  rw [if_neg this]

theorem keepEven_of_even {n : Int} (h : ¬ Int.tmod n 2 ≠ 0) : keepEven n = [n] := by
  have h0 : Int.tmod n 2 = 0 := not_not.1 h
  have : n % 2 = 0 := Int.emod_eq_zero_of_dvd (Int.dvd_of_tmod_eq_zero h0)
  simp only [keepEven, List.filter_cons, List.filter_nil, decide_eq_true_eq]
  rw [if_pos this]

theorem step_ctx {s s' : Pipe} {e : Event} (h : step s e = some s') (hc : s'.ctx = none) :
    s.ctx = none := by
  cases e <;> simp only [step] at h <;> (try split at h) <;> (try split at h) <;>
    (try split at h) <;>
    first
      | (simp only [Option.some.injEq] at h; subst h; first | exact hc | (simp at hc))
      | (simp at h)

theorem step_pinv {nums : List Int} {s s' : Pipe} {e : Event} (h : step s e = some s')
    (hc : s'.ctx = none) (hi : PInv nums s) : PInv nums s' := by
  have hc0 := step_ctx h hc
  obtain ⟨o, d1, d2, d3, r, sh1, sh2⟩ := hi
  simp only [Pipe.pending] at o
  cases e with
  | cancel e =>
    simp only [step, Option.some.injEq] at h
    subst h
    simp at hc
  | genSend =>
    simp only [step] at h
    split at h
    · rename_i v rest hg hs
      simp only [Option.some.injEq] at h
      subst h
      rw [hg, hs] at o
      simp only [Option.getD_some, evenSquaresPlusOne_cons, sqPending, List.append_nil] at o
      refine ⟨?_, by simp, fun ha => ?_, d3, r, by simp, sh2⟩
      · simpa [Pipe.pending, sqPending] using o
      · have := d2 ha
        simp [hs] at this
    · simp at h
  | genExit =>
    simp only [step] at h
    split at h
    · rename_i hg
      simp only [Option.some.injEq] at h
      subst h
      rw [hg] at o
      refine ⟨?_, fun _ => rfl, d2, d3, r, sh1, sh2⟩
      simpa [Pipe.pending, evenSquaresPlusOne] using o
    · simp [hc0] at h
    · simp at h
  | sqClosed =>
    simp only [step] at h
    split at h
    · rename_i hg hs
      simp only [Option.some.injEq] at h
      subst h
      rw [hs] at o
      refine ⟨?_, fun _ => hg, fun _ => rfl, d3, r, by simp, sh2⟩
      simpa [Pipe.pending, sqPending] using o
    · simp at h
  | sqSend =>
    simp only [step] at h
    split at h
    · rename_i n hs ha
      simp only [Option.some.injEq] at h
      subst h
      rw [hs, ha] at o
      refine ⟨?_, by simp, by simp, fun hf => ?_, r, by simp, by simp⟩
      · simpa [Pipe.pending, sqPending, addPending] using o
      · have := d3 hf
        simp [ha] at this
    · simp at h
  | sqAbort =>
    simp only [step] at h
    split at h
    · simp [hc0] at h
    · simp at h
  | addClosed =>
    simp only [step] at h
    split at h
    · rename_i hs ha
      simp only [Option.some.injEq] at h
      subst h
      rw [ha] at o
      refine ⟨?_, d1, fun _ => hs, fun _ => rfl, r, sh1, by simp⟩
      simpa [Pipe.pending, addPending] using o
    · simp at h
  | addSend =>
    simp only [step] at h
    split at h
    · rename_i n ha hf
      simp only [Option.some.injEq] at h
      subst h
      rw [ha, hf] at o
      refine ⟨?_, d1, by simp, by simp, fun r' hr => ?_, sh1, by simp⟩
      · simpa [Pipe.pending, addPending, fltPending] using o
      · have := (r r' hr).2
        simp [hf] at this
    · simp at h
  | addAbort =>
    simp only [step] at h
    split at h
    · simp [hc0] at h
    · simp at h
  | fltTest =>
    simp only [step] at h
    split at h
    · rename_i n hf
      rw [hf] at o
      simp only [fltPending] at o
      have hret : ∀ r', s.returned = some r' → False := by
        intro r' hr
        have := (r r' hr).2
        simp [hf] at this
      by_cases hodd : Int.tmod n 2 ≠ 0
      · rw [if_pos hodd] at h
        simp only [hc0, Option.isSome_none, Bool.false_eq_true, if_false,
          Option.some.injEq] at h
        subst h
        rw [keepEven_of_odd hodd] at o
        refine ⟨?_, d1, d2, by simp, fun r' hr => (hret r' hr).elim, sh1, sh2⟩
        simpa [Pipe.pending, fltPending] using o
      · rw [if_neg hodd] at h
        simp only [Option.some.injEq] at h
        subst h
        rw [keepEven_of_even hodd] at o
        refine ⟨?_, d1, d2, by simp, fun r' hr => (hret r' hr).elim, sh1, sh2⟩
        simpa [Pipe.pending, fltPending] using o
    · simp at h
  | fltClosed =>
    simp only [step] at h
    split at h
    · rename_i ha hf
      simp only [Option.some.injEq] at h
      subst h
      rw [hf] at o
      refine ⟨?_, d1, d2, fun _ => ha, fun r' hr => ⟨(r r' hr).1, rfl⟩, sh1, sh2⟩
      simpa [Pipe.pending, fltPending] using o
    · simp at h
  | fltSend =>
    simp only [step] at h
    split at h
    · rename_i n hf hr
      simp only [Option.some.injEq] at h
      subst h
      rw [hf] at o
      refine ⟨?_, d1, d2, by simp, fun r' hr' => ?_, sh1, sh2⟩
      · simpa [Pipe.pending, fltPending] using o
      · simp [hr] at hr'
    · simp at h
  | fltAbort =>
    simp only [step] at h
    split at h
    · simp [hc0] at h
    · simp at h
  | colClosed =>
    simp only [step] at h
    split at h
    · rename_i hf hr
      simp only [Option.some.injEq] at h
      subst h
      refine ⟨o, d1, d2, d3, fun r' hr' => ?_, sh1, sh2⟩
      simp only [Option.some.injEq] at hr'
      exact ⟨hr'.symm, hf⟩
    · simp at h
  | colAbort =>
    simp only [step] at h
    split at h
    · simp [hc0] at h
    · simp at h

theorem run_ctx {evs : List Event} {s s' : Pipe} (h : run s evs = some s')
    (hc : s'.ctx = none) : s.ctx = none := by
  induction evs generalizing s with
  | nil =>
    simp only [run, Option.some.injEq] at h
    exact h ▸ hc
  | cons e es ih =>
    simp only [run] at h
    cases hs : step s e with
    | none => simp [hs] at h
    | some s1 =>
      simp only [hs] at h
      exact step_ctx hs (ih h)

theorem run_pinv {nums : List Int} {evs : List Event} {s s' : Pipe}
    (h : run s evs = some s') (hc : s'.ctx = none) (hi : PInv nums s) : PInv nums s' := by
  induction evs generalizing s with
  | nil =>
    simp only [run, Option.some.injEq] at h
    exact h ▸ hi
  | cons e es ih =>
    simp only [run] at h
    cases hs : step s e with
    | none => simp [hs] at h
    | some s1 =>
      simp only [hs] at h
      exact ih h (step_pinv hs (run_ctx h hc) hi)

theorem start_pinv (ctx : Context) (nums : List Int) : PInv nums (start ctx nums) := by
  refine ⟨?_, ?_, ?_, ?_, ?_, ?_⟩ <;>
    simp [start, Pipe.pending, fltPending, addPending, sqPending]

theorem returned_eq {nums : List Int} {s : Pipe} {r : List Int} (hi : PInv nums s)
    (hr : s.returned = some r) : r = evenSquaresPlusOne nums := by
  obtain ⟨o, d1, d2, d3, hret, -⟩ := hi
  obtain ⟨rfl, hf⟩ := hret r hr
  have ha := d3 hf
  have hs := d2 ha
  have hg := d1 hs
  simpa [Pipe.pending, hf, ha, hs, hg, fltPending, addPending, sqPending, evenSquaresPlusOne]
    using o

theorem pipe_run_append {evs evs' : List Event} {s s' s'' : Pipe} (h : run s evs = some s')
    (h' : run s' evs' = some s'') : run s (evs ++ evs') = some s'' := by
  induction evs generalizing s with
  | nil =>
    simp only [run, Option.some.injEq] at h
    subst h
    simpa using h'
  | cons e es ih =>
    simp only [run] at h
    cases hs : step s e with
    | none => simp [hs] at h
    | some s1 =>
      simp only [hs] at h
      simp only [List.cons_append, run, hs]
      exact ih h

theorem can_step {nums : List Int} {s : Pipe} (hi : PInv nums s) (hc : s.ctx = none)
    (hr : s.returned = none) :
    ∃ e s', step s e = some s' ∧ s'.ctx = none ∧ s'.fuel < s.fuel := by
  obtain ⟨-, -, -, -, -, sh1, sh2⟩ := hi
  obtain ⟨ctx, gen, sq, add, flt, col, ret⟩ := s
  simp only at hc hr sh1 sh2
  subst hc hr
  cases flt with
  | send v => exact ⟨Event.fltSend, _, rfl, rfl, by simp [Pipe.fuel]⟩
  | got n =>
    by_cases hodd : Int.tmod n 2 ≠ 0
    · exact ⟨Event.fltTest, _, by simp only [step]; rw [if_pos hodd]; rfl, rfl,
        by simp [Pipe.fuel]⟩
    · exact ⟨Event.fltTest, _, by simp only [step]; rw [if_neg hodd], rfl,
        by simp [Pipe.fuel]⟩
  | done => exact ⟨Event.colClosed, _, rfl, rfl, by simp [Pipe.fuel]⟩
  | recv =>
    cases add with
    | send v => exact ⟨Event.addSend, _, rfl, rfl, by simp [Pipe.fuel]⟩
    | got n => exact absurd rfl (sh2 n)
    | done => exact ⟨Event.fltClosed, _, rfl, rfl, by simp [Pipe.fuel]⟩
    | recv =>
      cases sq with
      | send v => exact ⟨Event.sqSend, _, rfl, rfl, by simp [Pipe.fuel]⟩
      | got n => exact absurd rfl (sh1 n)
      | done => exact ⟨Event.addClosed, _, rfl, rfl, by simp [Pipe.fuel]⟩
      | recv =>
        cases gen with
        | none => exact ⟨Event.sqClosed, _, rfl, rfl, by simp [Pipe.fuel]⟩
        | some rest =>
          cases rest with
          | nil => exact ⟨Event.genExit, _, rfl, rfl, by simp [Pipe.fuel]⟩
          | cons v rest =>
            exact ⟨Event.genSend, _, rfl, rfl, by simp [Pipe.fuel]; omega⟩

theorem can_finish (nums : List Int) :
    ∀ (n : Nat) (s : Pipe), s.fuel ≤ n → PInv nums s → s.ctx = none →
      ∃ evs s' r, run s evs = some s' ∧ s'.ctx = none ∧ s'.returned = some r := by
  intro n
  induction n with
  | zero =>
    intro s hf hi hc
    cases hr : s.returned with
    | some r => exact ⟨[], s, r, rfl, hc, hr⟩
    | none =>
      obtain ⟨e, s1, -, -, h3⟩ := can_step hi hc hr
      omega
  | succ n ih =>
    intro s hf hi hc
    cases hr : s.returned with
    | some r => exact ⟨[], s, r, rfl, hc, hr⟩
    | none =>
      obtain ⟨e, s1, h1, h2, h3⟩ := can_step hi hc hr
      obtain ⟨evs, s2, r, h4, h5, h6⟩ := ih s1 (by omega) (step_pinv h1 h2 hi) h2
      exact ⟨e :: evs, s2, r, by simp [run, h1, h4], h5, h6⟩

/-- C16: in every run of `collect(filterEven(addOne(square(generator(nums)))))`
whose context is never cancelled, what `collect` returns is the list of the even
values of `n*n+1` for `n` in `nums`, in the order of `nums` (Go `int`
arithmetic); and every such run can be continued until `collect` returns. -/
theorem pipeline_output (nums : List Int) (evs : List Event) (s : Pipe)
    (h : run (start none nums) evs = some s) (hc : s.ctx = none) :
    (∀ r, s.returned = some r → r = evenSquaresPlusOne nums) ∧
      ∃ evs' s', run (start none nums) (evs ++ evs') = some s' ∧ s'.ctx = none ∧
        s'.returned = some (evenSquaresPlusOne nums) := by
  have hi := run_pinv h hc (start_pinv none nums)
  refine ⟨fun r hr => returned_eq hi hr, ?_⟩
  obtain ⟨evs', s', r, h1, h2, h3⟩ := can_finish nums s.fuel s (Nat.le_refl _) hi hc
  have h4 := pipe_run_append h h1
  have hi' := run_pinv h4 h2 (start_pinv none nums)
  exact ⟨evs', s', h4, h2, by rw [h3, returned_eq hi' h3]⟩

theorem pipeline_output_witness :
    ∃ s, run (start none [1, 2, 3, 4])
          [Event.genSend, Event.sqSend, Event.addSend, Event.fltTest, Event.fltSend,
            Event.genSend, Event.sqSend, Event.genSend, Event.addSend, Event.fltTest,
            Event.sqSend, Event.addSend, Event.fltTest, Event.fltSend, Event.genSend,
            Event.genExit, Event.sqSend, Event.sqClosed, Event.addSend, Event.addClosed,
            Event.fltTest, Event.fltClosed, Event.colClosed] = some s ∧
      s.ctx = none ∧ s.returned = some [2, 10] ∧ evenSquaresPlusOne [1, 2, 3, 4] = [2, 10] ∧
      (∀ r, s.returned = some r → r = evenSquaresPlusOne [1, 2, 3, 4]) ∧
      ∃ evs' s',
        run (start none [1, 2, 3, 4])
            ([Event.genSend, Event.sqSend, Event.addSend, Event.fltTest, Event.fltSend,
              Event.genSend, Event.sqSend, Event.genSend, Event.addSend, Event.fltTest,
              Event.sqSend, Event.addSend, Event.fltTest, Event.fltSend, Event.genSend,
              Event.genExit, Event.sqSend, Event.sqClosed, Event.addSend, Event.addClosed,
              Event.fltTest, Event.fltClosed, Event.colClosed] ++ evs') = some s' ∧
          s'.ctx = none ∧ s'.returned = some (evenSquaresPlusOne [1, 2, 3, 4]) :=
  ⟨{ ctx := none, gen := none, sq := Stage.done, add := Stage.done, flt := Stage.done,
     col := [2, 10], returned := some [2, 10] },
   by decide, rfl, rfl, by decide,
   pipeline_output [1, 2, 3, 4] _ _ (by decide) rfl⟩

end ConcurrentPipeline

namespace ContainerHeap

/-! ## Heaps: proofs -/

section Basics

variable {α : Type} [Inhabited α]

theorem elem_set (h : List α) (i k : Nat) (x : α) (hi : i < h.length) :
    elem (h.set i x) k = if k = i then x else elem h k := by
  simp only [elem, List.getD_eq_getElem?_getD, List.getElem?_set]
  by_cases hk : k = i
  · subst hk
    simp [hi]
  · have : ¬ i = k := fun e => hk e.symm
    simp [hk, this]

theorem length_Swap (h : List α) (i j : Nat) : (Swap h i j).length = h.length := by
  simp [Swap]

theorem elem_Swap (h : List α) (i j k : Nat) (hi : i < h.length) (hj : j < h.length) :
    elem (Swap h i j) k = if k = j then elem h i else if k = i then elem h j else elem h k := by
  unfold Swap
  rw [elem_set _ j k _ (by simpa using hj), elem_set h i k _ hi]

theorem elem_eq_getElem (h : List α) (i : Nat) (hi : i < h.length) : elem h i = h[i] := by
  simp [elem, List.getD_eq_getElem?_getD, List.getElem?_eq_getElem hi]

theorem elem_mem (h : List α) (i : Nat) (hi : i < h.length) : elem h i ∈ h := by
  rw [elem_eq_getElem h i hi]
  exact List.getElem_mem hi

theorem Swap_perm [DecidableEq α] (h : List α) (i j : Nat) (hi : i < h.length)
    (hj : j < h.length) : (Swap h i j).Perm h := by
  rw [List.perm_iff_count]
  intro a
  unfold Swap
  have hj' : j < (h.set i (elem h j)).length := by simpa using hj
  rw [List.count_set _ _ _ _ hj', List.count_set _ _ _ _ hi]
  have e1 : (h.set i (elem h j))[j] = elem h j := by
    rw [← elem_eq_getElem _ j hj', elem_set h i j _ hi]
    split_ifs with hji
    · rfl
    · rfl
  rw [e1, elem_eq_getElem h i hi, elem_eq_getElem h j hj]
  have b1 := List.boole_getElem_le_countP (fun x => x == a) h i hi
  have b2 := List.boole_getElem_le_countP (fun x => x == a) h j hj
  rw [← List.count_eq_countP] at b1 b2
  simp only [beq_iff_eq] at b1 b2 ⊢
  split_ifs at b1 b2 ⊢ <;> omega

theorem elem_append_left (h : List α) (x : α) (c : Nat) (hc : c < h.length) :
    elem (h ++ [x]) c = elem h c := by
  simp [elem, List.getD_eq_getElem?_getD, List.getElem?_append_left hc]

theorem mem_iff_elem (h : List α) (y : α) : y ∈ h ↔ ∃ c, c < h.length ∧ elem h c = y := by
  constructor
  · intro hy
    obtain ⟨c, hc, rfl⟩ := List.getElem_of_mem hy
    exact ⟨c, hc, elem_eq_getElem h c hc⟩
  · rintro ⟨c, hc, rfl⟩
    exact elem_mem h c hc

end Basics

section Weak

variable {α : Type} {less : α → α → Bool}

theorem StrictWeak.less_irrefl (sw : StrictWeak less) (a : α) : less a a = false := by
  by_contra h
  have h1 : less a a = true := by simpa using h
  have := sw.asymm a a h1
  rw [h1] at this
  exact Bool.noConfusion this

theorem StrictWeak.less_trans (sw : StrictWeak less) {a b c : α} (h1 : less a b = true)
    (h2 : less b c = true) : less a c = true := by
  by_contra h
  have h3 : less a c = false := by simpa using h
  have := sw.negtrans b a c (sw.asymm a b h1) h3
  rw [h2] at this
  exact Bool.noConfusion this

end Weak

section Root

variable {α : Type} [Inhabited α] {less : α → α → Bool}

theorem root_min (sw : StrictWeak less) (h : List α) (hh : IsHeap less h) :
    ∀ c, c < h.length → less (elem h c) (elem h 0) = false := by
  intro c
  induction c using Nat.strong_induction_on with
  | _ c ih =>
    intro hc
    by_cases hc0 : c = 0
    · subst hc0
      exact sw.less_irrefl _
    · have h1 := hh c (by omega) hc (Nat.zero_le _)
      have h2 := ih ((c - 1) / 2) (by omega) (by omega)
      exact sw.negtrans _ _ _ h1 h2

theorem TopInv_nil (k : Nat) : TopInv less k ([] : List α) [] [] :=
  ⟨fun c _ hc _ => by simp at hc, List.Perm.refl _, fun r hr => by simp at hr, Nat.zero_le _,
    fun _ => rfl⟩

end Root

section Order

variable {α : Type} [Inhabited α] [DecidableEq α] {less : α → α → Bool}

theorem downLoop_spec (sw : StrictWeak less) (i0 n : Nat) :
    ∀ (fuel : Nat) (h : List α) (i : Nat), n ≤ h.length → i0 ≤ i → n ≤ i + fuel →
      DownInv less h i0 i n →
      HeapFrom less (downLoop less fuel h i n) i0 n ∧
        (downLoop less fuel h i n).length = h.length ∧
        (downLoop less fuel h i n).Perm h ∧
        ∀ k, n ≤ k → elem (downLoop less fuel h i n) k = elem h k := by
  intro fuel
  induction fuel with
  | zero =>
    intro h i hn hi hf ⟨d1, _⟩
    refine ⟨fun c hc1 hcn hp => ?_, rfl, List.Perm.refl _, fun _ _ => rfl⟩
    exact d1 c hc1 hcn hp (by omega)
  | succ fuel ih =>
    intro h i hn hi hf ⟨d1, d2⟩
    unfold downLoop
    simp only []
    by_cases hj1 : n ≤ 2 * i + 1
    · rw [if_pos hj1]
      refine ⟨fun c hc1 hcn hp => ?_, rfl, List.Perm.refl _, fun _ _ => rfl⟩
      exact d1 c hc1 hcn hp (by omega)
    · rw [if_neg hj1]
      generalize hjdef : (if 2 * i + 1 + 1 < n ∧
          less (elem h (2 * i + 1 + 1)) (elem h (2 * i + 1)) = true
        then 2 * i + 1 + 1 else 2 * i + 1) = j
      have hjn : j < n := by
        rw [← hjdef]
        split_ifs with hc
        · exact hc.1
        · omega
      have hjc : j = 2 * i + 1 ∨ j = 2 * i + 2 := by
        rw [← hjdef]
        split_ifs <;> omega
      have hother : ∀ c, 1 ≤ c → c < n → (c - 1) / 2 = i → c ≠ j →
          less (elem h c) (elem h j) = false := by
        intro c hc1 hcn hcp hcj
        by_cases hcond : 2 * i + 1 + 1 < n ∧
            less (elem h (2 * i + 1 + 1)) (elem h (2 * i + 1)) = true
        · rw [if_pos hcond] at hjdef
          have hc : c = 2 * i + 1 := by omega
          subst hc
          rw [← hjdef]
          exact sw.asymm _ _ hcond.2
        · rw [if_neg hcond] at hjdef
          have hc : c = 2 * i + 1 + 1 := by omega
          subst hc
          rw [← hjdef]
          by_contra hne
          exact hcond ⟨hcn, by simpa using hne⟩
      by_cases hless : less (elem h j) (elem h i) = false
      · rw [if_pos hless]
        refine ⟨fun c hc1 hcn hp => ?_, rfl, List.Perm.refl _, fun _ _ => rfl⟩
        by_cases hpi : (c - 1) / 2 = i
        · rw [hpi]
          by_cases hcj : c = j
          · rw [hcj]
            exact hless
          · exact sw.negtrans _ _ _ (hother c hc1 hcn hpi hcj) hless
        · exact d1 c hc1 hcn hp hpi
      · rw [if_neg hless]
        have hlt : less (elem h j) (elem h i) = true := by simpa using hless
        have hil : i < h.length := by omega
        have hjl : j < h.length := by omega
        have hinv : DownInv less (Swap h i j) i0 j n := by
          constructor
          · intro c hc1 hcn hp hpj
            rw [elem_Swap h i j c hil hjl, elem_Swap h i j _ hil hjl]
            by_cases hpi : (c - 1) / 2 = i
            · by_cases hcj : c = j
              · rw [if_pos hcj, if_neg (by omega), if_pos hpi]
                exact sw.asymm _ _ hlt
              · rw [if_neg hcj, if_neg (by omega), if_neg (by omega), if_pos hpi]
                exact hother c hc1 hcn hpi hcj
            · by_cases hci : c = i
              · rw [if_neg (by omega), if_pos hci, if_neg (by omega), if_neg hpi]
                have := d2 (by omega) j (by omega) hjn (by omega)
                rw [hci]
                exact this
              · rw [if_neg (by omega), if_neg hci, if_neg hpj, if_neg hpi]
                exact d1 c hc1 hcn hp hpi
          · intro _ c hc1 hcn hcp
            rw [elem_Swap h i j c hil hjl, elem_Swap h i j _ hil hjl]
            rw [if_neg (by omega), if_neg (by omega), if_neg (by omega), if_pos (by omega)]
            have := d1 c hc1 hcn (by omega) (by omega)
            rw [hcp] at this
            exact this
        obtain ⟨r1, r2, r3, r4⟩ :=
          ih (Swap h i j) j (by rw [length_Swap]; exact hn) (by omega) (by omega) hinv
        refine ⟨r1, by rw [r2, length_Swap], r3.trans (Swap_perm h i j hil hjl), fun k hk => ?_⟩
        rw [r4 k hk, elem_Swap h i j k hil hjl, if_neg (by omega), if_neg (by omega)]

theorem down_spec (sw : StrictWeak less) (h : List α) (i0 n : Nat) (hn : n ≤ h.length)
    (hh : HeapFrom less h (i0 + 1) n) :
    HeapFrom less (down less h i0 n) i0 n ∧ (down less h i0 n).length = h.length ∧
      (down less h i0 n).Perm h ∧ ∀ k, n ≤ k → elem (down less h i0 n) k = elem h k := by
  apply downLoop_spec sw i0 n n h i0 hn (Nat.le_refl _) (by omega)
  refine ⟨fun c hc1 hcn hp hpi => hh c hc1 hcn (by omega), fun hlt => ?_⟩
  omega

theorem upLoop_spec (sw : StrictWeak less) :
    ∀ (fuel : Nat) (h : List α) (j : Nat), j < h.length → j ≤ fuel → UpInv less h j →
      IsHeap less (upLoop less fuel h j) ∧ (upLoop less fuel h j).length = h.length ∧
        (upLoop less fuel h j).Perm h := by
  intro fuel
  induction fuel with
  | zero =>
    intro h j hj hf ⟨u1, _⟩
    refine ⟨fun c hc1 hcn _ => ?_, rfl, List.Perm.refl _⟩
    exact u1 c hc1 hcn (by omega)
  | succ fuel ih =>
    intro h j hj hf ⟨u1, u2⟩
    unfold upLoop
    simp only []
    by_cases hbreak : (j - 1) / 2 = j ∨ less (elem h j) (elem h ((j - 1) / 2)) = false
    · rw [if_pos hbreak]
      refine ⟨fun c hc1 hcn _ => ?_, rfl, List.Perm.refl _⟩
      by_cases hcj : c = j
      · subst hcj
        rcases hbreak with hb | hb
        · omega
        · exact hb
      · exact u1 c hc1 hcn hcj
    · rw [if_neg hbreak]
      have hij : (j - 1) / 2 ≠ j := fun e => hbreak (Or.inl e)
      have hlt : less (elem h j) (elem h ((j - 1) / 2)) = true := by
        by_contra hne
        exact hbreak (Or.inr (by simpa using hne))
      generalize hidef : (j - 1) / 2 = i at *
      have hj1 : 1 ≤ j := by omega
      have hilt : i < j := by omega
      have hil : i < h.length := by omega
      have hinv : UpInv less (Swap h i j) i := by
        constructor
        · intro c hc1 hcn hci
          rw [length_Swap] at hcn
          rw [elem_Swap h i j c hil hj, elem_Swap h i j _ hil hj]
          by_cases hcj : c = j
          · rw [if_pos hcj, if_neg (by omega), if_pos (by omega)]
            exact sw.asymm _ _ hlt
          · rw [if_neg hcj, if_neg hci]
            by_cases hpj : (c - 1) / 2 = j
            · rw [if_pos hpj]
              exact u2 hj1 c hc1 hcn hpj
            · rw [if_neg hpj]
              by_cases hpi : (c - 1) / 2 = i
              · rw [if_pos hpi]
                have h1 := u1 c hc1 hcn hcj
                rw [hpi] at h1
                by_contra hne
                have h2 : less (elem h c) (elem h j) = true := by simpa using hne
                have := sw.less_trans h2 hlt
                rw [h1] at this
                exact Bool.noConfusion this
              · rw [if_neg hpi]
                exact u1 c hc1 hcn hcj
        · intro hi1 c hc1 hcn hcp
          rw [length_Swap] at hcn
          rw [elem_Swap h i j c hil hj, elem_Swap h i j _ hil hj]
          have hpi := u1 i hi1 hil (by omega)
          by_cases hcj : c = j
          · rw [if_pos hcj, if_neg (by omega), if_neg (by omega)]
            exact hpi
          · rw [if_neg hcj, if_neg (by omega), if_neg (by omega), if_neg (by omega)]
            have h1 := u1 c hc1 hcn hcj
            rw [hcp] at h1
            exact sw.negtrans _ _ _ h1 hpi
      obtain ⟨r1, r2, r3⟩ :=
        ih (Swap h i j) i (by rw [length_Swap]; exact hil) (by omega) hinv
      exact ⟨r1, by rw [r2, length_Swap], r3.trans (Swap_perm h i j hil hj)⟩

theorem Push_spec (sw : StrictWeak less) (h : List α) (x : α) (hh : IsHeap less h) :
    IsHeap less (Push less h x) ∧ (Push less h x).length = h.length + 1 ∧
      (Push less h x).Perm (x :: h) := by
  have hinv : UpInv less (h ++ [x]) h.length := by
    constructor
    · intro c hc1 hcn hcl
      simp only [List.length_append, List.length_singleton] at hcn
      rw [elem_append_left h x c (by omega), elem_append_left h x _ (by omega)]
      exact hh c hc1 (by omega) (Nat.zero_le _)
    · intro _ c hc1 hcn hcp
      simp only [List.length_append, List.length_singleton] at hcn
      omega
  obtain ⟨r1, r2, r3⟩ := upLoop_spec sw h.length (h ++ [x]) h.length (by simp) (Nat.le_refl _) hinv
  have e : Push less h x = upLoop less h.length (h ++ [x]) h.length := by
    simp [Push, up]
  rw [e]
  refine ⟨r1, by simpa using r2, r3.trans ?_⟩
  exact List.perm_append_comm

theorem initLoop_spec (sw : StrictWeak less) (n : Nat) :
    ∀ (k : Nat) (h : List α), h.length = n → HeapFrom less h k n →
      HeapFrom less (initLoop less k h n) 0 n ∧ (initLoop less k h n).length = n ∧
        (initLoop less k h n).Perm h := by
  intro k
  induction k with
  | zero =>
    intro h hl hh
    exact ⟨hh, hl, List.Perm.refl _⟩
  | succ k ih =>
    intro h hl hh
    obtain ⟨d1, d2, d3, -⟩ := down_spec sw h k n (by omega) hh
    obtain ⟨r1, r2, r3⟩ := ih (down less h k n) (by rw [d2, hl]) d1
    exact ⟨r1, r2, r3.trans d3⟩

theorem Init_spec (sw : StrictWeak less) (h : List α) :
    IsHeap less (Init less h) ∧ (Init less h).Perm h := by
  obtain ⟨r1, r2, r3⟩ := initLoop_spec sw h.length (h.length / 2) h rfl
    (fun c hc1 hcn hp => by omega)
  unfold IsHeap Init
  rw [r2]
  exact ⟨r1, r3⟩

theorem Pop_spec (sw : StrictWeak less) (h : List α) (hpos : 0 < h.length)
    (hh : IsHeap less h) :
    ∃ h', Pop less h = some (elem h 0, h') ∧ IsHeap less h' ∧ h'.length + 1 = h.length ∧
      (elem h 0 :: h').Perm h ∧ ∀ y ∈ h, less y (elem h 0) = false := by
  have hn : h.length - 1 < h.length := by omega
  generalize hndef : h.length - 1 = n at hn
  have hpre : HeapFrom less (Swap h 0 n) 1 n := by
    intro c hc1 hcn hp
    rw [elem_Swap h 0 n c hpos hn, elem_Swap h 0 n _ hpos hn]
    rw [if_neg (by omega), if_neg (by omega), if_neg (by omega), if_neg (by omega)]
    exact hh c hc1 (by omega) (Nat.zero_le _)
  obtain ⟨d1, d2, d3, d4⟩ :=
    down_spec sw (Swap h 0 n) 0 n (by rw [length_Swap]; omega) hpre
  rw [length_Swap] at d2
  have hpop : Pop less h =
      some (elem (down less (Swap h 0 n) 0 n) n, (down less (Swap h 0 n) 0 n).take n) := by
    unfold Pop
    rw [if_neg (by omega)]
    simp only [hndef]
  have hx : elem (down less (Swap h 0 n) 0 n) n = elem h 0 := by
    rw [d4 n (Nat.le_refl _), elem_Swap h 0 n n hpos hn, if_pos rfl]
  rw [hx] at hpop
  have hlen : ((down less (Swap h 0 n) 0 n).take n).length = n := by
    rw [List.length_take, d2]
    omega
  refine ⟨_, hpop, ?_, by rw [hlen]; omega, ?_, ?_⟩
  · intro c hc1 hcn hp
    rw [hlen] at hcn
    have e : ∀ k, k < n → elem ((down less (Swap h 0 n) 0 n).take n) k =
        elem (down less (Swap h 0 n) 0 n) k := by
      intro k hk
      simp only [elem, List.getD_eq_getElem?_getD, List.getElem?_take, if_pos hk]
    rw [e c hcn, e _ (by omega)]
    exact d1 c hc1 hcn (Nat.zero_le _)
  · have hsplit : (down less (Swap h 0 n) 0 n) =
        (down less (Swap h 0 n) 0 n).take n ++ [elem h 0] := by
      conv_lhs => rw [← List.take_append_drop n (down less (Swap h 0 n) 0 n)]
      congr 1
      have hnl : n < (down less (Swap h 0 n) 0 n).length := by omega
      rw [List.drop_eq_getElem_cons hnl, ← elem_eq_getElem _ n hnl, hx]
      rw [List.drop_eq_nil_of_le (by omega)]
    have p1 : (elem h 0 :: (down less (Swap h 0 n) 0 n).take n).Perm
        (down less (Swap h 0 n) 0 n) := by
      conv_rhs => rw [hsplit]
      exact (List.perm_append_singleton _ _).symm
    exact p1.trans (d3.trans (Swap_perm h 0 n hpos hn))
  · intro y hy
    obtain ⟨c, hc, rfl⟩ := (mem_iff_elem h y).1 hy
    exact root_min sw h hh c hc

theorem drainLoop_spec (sw : StrictWeak less) :
    ∀ (fuel : Nat) (h out : List α), h.length ≤ fuel → IsHeap less h →
      ∃ d, drainLoop less fuel h out = out ++ d ∧ d.Perm h ∧
        d.Pairwise (fun a b => less b a = false) := by
  intro fuel
  induction fuel with
  | zero =>
    intro h out hf _
    have : h = [] := List.length_eq_zero.1 (by omega)
    subst this
    exact ⟨[], by simp [drainLoop], List.Perm.refl _, List.Pairwise.nil⟩
  | succ fuel ih =>
    intro h out hf hh
    by_cases hpos : 0 < h.length
    · obtain ⟨h', p1, p2, p3, p4, p5⟩ := Pop_spec sw h hpos hh
      obtain ⟨d, q1, q2, q3⟩ := ih h' (out ++ [elem h 0]) (by omega) p2
      refine ⟨elem h 0 :: d, ?_, (List.Perm.cons _ q2).trans p4, ?_⟩
      · simp only [drainLoop, p1, q1, List.append_assoc, List.singleton_append]
      · refine List.Pairwise.cons (fun y hy => ?_) q3
        exact p5 y (p4.subset (List.mem_cons_of_mem _ (q2.subset hy)))
    · have : h = [] := List.length_eq_zero.1 (by omega)
      subst this
      exact ⟨[], by simp [drainLoop, Pop], List.Perm.refl _, List.Pairwise.nil⟩

theorem drain_spec (sw : StrictWeak less) (h : List α) (hh : IsHeap less h) :
    (drain less h).Perm h ∧ (drain less h).Pairwise (fun a b => less b a = false) := by
  obtain ⟨d, h1, h2, h3⟩ := drainLoop_spec sw h.length h [] (Nat.le_refl _) hh
  unfold drain
  rw [h1]
  exact ⟨h2, h3⟩

theorem foldl_Push_spec (sw : StrictWeak less) (xs : List α) (h : List α)
    (hh : IsHeap less h) :
    IsHeap less (xs.foldl (Push less) h) ∧ (xs.foldl (Push less) h).Perm (h ++ xs) := by
  induction xs generalizing h with
  | nil => exact ⟨hh, by simp⟩
  | cons x xs ih =>
    obtain ⟨p1, -, p3⟩ := Push_spec sw h x hh
    obtain ⟨r1, r2⟩ := ih (Push less h x) p1
    refine ⟨r1, r2.trans ?_⟩
    have : (Push less h x ++ xs).Perm ((x :: h) ++ xs) := List.Perm.append_right xs p3
    refine this.trans ?_
    simp only [List.cons_append]
    exact (@List.perm_middle _ x h xs).symm

theorem keepLargest_spec (sw : StrictWeak less) (k : Nat) (h seen dropped : List α) (x : α)
    (hk : 1 ≤ k) (hi : TopInv less k h seen dropped) :
    ∃ dropped', TopInv less k (keepLargest less k h x) (seen ++ [x]) dropped' := by
  obtain ⟨i1, i2, i3, i4, i5⟩ := hi
  unfold keepLargest
  by_cases hlen : h.length < k
  · rw [if_pos hlen]
    obtain ⟨p1, p2, p3⟩ := Push_spec sw h x i1
    have hd := i5 hlen
    subst hd
    refine ⟨[], p1, ?_, fun r hr => by simp at hr, by omega, fun _ => rfl⟩
    simp only [List.append_nil] at i2 ⊢
    exact ((List.Perm.append_right [x] i2).trans List.perm_append_comm).trans p3.symm
  · rw [if_neg hlen]
    have hpos : 0 < h.length := by omega
    obtain ⟨h1, q1, q2, q3, q4, q5⟩ := Pop_spec sw h hpos i1
    by_cases hless : less (elem h 0) x = true
    · rw [if_pos hless]
      simp only [q1]
      obtain ⟨p1, p2, p3⟩ := Push_spec sw h1 x q2
      refine ⟨elem h 0 :: dropped, p1, ?_, ?_, by omega, fun hlt => by omega⟩
      · have e1 : (seen ++ [x]).Perm (x :: seen) := List.perm_append_comm
        have e2 : (x :: seen).Perm (x :: (h ++ dropped)) := List.Perm.cons x i2
        have e3 : (x :: (h ++ dropped)).Perm (x :: ((elem h 0 :: h1) ++ dropped)) :=
          List.Perm.cons x (List.Perm.append_right dropped q4.symm)
        have e4 : (x :: ((elem h 0 :: h1) ++ dropped)).Perm
            ((x :: h1) ++ (elem h 0 :: dropped)) := by
          simp only [List.cons_append]
          exact List.Perm.cons x (List.perm_middle).symm
        have e5 : ((x :: h1) ++ (elem h 0 :: dropped)).Perm
            (Push less h1 x ++ (elem h 0 :: dropped)) :=
          List.Perm.append_right _ p3.symm
        exact e1.trans (e2.trans (e3.trans (e4.trans e5)))
      · intro r hr t ht
        have ht' : t = x ∨ t ∈ h1 := by
          have := p3.subset ht
          simpa using this
        have hh1 : ∀ t ∈ h1, t ∈ h := fun t ht => q4.subset (List.mem_cons_of_mem _ ht)
        rcases List.mem_cons.1 hr with rfl | hr
        · rcases ht' with rfl | ht'
          · exact sw.asymm _ _ hless
          · exact q5 t (hh1 t ht')
        · rcases ht' with rfl | ht'
          · exact sw.negtrans _ _ _ (sw.asymm _ _ hless) (i3 r hr _ (elem_mem h 0 hpos))
          · exact i3 r hr t (hh1 t ht')
    · rw [if_neg hless]
      have hless' : less (elem h 0) x = false := by simpa using hless
      refine ⟨x :: dropped, i1, ?_, ?_, i4, fun hlt => absurd hlt hlen⟩
      · have e1 : (seen ++ [x]).Perm (x :: (h ++ dropped)) :=
          List.perm_append_comm.trans (List.Perm.cons x i2)
        exact e1.trans List.perm_middle.symm
      · intro r hr t ht
        rcases List.mem_cons.1 hr with rfl | hr
        · exact sw.negtrans _ _ _ (q5 t ht) hless'
        · exact i3 r hr t ht

theorem foldl_keepLargest_spec (sw : StrictWeak less) (k : Nat) (hk : 1 ≤ k) (xs : List α) :
    ∀ (h seen dropped : List α), TopInv less k h seen dropped →
      ∃ dropped', TopInv less k (xs.foldl (keepLargest less k) h) (seen ++ xs) dropped' := by
  induction xs with
  | nil =>
    intro h seen dropped hi
    exact ⟨dropped, by simpa using hi⟩
  | cons x xs ih =>
    intro h seen dropped hi
    obtain ⟨d1, h1⟩ := keepLargest_spec sw k h seen dropped x hk hi
    obtain ⟨d2, h2⟩ := ih _ _ d1 h1
    exact ⟨d2, by simpa using h2⟩

end Order

end ContainerHeap

namespace IntMinHeap

open ContainerHeap

theorem intLess_strictWeak : StrictWeak less := by
  constructor
  · intro a b h
    simp only [less, decide_eq_true_eq, decide_eq_false_iff_not] at h ⊢
    omega
  · intro a b c h1 h2
    simp only [less, decide_eq_false_iff_not] at h1 h2 ⊢
    omega

/-- C12: whatever slice is made a heap with `heap.Init` and whatever is then
pushed with `heap.Push`, popping with `heap.Pop` until the heap is empty returns
a permutation of the initial and pushed elements, in non-decreasing order. -/
theorem pops_sorted (initial pushed : List Int) :
    (drain less (pushed.foldl (Push less) (Init less initial))).Perm (initial ++ pushed) ∧
      (drain less (pushed.foldl (Push less) (Init less initial))).Sorted (fun a b => a ≤ b) := by
  obtain ⟨i1, i2⟩ := Init_spec intLess_strictWeak initial
  obtain ⟨p1, p2⟩ := foldl_Push_spec intLess_strictWeak pushed _ i1
  obtain ⟨d1, d2⟩ := drain_spec intLess_strictWeak _ p1
  refine ⟨d1.trans (p2.trans (List.Perm.append_right pushed i2)), ?_⟩
  refine List.Pairwise.imp ?_ d2
  intro a b h
  simp only [less, decide_eq_false_iff_not] at h
  omega

theorem TopKLargest_eq_fold (nums : List Int) (k : Int) (hk : 0 < k) :
    TopKLargest nums k = drain less (nums.foldl (keepLargest less k.toNat) []) := by
  unfold TopKLargest
  rw [if_neg (by omega)]
  have hinit : Init less ([] : List Int) = [] := rfl
  simp only [hinit]
  congr 1
  congr 1
  funext h x
  unfold keepLargest
  have c1 : ((h.length : Int) < k) ↔ h.length < k.toNat := by omega
  have c2 : (x > elem h 0) ↔ less (elem h 0) x = true := by simp [less]
  by_cases h1 : h.length < k.toNat
  · rw [if_pos (c1.2 h1), if_pos h1]
  · rw [if_neg (fun h' => h1 (c1.1 h')), if_neg h1]
    by_cases h2 : less (elem h 0) x = true
    · rw [if_pos (c2.2 h2), if_pos h2]
      cases Pop less h <;> rfl
    · rw [if_neg (fun h' => h2 (c2.1 h')), if_neg h2]

theorem sorted_desc_eq (nums kept dropped out : List Int) (k : Nat)
    (hperm : nums.Perm (kept ++ dropped)) (hout : out.Perm kept)
    (hsorted : out.Sorted (fun a b => a ≤ b))
    (hcross : ∀ r ∈ dropped, ∀ t ∈ kept, less t r = false)
    (hsize : kept.length ≤ k) (hfull : kept.length < k → dropped = []) :
    out = largestAscending nums k := by
  have hrev : (out.reverse).Sorted (fun a b => a ≥ b) := by
    unfold List.Sorted
    rw [List.pairwise_reverse]
    exact hsorted
  have hR : (dropped.insertionSort (fun a b => a ≥ b)).Sorted (fun a b => a ≥ b) :=
    List.sorted_insertionSort (fun a b => a ≥ b) dropped
  have hRp : (dropped.insertionSort (fun a b => a ≥ b)).Perm dropped :=
    List.perm_insertionSort (fun a b => a ≥ b) dropped
  have happ : (out.reverse ++ dropped.insertionSort (fun a b => a ≥ b)).Sorted
      (fun a b => a ≥ b) := by
    unfold List.Sorted
    rw [List.pairwise_append]
    refine ⟨hrev, hR, fun a ha b hb => ?_⟩
    have ha' : a ∈ kept := hout.subset (List.mem_reverse.1 ha)
    have hb' : b ∈ dropped := hRp.subset hb
    have := hcross b hb' a ha'
    simp only [less, decide_eq_false_iff_not] at this
    omega
  have hp : (nums.insertionSort (fun a b => a ≥ b)).Perm
      (out.reverse ++ dropped.insertionSort (fun a b => a ≥ b)) := by
    refine (List.perm_insertionSort _ nums).trans (hperm.trans ?_)
    exact List.Perm.append ((List.reverse_perm out).trans hout).symm hRp.symm
  have heq := List.eq_of_perm_of_sorted hp (List.sorted_insertionSort _ nums) happ
  unfold largestAscending
  rw [heq]
  have hlen : out.reverse.length = kept.length := by
    rw [List.length_reverse]
    exact hout.length_eq
  by_cases hk : kept.length < k
  · have := hfull hk
    subst this
    simp only [List.insertionSort, List.append_nil]
    rw [List.take_of_length_le (by omega), List.reverse_reverse]
  · have hke : out.reverse.length = k := by omega
    rw [List.take_left' hke, List.reverse_reverse]

/-- C13: for every slice `nums` and every `k > 0`, `TopKLargest(nums, k)`
returns the `min(k, len(nums))` largest elements of `nums`, counted with
multiplicity, in ascending order. -/
theorem TopKLargest_spec (nums : List Int) (k : Int) (hk : 0 < k) :
    TopKLargest nums k = largestAscending nums k.toNat ∧
      (TopKLargest nums k).length = min k.toNat nums.length := by
  have hmain : TopKLargest nums k = largestAscending nums k.toNat := by
    rw [TopKLargest_eq_fold nums k hk]
    obtain ⟨dropped, hi⟩ := foldl_keepLargest_spec intLess_strictWeak k.toNat (by omega) nums
      [] [] [] (TopInv_nil k.toNat)
    simp only [List.nil_append] at hi
    obtain ⟨d1, d2⟩ := drain_spec intLess_strictWeak _ hi.heap
    refine sorted_desc_eq nums _ dropped _ k.toNat hi.perm d1 ?_ hi.cross hi.size hi.full
    refine List.Pairwise.imp ?_ d2
    intro a b h
    simp only [less, decide_eq_false_iff_not] at h
    omega
  refine ⟨hmain, ?_⟩
  rw [hmain]
  simp [largestAscending, List.length_insertionSort]

theorem TopKLargest_spec_witness :
    TopKLargest [5, 1, 9, 3, 12, 7, 2] 3 = [7, 9, 12] ∧
      TopKLargest [5, 1, 9, 3, 12, 7, 2] 3 = largestAscending [5, 1, 9, 3, 12, 7, 2] (3 : Int).toNat ∧
      (TopKLargest [5, 1, 9, 3, 12, 7, 2] 3).length =
        min (3 : Int).toNat ([5, 1, 9, 3, 12, 7, 2] : List Int).length :=
  ⟨by decide, TopKLargest_spec [5, 1, 9, 3, 12, 7, 2] 3 (by decide)⟩

end IntMinHeap

namespace TopKDedupe

open ContainerHeap

/-! ## Top-K users: proofs -/

theorem take_sorted_eq {β : Type} (r : β → β → Prop) [DecidableRel r]
    (htotal : ∀ a b, r a b ∨ r b a) (htrans : ∀ a b c, r a b → r b c → r a c)
    (hanti : ∀ a b, r a b → r b a → a = b)
    (all kept dropped out : List β) (k : Nat)
    (hperm : all.Perm (kept ++ dropped)) (hout : out.Perm kept) (hsorted : out.Sorted r)
    (hcross : ∀ d ∈ dropped, ∀ t ∈ kept, r t d)
    (hsize : kept.length ≤ k) (hfull : kept.length < k → dropped = []) :
    out = (all.insertionSort r).take k := by
  haveI : IsTotal β r := ⟨htotal⟩
  haveI : IsTrans β r := ⟨htrans⟩
  haveI : IsAntisymm β r := ⟨hanti⟩
  have hR : (dropped.insertionSort r).Sorted r := List.sorted_insertionSort r dropped
  have hRp : (dropped.insertionSort r).Perm dropped := List.perm_insertionSort r dropped
  have happ : (out ++ dropped.insertionSort r).Sorted r := by
    unfold List.Sorted
    rw [List.pairwise_append]
    exact ⟨hsorted, hR, fun a ha b hb => hcross b (hRp.subset hb) a (hout.subset ha)⟩
  have hp : (all.insertionSort r).Perm (out ++ dropped.insertionSort r) :=
    (List.perm_insertionSort r all).trans (hperm.trans (List.Perm.append hout.symm hRp.symm))
  have heq := List.eq_of_perm_of_sorted hp (List.sorted_insertionSort r all) happ
  rw [heq]
  have hlen : out.length = kept.length := hout.length_eq
  by_cases hk : kept.length < k
  · have := hfull hk
    subst this
    simp only [List.insertionSort, List.append_nil]
    rw [List.take_of_length_le (by omega)]
  · have hke : out.length = k := by omega
    rw [List.take_left' hke]

theorem pairBefore_total (p q : Int × Int) : pairBefore p q = true ∨ pairBefore q p = true := by
  simp only [pairBefore, decide_eq_true_eq]
  omega

theorem pairBefore_trans (p q s : Int × Int) (h1 : pairBefore p q = true)
    (h2 : pairBefore q s = true) : pairBefore p s = true := by
  simp only [pairBefore, decide_eq_true_eq] at h1 h2 ⊢
  omega

theorem pairBefore_antisymm (p q : Int × Int) (h1 : pairBefore p q = true)
    (h2 : pairBefore q p = true) : p = q := by
  simp only [pairBefore, decide_eq_true_eq] at h1 h2
  apply Prod.ext <;> omega

theorem userLess_strictWeak : StrictWeak less := by
  constructor
  · intro a b h
    unfold less at h ⊢
    split_ifs at h ⊢ with h1 h2 h2 <;>
      simp only [decide_eq_true_eq, decide_eq_false_iff_not, ne_eq, not_not] at * <;> omega
  · intro a b c h1 h2
    unfold less at h1 h2 ⊢
    split_ifs at h1 h2 ⊢ <;>
      simp only [decide_eq_true_eq, decide_eq_false_iff_not, ne_eq, not_not] at * <;> omega

theorem byScoreDesc_strictWeak : StrictWeak byScoreDesc := by
  constructor
  · intro a b h
    unfold byScoreDesc at h ⊢
    split_ifs at h ⊢ with h1 h2 h2 <;>
      simp only [decide_eq_true_eq, decide_eq_false_iff_not, ne_eq, not_not] at * <;> omega
  · intro a b c h1 h2
    unfold byScoreDesc at h1 h2 ⊢
    split_ifs at h1 h2 ⊢ <;>
      simp only [decide_eq_true_eq, decide_eq_false_iff_not, ne_eq, not_not] at * <;> omega

theorem pairBefore_of_not_less (t d : User) (h : less t d = false) :
    pairBefore (key t) (key d) = true := by
  unfold less at h
  simp only [pairBefore, key, decide_eq_true_eq]
  split_ifs at h with h1 <;>
    simp only [decide_eq_false_iff_not, ne_eq, not_not] at * <;> omega

theorem pairBefore_of_not_byScoreDesc (a b : User) (h : byScoreDesc b a = false) :
    pairBefore (key a) (key b) = true := by
  unfold byScoreDesc at h
  simp only [pairBefore, key, decide_eq_true_eq]
  split_ifs at h with h1 <;>
    simp only [decide_eq_false_iff_not, ne_eq, not_not] at * <;> omega

theorem less_iff_replace (min u : User) :
    (u.Score > min.Score ∨ (u.Score = min.Score ∧ u.ID < min.ID)) ↔ less min u = true := by
  unfold less
  split_ifs with h1 <;>
    simp only [decide_eq_true_eq, ne_eq, not_not] at * <;> omega

theorem mem_bestStore (best : List User) (u w : User) :
    w ∈ bestStore best u ↔ (w ∈ best ∧ w.ID ≠ u.ID) ∨ w = u := by
  simp [bestStore]

theorem bestStore_nodup (best : List User) (u : User)
    (h : (best.map (fun u => u.ID)).Nodup) :
    ((bestStore best u).map (fun u => u.ID)).Nodup := by
  unfold bestStore
  rw [List.map_append, List.nodup_append]
  refine ⟨h.sublist ((List.filter_sublist best).map _), by simp, ?_⟩
  intro a ha hb
  simp only [List.map_cons, List.map_nil, List.mem_singleton] at hb
  subst hb
  simp only [List.mem_map, List.mem_filter, decide_eq_true_eq] at ha
  obtain ⟨w, ⟨-, hw⟩, hid⟩ := ha
  exact hw hid

theorem eq_of_ID_eq {best : List User} (h : (best.map (fun u => u.ID)).Nodup) {w w' : User}
    (hw : w ∈ best) (hw' : w' ∈ best) (hid : w.ID = w'.ID) : w = w' :=
  List.inj_on_of_nodup_map h hw hw' hid

theorem BestInv.store {best seen : List User} {u : User} (hi : BestInv best seen)
    (hc : ∀ w ∈ best, w.ID = u.ID → w.Score < u.Score) :
    BestInv (bestStore best u) (seen ++ [u]) := by
  obtain ⟨i1, i2, i3⟩ := hi
  refine ⟨bestStore_nodup best u i1, ?_, ?_⟩
  · intro w hw
    rcases (mem_bestStore best u w).1 hw with ⟨hwb, hne⟩ | rfl
    · refine ⟨List.mem_append_left _ (i2 w hwb).1, fun v hv hid => ?_⟩
      rcases List.mem_append.1 hv with hv | hv
      · exact (i2 w hwb).2 v hv hid
      · simp only [List.mem_singleton] at hv
        subst hv
        exact absurd hid.symm hne
    · refine ⟨by simp, fun v hv hid => ?_⟩
      rcases List.mem_append.1 hv with hv | hv
      · obtain ⟨w', hw', hid'⟩ := i3 v hv
        have h1 := (i2 w' hw').2 v hv hid'.symm
        have h2 := hc w' hw' (hid'.trans hid)
        omega
      · simp only [List.mem_singleton] at hv
        subst hv
        exact Int.le_refl _
  · intro v hv
    rcases List.mem_append.1 hv with hv | hv
    · obtain ⟨w', hw', hid'⟩ := i3 v hv
      by_cases hne : w'.ID = u.ID
      · exact ⟨u, (mem_bestStore best u u).2 (Or.inr rfl), hne.symm.trans hid'⟩
      · exact ⟨w', (mem_bestStore best u w').2 (Or.inl ⟨hw', hne⟩), hid'⟩
    · simp only [List.mem_singleton] at hv
      subst hv
      exact ⟨v, (mem_bestStore best v v).2 (Or.inr rfl), rfl⟩

theorem BestInv.skip {best seen : List User} {u curr : User} (hi : BestInv best seen)
    (hcurr : curr ∈ best) (hid : curr.ID = u.ID) (hle : u.Score ≤ curr.Score) :
    BestInv best (seen ++ [u]) := by
  obtain ⟨i1, i2, i3⟩ := hi
  refine ⟨i1, ?_, ?_⟩
  · intro w hw
    refine ⟨List.mem_append_left _ (i2 w hw).1, fun v hv hvid => ?_⟩
    rcases List.mem_append.1 hv with hv | hv
    · exact (i2 w hw).2 v hv hvid
    · simp only [List.mem_singleton] at hv
      subst hv
      have : w = curr := eq_of_ID_eq i1 hw hcurr (hvid.symm.trans hid.symm)
      subst this
      exact hle
  · intro v hv
    rcases List.mem_append.1 hv with hv | hv
    · exact i3 v hv
    · simp only [List.mem_singleton] at hv
      subst hv
      exact ⟨curr, hcurr, hid⟩

theorem dedupe_step {best seen : List User} (u : User) (hi : BestInv best seen) :
    BestInv
      (match bestLookup best u.ID with
        | none => bestStore best u
        | some curr =>
          if u.Score > curr.Score ∨ (u.Score = curr.Score ∧ u.ID < curr.ID) then bestStore best u
          else best)
      (seen ++ [u]) := by
  cases hl : bestLookup best u.ID with
  | none =>
    simp only []
    refine hi.store (fun w hw hid => ?_)
    unfold bestLookup at hl
    rw [List.find?_eq_none] at hl
    have := hl w hw
    simp [hid] at this
  | some curr =>
    simp only []
    unfold bestLookup at hl
    have hmem : curr ∈ best := List.mem_of_find?_eq_some hl
    have hid : curr.ID = u.ID := by
      have := List.find?_some hl
      simpa using this
    by_cases hc : u.Score > curr.Score ∨ (u.Score = curr.Score ∧ u.ID < curr.ID)
    · rw [if_pos hc]
      refine hi.store (fun w hw hwid => ?_)
      have : w = curr := eq_of_ID_eq hi.nodup hw hmem (hwid.trans hid.symm)
      subst this
      omega
    · rw [if_neg hc]
      exact hi.skip hmem hid (by omega)

theorem dedupe_inv (users : List User) : BestInv (dedupe users) users := by
  have key : ∀ (xs : List User) (best seen : List User), BestInv best seen →
      BestInv (xs.foldl (fun best u =>
        match bestLookup best u.ID with
        | none => bestStore best u
        | some curr =>
          if u.Score > curr.Score ∨ (u.Score = curr.Score ∧ u.ID < curr.ID) then
            bestStore best u
          else best) best) (seen ++ xs) := by
    intro xs
    induction xs with
    | nil =>
      intro best seen hi
      simpa using hi
    | cons x xs ih =>
      intro best seen hi
      have := ih _ _ (dedupe_step x hi)
      simpa using this
  have := key users [] [] ⟨by simp, fun u hu => by simp at hu, fun v hv => by simp at hv⟩
  simpa [dedupe] using this

theorem foldl_max_spec (rest : List Int) :
    ∀ s : Int, (∀ x ∈ s :: rest, x ≤ rest.foldl max s) ∧ rest.foldl max s ∈ s :: rest := by
  induction rest with
  | nil =>
    intro s
    simp
  | cons y rest ih =>
    intro s
    obtain ⟨h1, h2⟩ := ih (max s y)
    simp only [List.foldl_cons]
    refine ⟨fun x hx => ?_, ?_⟩
    · rcases List.mem_cons.1 hx with rfl | hx
      · exact le_trans (le_max_left _ _) (h1 _ (List.mem_cons_self _ _))
      · rcases List.mem_cons.1 hx with rfl | hx
        · exact le_trans (le_max_right _ _) (h1 _ (List.mem_cons_self _ _))
        · exact h1 x (List.mem_cons_of_mem _ hx)
    · rcases List.mem_cons.1 h2 with h2 | h2
      · rw [h2]
        rcases max_choice s y with hm | hm
        · rw [hm]
          exact List.mem_cons_self _ _
        · rw [hm]
          exact List.mem_cons_of_mem _ (List.mem_cons_self _ _)
      · exact List.mem_cons_of_mem _ (List.mem_cons_of_mem _ h2)

theorem bestScore_eq (users : List User) (u : User) (hu : u ∈ users)
    (htop : ∀ v ∈ users, v.ID = u.ID → v.Score ≤ u.Score) : bestScore users u.ID = u.Score := by
  unfold bestScore
  have hmem : u.Score ∈ (users.filter (fun v => v.ID = u.ID)).map (fun v => v.Score) := by
    simp only [List.mem_map, List.mem_filter, decide_eq_true_eq]
    exact ⟨u, ⟨hu, rfl⟩, rfl⟩
  have hall : ∀ x ∈ (users.filter (fun v => v.ID = u.ID)).map (fun v => v.Score),
      x ≤ u.Score := by
    intro x hx
    simp only [List.mem_map, List.mem_filter, decide_eq_true_eq] at hx
    obtain ⟨v, ⟨hv, hid⟩, rfl⟩ := hx
    exact htop v hv hid
  cases hL : (users.filter (fun v => v.ID = u.ID)).map (fun v => v.Score) with
  | nil =>
    rw [hL] at hmem
    simp at hmem
  | cons s rest =>
    simp only []
    rw [hL] at hmem hall
    obtain ⟨h1, h2⟩ := foldl_max_spec rest s
    exact le_antisymm (hall _ h2) (h1 _ hmem)

theorem dedupe_keys (users : List User) :
    ((dedupe users).map key).Perm
      (((users.map (fun u => u.ID)).dedup).map (fun id => (id, bestScore users id))) := by
  obtain ⟨i1, i2, i3⟩ := dedupe_inv users
  rw [List.perm_ext_iff_of_nodup]
  · intro p
    simp only [List.mem_map, List.mem_dedup]
    constructor
    · rintro ⟨u, hu, rfl⟩
      refine ⟨u.ID, ⟨u, (i2 u hu).1, rfl⟩, ?_⟩
      rw [bestScore_eq users u (i2 u hu).1 (i2 u hu).2]
      rfl
    · rintro ⟨id, ⟨v, hv, rfl⟩, rfl⟩
      obtain ⟨u, hu, hid⟩ := i3 v hv
      refine ⟨u, hu, ?_⟩
      rw [← hid, bestScore_eq users u (i2 u hu).1 (i2 u hu).2]
      rfl
  · apply List.Nodup.of_map Prod.fst
    rw [List.map_map]
    exact i1
  · apply List.Nodup.map
    · intro a b hab
      exact congrArg Prod.fst hab
    · exact List.nodup_dedup _

theorem heap_branch_eq_fold (uniq : List User) (k : Int) (hk : 0 < k) :
    uniq.foldl (fun h u =>
        if (h.length : Int) < k then Push less h u
        else
          let min := elem h 0
          if u.Score > min.Score ∨ (u.Score = min.Score ∧ u.ID < min.ID) then
            match Pop less h with
            | none => h
            | some (_, h1) => Push less h1 u
          else h) (Init less []) =
      uniq.foldl (keepLargest less k.toNat) [] := by
  have hinit : Init less ([] : List User) = [] := rfl
  rw [hinit]
  congr 1
  funext h u
  unfold keepLargest
  have c1 : ((h.length : Int) < k) ↔ h.length < k.toNat := by omega
  have c2 := less_iff_replace (elem h 0) u
  by_cases h1 : h.length < k.toNat
  · rw [if_pos (c1.2 h1), if_pos h1]
  · rw [if_neg (fun h' => h1 (c1.1 h')), if_neg h1]
    simp only []
    by_cases h2 : less (elem h 0) u = true
    · rw [if_pos (c2.2 h2), if_pos h2]
      cases Pop less h <;> rfl
    · rw [if_neg (fun h' => h2 (c2.1 h')), if_neg h2]

/-- C14: for every `users` slice and every `k > 0`, whatever order the map is
ranged over and whatever correct sort `sort.Slice` performs, `TopKUsers(users,
k)` compared on `(ID, Score)` is the list of the first `min(k, m)` entries of
the list that keeps one record per ID, with the highest score of that ID, sorted
by score descending with ties broken by ID ascending (`m` the number of distinct
IDs). -/
theorem TopKUsers_spec (order : List User → List User)
    (sortSlice : (User → User → Bool) → List User → List User)
    (users : List User) (k : Int) (hk : 0 < k)
    (horder : ∀ l, (order l).Perm l)
    (hsort : ∀ l, (sortSlice byScoreDesc l).Perm l ∧
      (sortSlice byScoreDesc l).Pairwise (fun a b => byScoreDesc b a = false)) :
    (TopKUsers order sortSlice users k).map key = topPairs users k.toNat ∧
      ((TopKUsers order sortSlice users k).map key).length =
        min k.toNat ((users.map (fun u => u.ID)).dedup).length := by
  have hlenspec : (topPairs users k.toNat).length =
      min k.toNat ((users.map (fun u => u.ID)).dedup).length := by
    simp [topPairs, List.length_insertionSort]
  suffices hmain : (TopKUsers order sortSlice users k).map key = topPairs users k.toNat by
    exact ⟨hmain, by rw [hmain, hlenspec]⟩
  unfold TopKUsers
  rw [if_neg (by omega)]
  by_cases hempty : users.length = 0
  · rw [if_pos hempty]
    have : users = [] := List.length_eq_zero.1 hempty
    subst this
    simp [topPairs]
  · rw [if_neg hempty]
    simp only []
    have hkeys : ((order (dedupe users)).map key).Perm
        (((users.map (fun u => u.ID)).dedup).map (fun id => (id, bestScore users id))) :=
      (List.Perm.map key (horder _)).trans (dedupe_keys users)
    generalize hpairs :
      ((users.map (fun u => u.ID)).dedup).map (fun id => (id, bestScore users id)) = pairs
      at hkeys
    generalize order (dedupe users) = uniq at hkeys
    have htop : topPairs users k.toNat =
        (pairs.insertionSort (fun p q => pairBefore p q = true)).take k.toNat := by
      rw [← hpairs]
      rfl
    rw [htop]
    by_cases hbig : k ≥ (uniq.length : Int)
    · rw [if_pos hbig]
      obtain ⟨s1, s2⟩ := hsort uniq
      have hlen : uniq.length ≤ k.toNat := by omega
      exact take_sorted_eq (fun p q => pairBefore p q = true) pairBefore_total pairBefore_trans
        pairBefore_antisymm pairs ((sortSlice byScoreDesc uniq).map key) [] _ k.toNat
        (by simpa using (hkeys.symm.trans (List.Perm.map key s1.symm)))
        (List.Perm.refl _)
        (by
          unfold List.Sorted
          rw [List.pairwise_map]
          exact List.Pairwise.imp (fun h => pairBefore_of_not_byScoreDesc _ _ h) s2)
        (fun d hd => by simp at hd)
        (by rw [List.length_map, s1.length_eq]; exact hlen)
        (fun _ => rfl)
    · rw [if_neg hbig]
      rw [heap_branch_eq_fold uniq k hk]
      obtain ⟨dropped, hi⟩ := foldl_keepLargest_spec userLess_strictWeak k.toNat (by omega) uniq
        [] [] [] (TopInv_nil k.toNat)
      simp only [List.nil_append] at hi
      obtain ⟨d1, d2⟩ := drain_spec userLess_strictWeak _ hi.heap
      generalize uniq.foldl (keepLargest less k.toNat) [] = kept at hi d1 d2
      refine take_sorted_eq (fun p q => pairBefore p q = true) pairBefore_total pairBefore_trans
        pairBefore_antisymm pairs (kept.map key) (dropped.map key) _ k.toNat ?_ ?_ ?_ ?_ ?_ ?_
      · rw [← List.map_append]
        exact hkeys.symm.trans (List.Perm.map key hi.perm)
      · exact List.Perm.map key ((List.reverse_perm _).trans d1)
      · unfold List.Sorted
        rw [List.pairwise_map, List.pairwise_reverse]
        exact List.Pairwise.imp (fun h => pairBefore_of_not_less _ _ h) d2
      · intro d hd t ht
        simp only [List.mem_map] at hd ht
        obtain ⟨d', hd', rfl⟩ := hd
        obtain ⟨t', ht', rfl⟩ := ht
        exact pairBefore_of_not_less _ _ (hi.cross d' hd' t' ht')
      · rw [List.length_map]
        exact hi.size
      · intro hlt
        rw [List.length_map] at hlt
        rw [hi.full hlt]
        rfl

theorem insertionSlice_contract (lt : User → User → Bool) (sw : StrictWeak lt)
    (l : List User) :
    (insertionSlice lt l).Perm l ∧
      (insertionSlice lt l).Pairwise (fun a b => lt b a = false) := by
  haveI : IsTotal User (fun a b => lt b a = false) := ⟨fun a b => by
    cases h : lt b a with
    | false => exact Or.inl rfl
    | true => exact Or.inr (sw.asymm b a h)⟩
  haveI : IsTrans User (fun a b => lt b a = false) :=
    ⟨fun a b c h1 h2 => sw.negtrans c b a h2 h1⟩
  exact ⟨List.perm_insertionSort _ l, List.sorted_insertionSort _ l⟩

theorem TopKUsers_spec_witness :
    (TopKUsers List.reverse insertionSlice
          [⟨2, "B", 10⟩, ⟨1, "A", 10⟩, ⟨3, "C", 9⟩, ⟨3, "D", 19⟩] 2).map key =
        [(3, 19), (1, 10)] ∧
      (TopKUsers List.reverse insertionSlice
            [⟨2, "B", 10⟩, ⟨1, "A", 10⟩, ⟨3, "C", 9⟩, ⟨3, "D", 19⟩] 2).map key =
          topPairs [⟨2, "B", 10⟩, ⟨1, "A", 10⟩, ⟨3, "C", 9⟩, ⟨3, "D", 19⟩] (2 : Int).toNat ∧
      ((TopKUsers List.reverse insertionSlice
            [⟨2, "B", 10⟩, ⟨1, "A", 10⟩, ⟨3, "C", 9⟩, ⟨3, "D", 19⟩] 2).map key).length =
          min (2 : Int).toNat
            ((([⟨2, "B", 10⟩, ⟨1, "A", 10⟩, ⟨3, "C", 9⟩, ⟨3, "D", 19⟩] : List User).map
              (fun u => u.ID)).dedup).length :=
  ⟨by decide,
   TopKUsers_spec List.reverse insertionSlice _ 2 (by decide) List.reverse_perm
     (insertionSlice_contract byScoreDesc byScoreDesc_strictWeak)⟩

end TopKDedupe

/-! # Transaction validation: proofs -/

namespace WorkerPoolWaitgroup

open GoFloat

/-- The error of `validate` is `nil` exactly when its flag is `true`. -/
theorem validate_nil_iff_true (tx : Transaction) :
    (validate tx).2 = none ↔ (validate tx).1 = true := by
  unfold validate
  split_ifs <;> simp

/-- On transactions whose three numeric fields are numbers, `validate` accepts
exactly the transactions the package comment describes. -/
theorem validate_true_iff_of_numbers (tx : Transaction)
    (hp : tx.Price.isNumber = true) (hv : tx.Volume.isNumber = true)
    (hg : tx.GasEstimate.isNumber = true) :
    (validate tx).1 = true ↔ Acceptable tx := by
  obtain ⟨id, sym, p, v, g, sig⟩ := tx
  simp only at hp hv hg
  have hsym : supportedSymbolWhitelist.contains sym = true ↔ sym ∈ ["BTC", "ETH", "SOL"] := by
    simp [supportedSymbolWhitelist]
  cases p <;> cases v <;> cases g <;>
    simp [Float64.isNumber] at hp hv hg <;>
    simp only [validate, Acceptable, Float64.le, Float64.lt, Float64.gt,
      reasonableGasPriceMin, reasonableGasPriceMax] <;>
    (try simp) <;>
    (try (split_ifs <;> simp_all))
  all_goals
    rename_i hgas
    intro _ h1 h2
    rcases hgas with hgas | hgas
    · exact absurd h1 (not_le.mpr hgas)
    · exact absurd h2 (not_le.mpr hgas)

/-- C21, at the transaction with symbol BTC, price NaN, volume 1, gas estimate
50000 and signature "sig": `validate` returns `true` with a `nil` error, while
the price is not greater than 0, so the transaction is not one the package
comment accepts.  (The test `tx.Price <= 0` is false on NaN.) -/
theorem validate_accepts_nan_price :
    validate ⟨1, "BTC", Float64.nan, Float64.fin 1, Float64.fin 50000, "sig"⟩ = (true, none) ∧
    Float64.gt Float64.nan (Float64.fin 0) = false ∧
    ¬ Acceptable ⟨1, "BTC", Float64.nan, Float64.fin 1, Float64.fin 50000, "sig"⟩ := by
  refine ⟨by decide, rfl, ?_⟩
  intro h
  exact absurd h.2.1 (by decide)

end WorkerPoolWaitgroup

/-! # In-memory users database: proofs -/

namespace UsersDb

theorem mapLoad_mapStore_self (m : List (String × User)) (k : String) (v : User) :
    mapLoad (mapStore m k v) k = some v := by
  unfold mapLoad mapStore
  have h : List.find? (fun p => p.1 == k) (List.filter (fun p => p.1 != k) m) = none := by
    rw [List.find?_eq_none]
    intro p hp
    have := (List.mem_filter.mp hp).2
    simpa using this
  simp [List.find?_append, h]

theorem mapLoad_mapStore_other (m : List (String × User)) (k k' : String) (v : User)
    (h : k' ≠ k) : mapLoad (mapStore m k v) k' = mapLoad m k' := by
  unfold mapLoad mapStore
  have hkk : (k == k') = false := by simpa using fun e => h e.symm
  induction m with
  | nil => simp [List.find?, hkk]
  | cons p m ih =>
    by_cases hp : p.1 = k
    · have h1 : (p.1 != k) = false := by simpa using hp
      have h2 : (p.1 == k') = false := by rw [hp]; exact hkk
      simp only [List.filter_cons, h1, Bool.false_eq_true, if_false, List.find?_cons, h2]
      exact ih
    · have h1 : (p.1 != k) = true := by simpa using hp
      simp only [List.filter_cons, h1, if_true, List.cons_append, List.find?_cons]
      cases hpk : (p.1 == k')
      · exact ih
      · rfl

theorem mem_of_mapLoad (m : List (String × User)) (k : String) (v : User)
    (h : mapLoad m k = some v) : v ∈ m.map Prod.snd := by
  unfold mapLoad at h
  cases hf : List.find? (fun p => p.1 == k) m with
  | none => simp [hf] at h
  | some p =>
    simp [hf] at h
    have := List.mem_of_find?_eq_some hf
    exact List.mem_map.mpr ⟨p, this, h⟩

theorem importOne_fresh (us : UserStore) (u : User)
    (hn : u.Name ≠ "") (hp : u.Phone ≠ "") (he : u.Email ≠ "")
    (hs : u.Email ∉ us.seenEmails) :
    importOne us u =
      { seenEmails := us.seenEmails ++ [u.Email], UserDB := mapStore us.UserDB u.Name u } := by
  unfold importOne
  rw [if_neg (by simp [hn, hp, he]), if_neg hs]

/-- Importing users whose names all differ from `k` leaves the entry under
`k` alone. -/
theorem foldl_importOne_other (req : List User) (us : UserStore) (k : String)
    (hk : ∀ u ∈ req, u.Name ≠ k) :
    mapLoad (req.foldl importOne us).UserDB k = mapLoad us.UserDB k := by
  induction req generalizing us with
  | nil => rfl
  | cons v rest ih =>
    rw [List.foldl_cons, ih _ (fun u hu => hk u (List.mem_cons_of_mem _ hu))]
    unfold importOne
    split_ifs
    · rfl
    · rfl
    · exact mapLoad_mapStore_other _ _ _ _ (fun e => hk v (List.mem_cons_self _ _) e.symm)

/-- Users with all fields filled, with pairwise distinct names and pairwise
distinct emails not seen before, are each stored under their name. -/
theorem foldl_importOne_stored (req : List User) (us : UserStore)
    (hfields : ∀ u ∈ req, u.Name ≠ "" ∧ u.Phone ≠ "" ∧ u.Email ≠ "")
    (hemails : (req.map User.Email).Nodup)
    (hnew : ∀ u ∈ req, u.Email ∉ us.seenEmails)
    (hnames : (req.map User.Name).Nodup) :
    ∀ u ∈ req, mapLoad (req.foldl importOne us).UserDB u.Name = some u := by
  induction req generalizing us with
  | nil => intro u hu; cases hu
  | cons v rest ih =>
    have hv := hfields v (List.mem_cons_self _ _)
    have hstep := importOne_fresh us v hv.1 hv.2.1 hv.2.2 (hnew v (List.mem_cons_self _ _))
    rw [List.map_cons, List.nodup_cons] at hemails hnames
    intro u hu
    rw [List.foldl_cons]
    rcases List.mem_cons.mp hu with rfl | hu
    · rw [foldl_importOne_other rest _ u.Name, hstep]
      · exact mapLoad_mapStore_self _ _ _
      · intro w hw e
        exact hnames.1 (List.mem_map.mpr ⟨w, hw, e⟩)
    · refine ih _ (fun w hw => hfields w (List.mem_cons_of_mem _ hw)) hemails.2 ?_ hnames.2 u hu
      intro w hw
      rw [hstep]
      simp only [List.mem_append, List.mem_singleton, not_or]
      refine ⟨hnew w (List.mem_cons_of_mem _ hw), ?_⟩
      intro e
      exact hemails.1 (List.mem_map.mpr ⟨w, hw, e⟩)

/-- C22, at the two imports of the package comment: after importing Batman
with phone 555-555-1111, importing Batman with the same email and phone
555-555-4950 (together with Joker) returns a `nil` error, and the store keeps
the first phone number. -/
theorem ImportUsers_conflict_returns_nil :
    ((NewUserStore.ImportUsers [⟨"Batman", "555-555-1111", "batman@gmail.com"⟩]).2.ImportUsers
        [⟨"Batman", "555-555-4950", "batman@gmail.com"⟩,
         ⟨"Joker", "555-555-3333", "joker@gmail.com"⟩]).1 = none ∧
    ((NewUserStore.ImportUsers [⟨"Batman", "555-555-1111", "batman@gmail.com"⟩]).2.ImportUsers
        [⟨"Batman", "555-555-4950", "batman@gmail.com"⟩,
         ⟨"Joker", "555-555-3333", "joker@gmail.com"⟩]).2.GetUserById "Batman" =
      (some ⟨"Batman", "555-555-1111", "batman@gmail.com"⟩, true) := by
  decide

/-- C23 as stated fails: the request with two users named Ann, all fields
filled and the emails distinct and new, leaves only the second one in the
store; the first is neither among `GetUsers` nor what `GetUserById` returns
for its name. -/
theorem ImportUsers_same_name_overwrites :
    (∀ u ∈ [(⟨"Ann", "1", "a@x.io"⟩ : User), ⟨"Ann", "2", "b@x.io"⟩],
      u.Name ≠ "" ∧ u.Phone ≠ "" ∧ u.Email ≠ "" ∧ u.Email ∉ NewUserStore.seenEmails) ∧
    ([(⟨"Ann", "1", "a@x.io"⟩ : User), ⟨"Ann", "2", "b@x.io"⟩].map User.Email).Nodup ∧
    (NewUserStore.ImportUsers [⟨"Ann", "1", "a@x.io"⟩, ⟨"Ann", "2", "b@x.io"⟩]).1 = none ∧
    (⟨"Ann", "1", "a@x.io"⟩ : User) ∉
      (NewUserStore.ImportUsers [⟨"Ann", "1", "a@x.io"⟩, ⟨"Ann", "2", "b@x.io"⟩]).2.GetUsers ∧
    (NewUserStore.ImportUsers [⟨"Ann", "1", "a@x.io"⟩, ⟨"Ann", "2", "b@x.io"⟩]).2.GetUserById "Ann" =
      (some ⟨"Ann", "2", "b@x.io"⟩, true) := by
  decide

/-- C23, amended: for every store and every request whose users all have
non-empty name, phone and email, pairwise distinct emails none of which was
imported before, and pairwise distinct names, `ImportUsers` returns a `nil`
error unless the request is empty, and afterwards every user of the request is
in every listing `GetUsers` may return (any order of the map traversal), and
`GetUserById(u.Name)` returns `(u, true)`. -/
theorem ImportUsers_then_get (us : UserStore) (req : List User)
    (hfields : ∀ u ∈ req, u.Name ≠ "" ∧ u.Phone ≠ "" ∧ u.Email ≠ "")
    (hemails : (req.map User.Email).Nodup)
    (hnew : ∀ u ∈ req, u.Email ∉ us.seenEmails)
    (hnames : (req.map User.Name).Nodup) :
    (req ≠ [] → (us.ImportUsers req).1 = none) ∧
    ∀ u ∈ req,
      (∀ out : List User, out.Perm (us.ImportUsers req).2.GetUsers → u ∈ out) ∧
      (us.ImportUsers req).2.GetUserById u.Name = (some u, true) := by
  have hstored := foldl_importOne_stored req us hfields hemails hnew hnames
  cases req with
  | nil => exact ⟨fun h => absurd rfl h, fun u hu => by cases hu⟩
  | cons v rest =>
    have hI : us.ImportUsers (v :: rest) = (none, (v :: rest).foldl importOne us) := by
      simp [UserStore.ImportUsers]
    rw [hI]
    refine ⟨fun _ => rfl, fun u hu => ⟨?_, ?_⟩⟩
    · intro out hperm
      exact hperm.symm.subset (mem_of_mapLoad _ _ _ (hstored u hu))
    · have hne := (hfields u hu).1
      simp only [UserStore.GetUserById, if_neg hne, hstored u hu]

/-- Witness for C23 on the first import of `main`: Batman and Robin into the
empty store. -/
theorem ImportUsers_then_get_witness :
    (∀ u ∈ [(⟨"Batman", "555-555-1111", "batman@gmail.com"⟩ : User),
            ⟨"Robin", "555-555-2222", "robin@gmail.com"⟩],
        u.Name ≠ "" ∧ u.Phone ≠ "" ∧ u.Email ≠ "") ∧
    (([(⟨"Batman", "555-555-1111", "batman@gmail.com"⟩ : User),
       ⟨"Robin", "555-555-2222", "robin@gmail.com"⟩] ≠ [] →
      (NewUserStore.ImportUsers [⟨"Batman", "555-555-1111", "batman@gmail.com"⟩,
        ⟨"Robin", "555-555-2222", "robin@gmail.com"⟩]).1 = none) ∧
     ∀ u ∈ [(⟨"Batman", "555-555-1111", "batman@gmail.com"⟩ : User),
            ⟨"Robin", "555-555-2222", "robin@gmail.com"⟩],
      (∀ out : List User,
        out.Perm (NewUserStore.ImportUsers [⟨"Batman", "555-555-1111", "batman@gmail.com"⟩,
          ⟨"Robin", "555-555-2222", "robin@gmail.com"⟩]).2.GetUsers → u ∈ out) ∧
      (NewUserStore.ImportUsers [⟨"Batman", "555-555-1111", "batman@gmail.com"⟩,
          ⟨"Robin", "555-555-2222", "robin@gmail.com"⟩]).2.GetUserById u.Name = (some u, true)) :=
  ⟨by decide,
   ImportUsers_then_get NewUserStore
     [⟨"Batman", "555-555-1111", "batman@gmail.com"⟩, ⟨"Robin", "555-555-2222", "robin@gmail.com"⟩]
     (by decide) (by decide) (by decide) (by decide)⟩

end UsersDb

/-! # Customer order deduplication: proofs -/

namespace DedupeApi

open GoFloat

/-- `NormalizeName` leaves no space at either end. -/
theorem NormalizeName_trims (s : String) :
    (NormalizeName s).data.head? ≠ some ' ' ∧ (NormalizeName s).data.getLast? ≠ some ' ' := by
  have hdrop : ∀ l : List Char, (l.dropWhile (fun c => c == ' ')).head? ≠ some ' ' := by
    intro l
    induction l with
    | nil => simp
    | cons c cs ih =>
      by_cases hc : (c == ' ') = true
      · rw [List.dropWhile_cons, if_pos hc]; exact ih
      · rw [List.dropWhile_cons, if_neg hc]
        simpa using hc
  have hsub : ∀ l : List Char, l.head? ≠ some ' ' →
      ((l.reverse.dropWhile (fun c => c == ' ')).reverse).head? ≠ some ' ' := by
    intro l hl
    induction l using List.reverseRecOn with
    | nil => simp
    | append_singleton xs x ih =>
      rw [List.reverse_append, List.reverse_singleton, List.singleton_append]
      by_cases hx : (x == ' ') = true
      · rw [List.dropWhile_cons, if_pos hx]
        apply ih
        cases xs with
        | nil => simp
        | cons y ys => simpa using hl
      · rw [List.dropWhile_cons, if_neg hx, List.reverse_cons, List.reverse_reverse]
        exact hl
  constructor
  · show (trimSpaces s.data).head? ≠ some ' '
    exact hsub _ (hdrop _)
  · show (trimSpaces s.data).getLast? ≠ some ' '
    unfold trimSpaces
    rw [List.getLast?_reverse]
    exact hdrop _

/-- C25, at the name of the package comment's example request: `NormalizeName`
returns "ALAN  TURING" unchanged, with its run of two spaces, where the
documented normalisation gives "ALAN TURING". -/
theorem NormalizeName_keeps_inner_runs :
    NormalizeName "ALAN  TURING" = "ALAN  TURING" ∧
    hasSpaceRun (NormalizeName "ALAN  TURING").data = true ∧
    normalizeNameDoc "ALAN  TURING" = "ALAN TURING" := by
  decide

/-- C24, at two valid records with the same email and the same amount, id "b1"
in systemA and id "a1" in systemB: the handler keeps the record with id "b1",
the first it met, although "a1" is the lexicographically smaller id. -/
theorem dedupe_tie_keeps_first_seen :
    mapLoad (dedupeByEmail asciiLower
        [⟨"b1", "Ann", "x@y.z", Float64.fin 10⟩] [⟨"a1", "Ann", "x@y.z", Float64.fin 10⟩])
      "x@y.z" = some ⟨"b1", "Ann", "x@y.z", Float64.fin 10⟩ ∧
    ValidateEmail (NormalizeEmail asciiLower "x@y.z") = true ∧
    strLess "a1" "b1" = true := by
  decide

theorem gt_self (a : Float64) : Float64.gt a a = false := by
  cases a <;> simp [Float64.gt, Float64.lt]

/-- On numbers, `c <= a` and `a < b` give `c <= b`. -/
theorem gt_false_of_lt {a b c : Float64} (ha : a.isNumber = true) (hb : b.isNumber = true)
    (hc : c.isNumber = true) (hab : Float64.gt b a = true) (hca : Float64.gt c a = false) :
    Float64.gt c b = false := by
  cases a <;> cases b <;> cases c <;>
    simp [Float64.gt, Float64.lt, Float64.isNumber] at ha hb hc hab hca ⊢
  exact le_trans hca (le_of_lt hab)

theorem byEmail_load_store_self (m : List (String × Order)) (k : String) (v : Order) :
    mapLoad (mapStore m k v) k = some v := by
  unfold mapLoad mapStore
  have h : List.find? (fun p => p.1 == k) (List.filter (fun p => p.1 != k) m) = none := by
    rw [List.find?_eq_none]
    intro p hp
    have := (List.mem_filter.mp hp).2
    simpa using this
  simp [List.find?_append, h]

theorem byEmail_load_store_other (m : List (String × Order)) (k k' : String) (v : Order)
    (h : k' ≠ k) : mapLoad (mapStore m k v) k' = mapLoad m k' := by
  unfold mapLoad mapStore
  have hkk : (k == k') = false := by simpa using fun e => h e.symm
  induction m with
  | nil => simp [List.find?, hkk]
  | cons p m ih =>
    by_cases hp : p.1 = k
    · have h1 : (p.1 != k) = false := by simpa using hp
      have h2 : (p.1 == k') = false := by rw [hp]; exact hkk
      simp only [List.filter_cons, h1, Bool.false_eq_true, if_false, List.find?_cons, h2]
      exact ih
    · have h1 : (p.1 != k) = true := by simpa using hp
      simp only [List.filter_cons, h1, if_true, List.cons_append, List.find?_cons]
      cases hpk : (p.1 == k')
      · exact ih
      · rfl

/-- What the loop of `handleOrders` maintains, `seen` being the records
handled so far: an entry is the normalised form of a valid record seen, filed
under its email, and no valid record seen with that email has a greater
amount; every valid record seen has an entry under its email. -/
theorem dedupe_fold_spec (toLower : String → String) (rest seen : List Order)
    (m : List (String × Order))
    (hnum : ∀ o ∈ seen ++ rest, o.Amount.isNumber = true)
    (hsound : ∀ e r, mapLoad m e = some r →
      r.Email = e ∧ (∃ o ∈ seen, NormalizeOrder toLower o = r) ∧
      ∀ o ∈ seen, ValidateEmail (NormalizeOrder toLower o).Email = true →
        (NormalizeOrder toLower o).Email = e → Float64.gt o.Amount r.Amount = false)
    (hfull : ∀ o ∈ seen, ValidateEmail (NormalizeOrder toLower o).Email = true →
      mapLoad m (NormalizeOrder toLower o).Email ≠ none) :
    (∀ e r, mapLoad (rest.foldl (dedupeStep toLower) m) e = some r →
      r.Email = e ∧ (∃ o ∈ seen ++ rest, NormalizeOrder toLower o = r) ∧
      ∀ o ∈ seen ++ rest, ValidateEmail (NormalizeOrder toLower o).Email = true →
        (NormalizeOrder toLower o).Email = e → Float64.gt o.Amount r.Amount = false) ∧
    (∀ o ∈ seen ++ rest, ValidateEmail (NormalizeOrder toLower o).Email = true →
      mapLoad (rest.foldl (dedupeStep toLower) m) (NormalizeOrder toLower o).Email ≠ none) := by
  induction rest generalizing seen m with
  | nil => simpa using ⟨hsound, hfull⟩
  | cons x rest ih =>
    have hnum' : ∀ o ∈ (seen ++ [x]) ++ rest, o.Amount.isNumber = true := by
      intro o ho; apply hnum; simpa using ho
    have key := ih (seen ++ [x]) (dedupeStep toLower m x) hnum' ?_ ?_
    · simpa using key
    · -- entries after the step
      intro e r hr
      unfold dedupeStep at hr
      simp only at hr
      by_cases hv : ValidateEmail (NormalizeOrder toLower x).Email = true
      · simp only [hv, Bool.not_true, Bool.false_eq_true, if_false] at hr
        cases hl : mapLoad m (NormalizeOrder toLower x).Email with
        | none =>
          simp only [hl] at hr
          by_cases he : e = (NormalizeOrder toLower x).Email
          · subst he
            rw [byEmail_load_store_self, Option.some.injEq] at hr
            subst hr
            refine ⟨rfl, ⟨x, by simp, rfl⟩, ?_⟩
            intro o ho hvo heo
            rcases List.mem_append.mp ho with ho | ho
            · exact absurd (heo ▸ hl) (hfull o ho hvo)
            · rw [List.mem_singleton.mp ho]; exact gt_self _
          · rw [byEmail_load_store_other _ _ _ _ he] at hr
            obtain ⟨h1, ⟨o, ho, h2⟩, h3⟩ := hsound e r hr
            refine ⟨h1, ⟨o, by simp [ho], h2⟩, ?_⟩
            intro o ho hvo heo
            rcases List.mem_append.mp ho with ho | ho
            · exact h3 o ho hvo heo
            · rw [List.mem_singleton.mp ho] at heo
              exact absurd heo.symm he
        | some existing =>
          simp only [hl] at hr
          obtain ⟨g1, ⟨w, hw, g2⟩, g3⟩ := hsound _ existing hl
          have hxnum : x.Amount.isNumber = true := hnum x (by simp)
          have hexnum : existing.Amount.isNumber = true := by
            rw [← g2]; exact hnum w (by simp [hw])
          by_cases hgt : Float64.gt (NormalizeOrder toLower x).Amount existing.Amount = true
          · rw [if_pos hgt] at hr
            by_cases he : e = (NormalizeOrder toLower x).Email
            · subst he
              rw [byEmail_load_store_self, Option.some.injEq] at hr
              subst hr
              refine ⟨rfl, ⟨x, by simp, rfl⟩, ?_⟩
              intro o ho hvo heo
              rcases List.mem_append.mp ho with ho | ho
              · exact gt_false_of_lt hexnum hxnum (hnum o (by simp [ho])) hgt (g3 o ho hvo heo)
              · rw [List.mem_singleton.mp ho]; exact gt_self _
            · rw [byEmail_load_store_other _ _ _ _ he] at hr
              obtain ⟨h1, ⟨o, ho, h2⟩, h3⟩ := hsound e r hr
              refine ⟨h1, ⟨o, by simp [ho], h2⟩, ?_⟩
              intro o ho hvo heo
              rcases List.mem_append.mp ho with ho | ho
              · exact h3 o ho hvo heo
              · rw [List.mem_singleton.mp ho] at heo
                exact absurd heo.symm he
          · rw [if_neg hgt] at hr
            obtain ⟨h1, ⟨o, ho, h2⟩, h3⟩ := hsound e r hr
            refine ⟨h1, ⟨o, by simp [ho], h2⟩, ?_⟩
            intro o ho hvo heo
            rcases List.mem_append.mp ho with ho | ho
            · exact h3 o ho hvo heo
            · rw [List.mem_singleton.mp ho] at heo ⊢
              subst heo
              rw [hl, Option.some.injEq] at hr
              subst hr
              simpa using hgt
      · simp only [hv, Bool.not_false, if_true] at hr
        obtain ⟨h1, ⟨o, ho, h2⟩, h3⟩ := hsound e r hr
        refine ⟨h1, ⟨o, by simp [ho], h2⟩, ?_⟩
        intro o ho hvo heo
        rcases List.mem_append.mp ho with ho | ho
        · exact h3 o ho hvo heo
        · rw [List.mem_singleton.mp ho] at hvo
          exact absurd hvo hv
    · -- every valid record has an entry after the step
      intro o ho hvo
      have hkeep : ∀ k, mapLoad m k ≠ none → mapLoad (dedupeStep toLower m x) k ≠ none := by
        intro k hk
        unfold dedupeStep
        simp only
        split_ifs with hv
        · exact hk
        · cases hl : mapLoad m (NormalizeOrder toLower x).Email with
          | none =>
            simp only
            by_cases he : k = (NormalizeOrder toLower x).Email
            · rw [he, byEmail_load_store_self]; simp
            · rw [byEmail_load_store_other _ _ _ _ he]; exact hk
          | some existing =>
            simp only
            split_ifs
            · by_cases he : k = (NormalizeOrder toLower x).Email
              · rw [he, byEmail_load_store_self]; simp
              · rw [byEmail_load_store_other _ _ _ _ he]; exact hk
            · exact hk
      rcases List.mem_append.mp ho with ho | ho
      · exact hkeep _ (hfull o ho hvo)
      · rw [List.mem_singleton.mp ho] at hvo ⊢
        unfold dedupeStep
        simp only [hvo, Bool.not_true, Bool.false_eq_true, if_false]
        cases hl : mapLoad m (NormalizeOrder toLower x).Email with
        | none => simp only; rw [byEmail_load_store_self]; simp
        | some existing =>
          simp only
          split_ifs
          · rw [byEmail_load_store_self]; simp
          · rw [hl]; simp

/-- The part of the deduplication rule the handler implements: when all
amounts are numbers, the record kept under an email is the normalised form of
a valid record of the request with that email, no valid record with that email
has a greater amount, and every valid record has its email among the keys. -/
theorem dedupe_keeps_highest (toLower : String → String) (systemA systemB : List Order)
    (hnum : ∀ o ∈ systemA ++ systemB, o.Amount.isNumber = true) :
    (∀ e r, mapLoad (dedupeByEmail toLower systemA systemB) e = some r →
      r.Email = e ∧ (∃ o ∈ systemA ++ systemB, NormalizeOrder toLower o = r) ∧
      ∀ o ∈ systemA ++ systemB, ValidateEmail (NormalizeOrder toLower o).Email = true →
        (NormalizeOrder toLower o).Email = e → Float64.gt o.Amount r.Amount = false) ∧
    (∀ o ∈ systemA ++ systemB, ValidateEmail (NormalizeOrder toLower o).Email = true →
      mapLoad (dedupeByEmail toLower systemA systemB) (NormalizeOrder toLower o).Email ≠ none) := by
  have := dedupe_fold_spec toLower (systemA ++ systemB) [] [] (by simpa using hnum)
    (fun e r h => by simp [mapLoad] at h) (fun o ho => by cases ho)
  simpa [dedupeByEmail] using this

end DedupeApi

/-! # Exponential backoff with jitter: proofs -/

namespace Retries

/-- A value inside the signed 64-bit range is not changed by wrapping. -/
theorem wrap64_of_range {x : Int} (h1 : -(2 ^ 63) ≤ x) (h2 : x < 2 ^ 63) : wrap64 x = x := by
  unfold wrap64
  omega

/-- A sum just above the range wraps to a negative number. -/
theorem wrap64_neg_of_over {x : Int} (h1 : 2 ^ 63 ≤ x) (h2 : x < 2 ^ 64) : wrap64 x < 0 := by
  unfold wrap64
  omega

/-- C26: for every duration `d >= 0` and every outcome `neg`, `pos` of the two
draws `rand.Int63n(n)` (each in `[0, n)`, made when `n = d/4 > 0`), the result
of `jitter` lies between `d - d/4` and `d + d/4`. -/
theorem jitter_within_quarter (d neg pos : Int) (hd : 0 ≤ d) (hmax : d < 2 ^ 63)
    (hdraw : 0 < Int.tdiv d jitterDivider →
      (0 ≤ neg ∧ neg < Int.tdiv d jitterDivider) ∧ (0 ≤ pos ∧ pos < Int.tdiv d jitterDivider)) :
    d - Int.tdiv d 4 ≤ jitter d neg pos ∧ jitter d neg pos ≤ d + Int.tdiv d 4 := by
  have hq : Int.tdiv d 4 = d / 4 := Int.tdiv_eq_ediv hd (by norm_num)
  unfold jitter
  simp only [jitterDivider] at hdraw ⊢
  rw [hq] at hdraw ⊢
  by_cases hn : d / 4 ≤ 0
  · rw [if_pos hn]
    omega
  · rw [if_neg hn]
    obtain ⟨⟨hn0, hn1⟩, hp0, hp1⟩ := hdraw (by omega)
    have h1 : wrap64 (d - neg) = d - neg := wrap64_of_range (by omega) (by omega)
    rw [h1]
    by_cases hov : d - neg + pos < 2 ^ 63
    · rw [wrap64_of_range (by omega) hov]
      split_ifs <;> omega
    · have : wrap64 (d - neg + pos) < 0 := wrap64_neg_of_over (by omega) (by omega)
      rw [if_pos this]
      omega

/-- Witness for C26: a delay of 2 s with draws 100 ms and 400 ms. -/
theorem jitter_within_quarter_witness :
    (0 : Int) ≤ 2000000000 ∧
    2000000000 - Int.tdiv 2000000000 4 ≤ jitter 2000000000 100000000 400000000 ∧
    jitter 2000000000 100000000 400000000 ≤ 2000000000 + Int.tdiv 2000000000 4 :=
  ⟨by decide,
   jitter_within_quarter 2000000000 100000000 400000000 (by decide) (by decide)
     (fun _ => by decide)⟩

/-- While `base * 2^attempt` fits the signed 64-bit range, the delay before
jitter is `min(max, base * 2^attempt)`. -/
theorem delayAt_of_no_overflow (base max : Int) (attempt : Nat) (hb : 0 < base)
    (hfit : base * 2 ^ attempt < 2 ^ 63) :
    delayAt base max attempt = min max (base * 2 ^ attempt) := by
  have hpos : 0 < base * (2 : Int) ^ attempt := Int.mul_pos hb (pow_pos (by norm_num) _)
  unfold delayAt shl
  rw [wrap64_of_range (by omega) hfit]

/-- The duration slept at an attempt is never greater than `max`. -/
theorem sleepAt_le_max (base max : Int) (attempt : Nat) (neg pos : Int) :
    sleepAt base max attempt neg pos ≤ max := by
  unfold sleepAt
  simp only
  split_ifs with h
  · exact le_refl _
  · exact not_lt.mp h

/-- Every duration `Retry` sleeps is at most `max`. -/
theorem retryLoop_sleeps_le_max (base max : Int) (op : Nat → Bool) (draws : Nat → Int × Int)
    (left attempt : Nat) : ∀ x ∈ (retryLoop base max op draws left attempt).2, x ≤ max := by
  induction left generalizing attempt with
  | zero =>
    intro x hx
    unfold retryLoop at hx
    split_ifs at hx <;> cases hx
  | succ left ih =>
    intro x hx
    unfold retryLoop at hx
    split_ifs at hx
    · rcases List.mem_cons.mp hx with rfl | hx
      · exact sleepAt_le_max _ _ _ _ _
      · exact ih _ x hx
    · cases hx

/-- Every timer duration of `RetryCtx` is at most `max`. -/
theorem retryCtxLoop_sleeps_le_max (base max : Int) (op : Nat → Bool)
    (draws : Nat → Int × Int) (done : Nat → Bool) (left attempt : Nat) :
    ∀ x ∈ (retryCtxLoop base max op draws done left attempt).2, x ≤ max := by
  induction left generalizing attempt with
  | zero =>
    intro x hx
    unfold retryCtxLoop at hx
    split_ifs at hx <;> cases hx
  | succ left ih =>
    intro x hx
    unfold retryCtxLoop at hx
    split_ifs at hx
    · rcases List.mem_singleton.mp hx with rfl
      exact sleepAt_le_max _ _ _ _ _
    · rcases List.mem_cons.mp hx with rfl | hx
      · exact sleepAt_le_max _ _ _ _ _
      · exact ih _ x hx
    · cases hx

/-- C27, at `Retry(40, 150ms, 2s, op)` with an `op` that always fails (and at
`RetryCtx` with the same arguments and a context that stays open): at attempt
36 the shift `base<<attempt` overflows, the delay before jitter is
-8138822563309551616 ns instead of `min(max, base * 2^36) = 2s`, and that
negative duration is what is slept. -/
theorem Retry_delay_overflows :
    delayAt 150000000 2000000000 36 = -8138822563309551616 ∧
    min 2000000000 (150000000 * 2 ^ 36) = 2000000000 ∧
    (Retry 40 150000000 2000000000 (fun _ => true) (fun _ => (0, 0))).2.get? 36 =
      some (-8138822563309551616) ∧
    (RetryCtx 40 150000000 2000000000 (fun _ => true) (fun _ => (0, 0)) (fun _ => false)).2.get? 36 =
      some (-8138822563309551616) := by
  decide

end Retries

/-! # HMAC-verified fetch with retry: proofs -/

namespace HmacRetry

/-- A first response with a 2xx status ends `fetchEvents` after one call, with
what the body yields. -/
theorem fetchEvents_first_ok (get : Nat → Reply) (draw : Int → Int) (retries : Int)
    (status : Int) (payload : Except String Event) (hr : 0 < retries)
    (hg : get 0 = Reply.http status payload) (hs : status < 400) :
    (fetchEvents get draw retries).2 = 1 := by
  obtain ⟨n, hn⟩ : ∃ n : Nat, retries.toNat = n + 1 := ⟨retries.toNat - 1, by omega⟩
  unfold fetchEvents
  rw [hn]
  unfold fetchLoop
  rw [hg]
  simp only [if_neg (not_le.mpr hs)]
  cases payload <;> rfl

/-- C28, at `fetchEvents(client, url, 5)` when the first `client.Get` fails
with a network error: the function returns the error "could not retrieve
events" after that single call, without a further attempt.  The same happens
on a first response with status 500 ("bad request" after one call), and a
first response with status 429 ends in a panic inside `jitterBackoff`. -/
theorem fetchEvents_no_retry_on_network_error :
    fetchEvents (fun _ => Reply.netErr) (fun _ => 0) maxRetries =
      (Result.err "fetchEvents: could not retrieve events", 1) ∧
    fetchEvents (fun _ => Reply.http 500 (Except.error "")) (fun _ => 0) maxRetries =
      (Result.err "fetchEvents: bad request", 1) ∧
    fetchEvents (fun _ => Reply.http 429 (Except.error "")) (fun _ => 0) maxRetries =
      (Result.panics, 1) := by
  decide

end HmacRetry

/-! # Producer goroutine: proofs -/

namespace JobProducer

/-- The sends of jobs `i, i+1, ..., i+m-1`. -/
theorem closes_sends (m : Nat) (i : Int) :
    closes ((List.range m).map (fun t : Nat => Action.send (i + t)) ++ [Action.close]) = 1 := by
  unfold closes
  rw [List.count_append]
  have : List.count Action.close ((List.range m).map (fun t : Nat => Action.send (i + t))) = 0 := by
    rw [List.count_eq_zero]
    intro h
    obtain ⟨t, _, ht⟩ := List.mem_map.mp h
    cases ht
  rw [this]
  rfl

theorem noSendAfterClose_sends (l : List Int) :
    noSendAfterClose (l.map Action.send ++ [Action.close]) = true := by
  induction l with
  | nil => rfl
  | cons v rest ih => exact ih

/-- With fuel for the iterations left and the final close, the loop returns
after sending a run of consecutive jobs and closing once. -/
theorem producerLoop_spec (cancelled : Nat → Bool) (fuel : Nat) :
    ∀ (i : Int) (k : Nat), (totalJobsCount + 1 - i).toNat < fuel →
      ∃ m : Nat, (m : Int) ≤ (totalJobsCount + 1 - i).toNat ∧
        producerLoop cancelled fuel i k =
          some ((List.range m).map (fun t : Nat => Action.send (i + t)) ++ [Action.close]) := by
  induction fuel with
  | zero => intro i k h; omega
  | succ fuel ih =>
    intro i k h
    unfold producerLoop
    by_cases hi : i ≤ totalJobsCount
    · rw [if_pos hi]
      by_cases hc : cancelled k = true
      · rw [if_pos hc]
        exact ⟨0, by omega, rfl⟩
      · rw [if_neg hc]
        obtain ⟨m, hm, he⟩ := ih (i + 1) (k + 1) (by omega)
        refine ⟨m + 1, by omega, ?_⟩
        rw [he, List.range_succ_eq_map]
        simp only [Option.map_some', List.map_cons, List.map_map, List.cons_append,
          Nat.cast_zero, add_zero]
        congr 3
        apply List.map_congr_left
        intro t _
        simp only [Function.comp, Nat.succ_eq_add_one, Nat.cast_add, Nat.cast_one]
        congr 1
        omega
    · rw [if_neg hi]
      exact ⟨0, by omega, rfl⟩

/-- C30: on every path of the producer goroutine of `main`, whichever
iterations run the `ctx.Done()` case, the goroutine returns (13 loop steps are
enough) and its channel operations are sends of the jobs `1, 2, ..., m` for
some `m <= 12` followed by one `close(jobs)`: the channel is closed exactly
once and no job is sent after the close. -/
theorem producer_closes_once (cancelled : Nat → Bool) (extra : Nat) :
    ∃ acts : List Action, producer cancelled (13 + extra) = some acts ∧
      closes acts = 1 ∧ noSendAfterClose acts = true ∧
      ∃ m : Nat, m ≤ 12 ∧
        acts = (List.range m).map (fun t : Nat => Action.send (1 + t)) ++ [Action.close] := by
  obtain ⟨m, hm, he⟩ := producerLoop_spec cancelled (13 + extra) 1 0
    (by simp only [totalJobsCount]; omega)
  refine ⟨_, he, closes_sends m 1, ?_, m, ?_, rfl⟩
  · have := noSendAfterClose_sends ((List.range m).map (fun t : Nat => (1 : Int) + t))
    rw [List.map_map] at this
    exact this
  · simp only [totalJobsCount] at hm
    omega

end JobProducer

/-! # Worker pool: a received job is recorded -/

namespace TokenBucket

/-- A worker that holds a job can always act, whatever the context says, and
its action is `js.Set(j * 2)` followed by a return to the top of its loop. -/
theorem step_of_processing {s : Pool} {i : Nat} {j : Int} (pick : Bool)
    (hw : s.workers[i]? = some (Worker.processing j)) :
    step s (Event.worker i pick) =
      some { s with js := s.js.Set (wrapInt (j * 2)),
                    workers := s.workers.set i (loopStart s.variant) } := by
  simp only [step, workerStep, hw]

theorem get_set_other {ws : List Worker} {i k : Nat} (b : Worker) (h : k ≠ i) :
    (ws.set k b)[i]? = ws[i]? := by
  rw [List.getElem?_set, if_neg h]

/-- No action of another goroutine takes the job away from a worker that holds
one: after any step that is not the worker's own, it still holds the job. -/
theorem processing_kept {s s' : Pool} {e : Event} {i : Nat} {j : Int}
    (hw : s.workers[i]? = some (Worker.processing j)) (h : step s e = some s')
    (he : ∀ p, e ≠ Event.worker i p) : s'.workers[i]? = some (Worker.processing j) := by
  cases e with
  | cancel c =>
    simp only [step, Option.some.injEq] at h
    subst h; exact hw
  | tick =>
    simp only [step] at h
    split at h
    · cases h
    · split_ifs at h
      all_goals
        simp only [Option.some.injEq] at h
        subst h; exact hw
  | refillExit =>
    simp only [step] at h
    split_ifs at h
    simp only [Option.some.injEq] at h
    subst h; exact hw
  | send v =>
    simp only [step] at h
    split at h
    · cases h
    · simp only [Option.some.injEq] at h
      subst h; exact hw
  | handoff v k =>
    simp only [step] at h
    split_ifs at h with hc
    simp only [Option.some.injEq] at h
    subst h
    have hk : k ≠ i := by
      rintro rfl
      simp [hw] at hc
    simp only
    rw [get_set_other _ hk]
    exact hw
  | close =>
    simp only [step] at h
    split_ifs at h
    simp only [Option.some.injEq] at h
    subst h; exact hw
  | wait =>
    simp only [step] at h
    split_ifs at h
    simp only [Option.some.injEq] at h
    subst h; exact hw
  | worker k pick =>
    have hk : k ≠ i := by
      rintro rfl
      exact he pick rfl
    simp only [step, workerStep] at h
    repeat' split at h
    all_goals first
      | (simp only [Option.some.injEq] at h
         subst h
         simp only [Pool.exit]
         rw [get_set_other _ hk]
         exact hw)
      | cases h

/-- C29: take a state of `StartWorkerPool` in which worker `i` has received job
`j` and not yet recorded it, whatever the context says there.  The worker can
act at once, and in every run from that state that ends with the worker no
longer holding the job (in particular with the worker stopped after observing
cancellation), the first action of worker `i` is `js.Set(j * 2)`: it appends
the result to the store and puts the worker back at the top of its loop, and
only after it can the worker observe the context.  Cancellations that arrive
before that action do not change this. -/
theorem records_before_observing_cancel (s s' : Pool) (evs : List Event) (i : Nat) (j : Int)
    (hw : s.workers[i]? = some (Worker.processing j))
    (hrun : run s evs = some s')
    (hleft : s'.workers[i]? ≠ some (Worker.processing j)) :
    (∀ pick, ∃ u, step s (Event.worker i pick) = some u) ∧
    ∃ (pre post : List Event) (pick : Bool) (t t' : Pool),
      evs = pre ++ Event.worker i pick :: post ∧
      (∀ p, Event.worker i p ∉ pre) ∧
      run s pre = some t ∧ t.workers[i]? = some (Worker.processing j) ∧
      step t (Event.worker i pick) = some t' ∧
      t'.js.data = t.js.data ++ [wrapInt (j * 2)] ∧
      t'.workers[i]? = some (loopStart s.variant) ∧
      run t' post = some s' := by
  refine ⟨fun pick => ⟨_, step_of_processing pick hw⟩, ?_⟩
  induction evs generalizing s with
  | nil =>
    simp only [run, Option.some.injEq] at hrun
    subst hrun
    exact absurd hw hleft
  | cons e es ih =>
    simp only [run] at hrun
    cases hst : step s e with
    | none => rw [hst] at hrun; cases hrun
    | some u =>
      rw [hst] at hrun
      simp only at hrun
      by_cases he : ∃ p, e = Event.worker i p
      · obtain ⟨p, rfl⟩ := he
        have hu := step_of_processing p hw
        rw [hst, Option.some.injEq] at hu
        refine ⟨[], es, p, s, u, rfl, fun q => List.not_mem_nil _, rfl, hw, hst, ?_, ?_, hrun⟩
        · rw [hu]; rfl
        · rw [hu]; exact get_set_self _ hw
      · have he' : ∀ p, e ≠ Event.worker i p := fun p hp => he ⟨p, hp⟩
        have hwu := processing_kept hw hst he'
        obtain ⟨pre, post, pick, t, t', h1, h2, h3, h4, h5, h6, h7, h8⟩ := ih u hwu hrun
        refine ⟨e :: pre, post, pick, t, t', by rw [h1]; rfl, ?_, ?_, h4, h5, h6, ?_, h8⟩
        · intro p hp
          rcases List.mem_cons.mp hp with hp | hp
          · exact he' p hp.symm
          · exact h2 p hp
        · simp only [run, hst]
          exact h3
        · rw [h7, step_variant hst]

/-- Witness for C29 in the plain pool with one worker: the worker holds job 3,
the context is cancelled, the worker records 6 and only then takes the
`ctx.Done()` case and stops. -/
theorem records_before_observing_cancel_witness :
    ∃ s s' : Pool,
      s.workers[0]? = some (Worker.processing 3) ∧
      run s [Event.cancel CtxErr.Canceled, Event.worker 0 true, Event.worker 0 true] = some s' ∧
      s'.workers[0]? = some Worker.stopped ∧ s'.js.data = [6] ∧
      ∃ (pre post : List Event) (pick : Bool) (t t' : Pool),
        [Event.cancel CtxErr.Canceled, Event.worker 0 true, Event.worker 0 true] =
          pre ++ Event.worker 0 pick :: post ∧
        (∀ p, Event.worker 0 p ∉ pre) ∧
        run s pre = some t ∧ t.workers[0]? = some (Worker.processing 3) ∧
        step t (Event.worker 0 pick) = some t' ∧
        t'.js.data = t.js.data ++ [wrapInt (3 * 2)] ∧
        t'.workers[0]? = some (loopStart s.variant) ∧
        run t' post = some s' :=
  ⟨{ variant := Variant.workerPool, ctx := none,
     jobs := { buf := [], cap := 0, closed := false }, js := { data := [] },
     lim := none, refillAlive := false, workers := [Worker.processing 3], wg := 1,
     returned := none, ticksAdded := 0, enqueued := 1, received := 1 },
   { variant := Variant.workerPool, ctx := some CtxErr.Canceled,
     jobs := { buf := [], cap := 0, closed := false }, js := { data := [6] },
     lim := none, refillAlive := false, workers := [Worker.stopped], wg := 0,
     returned := none, ticksAdded := 0, enqueued := 1, received := 1 },
   by decide, by decide, by decide, by decide,
   (records_before_observing_cancel _ _
     [Event.cancel CtxErr.Canceled, Event.worker 0 true, Event.worker 0 true] 0 3
     (by decide) (by decide) (by decide)).2⟩

end TokenBucket

/-! # Binary search tree: deletion -/

namespace Bst

theorem deleteNode_lt (k : Int) (l r : BstNode) (key : Int) (h : key < k) :
    deleteNode (BstNode.node k l r) key = BstNode.node k (deleteNode l key) r := by
  cases l <;> cases r <;> simp [deleteNode, h]

theorem deleteNode_gt (k : Int) (l r : BstNode) (key : Int) (h : k < key) :
    deleteNode (BstNode.node k l r) key = BstNode.node k l (deleteNode r key) := by
  have h' : ¬ key < k := not_lt.mpr (le_of_lt h)
  cases l <;> cases r <;> simp [deleteNode, h, h']

theorem deleteNode_nil_left (k : Int) (r : BstNode) :
    deleteNode (BstNode.node k BstNode.nil r) k = r := by
  cases r <;> simp [deleteNode]

theorem deleteNode_nil_right (k kl : Int) (ll lr : BstNode) :
    deleteNode (BstNode.node k (BstNode.node kl ll lr) BstNode.nil) k =
      BstNode.node kl ll lr := by
  simp [deleteNode]

theorem deleteNode_both (k kl kr : Int) (ll lr rl rr : BstNode) :
    deleteNode (BstNode.node k (BstNode.node kl ll lr) (BstNode.node kr rl rr)) k =
      BstNode.node (succLoop kr rl) (BstNode.node kl ll lr)
        (deleteNode (BstNode.node kr rl rr) (succLoop kr rl)) := by
  simp [deleteNode]

/-- The successor key is a key of the subtree the loop starts in, and the
smallest one when the subtree is ordered. -/
theorem succLoop_spec (l : BstNode) :
    ∀ (k : Int) (r : BstNode), (BstNode.node k l r).Ordered →
      succLoop k l ∈ (BstNode.node k l r).keys ∧
      ∀ x ∈ (BstNode.node k l r).keys, succLoop k l ≤ x := by
  induction l with
  | nil =>
    intro k r ho
    obtain ⟨-, -, -, hrk⟩ := ho
    refine ⟨by simp [succLoop, BstNode.keys], ?_⟩
    intro x hx
    simp only [succLoop]
    rcases (mem_keys_node k BstNode.nil r x).mp hx with h | h | h
    · simp [BstNode.keys] at h
    · exact le_of_eq h.symm
    · exact le_of_lt (hrk x h)
  | node kl ll lr ihl _ =>
    intro k r ho
    obtain ⟨hl, -, hlk, hrk⟩ := ho
    obtain ⟨hmem, hmin⟩ := ihl kl lr hl
    have hs : succLoop k (BstNode.node kl ll lr) = succLoop kl ll := rfl
    rw [hs]
    refine ⟨(mem_keys_node _ _ _ _).mpr (Or.inl hmem), ?_⟩
    intro x hx
    rcases (mem_keys_node _ _ _ _).mp hx with h | h | h
    · exact hmin x h
    · rw [h]; exact le_of_lt (hlk _ hmem)
    · exact le_of_lt (lt_trans (hlk _ hmem) (hrk x h))

/-- On an ordered subtree `deleteNode` returns an ordered subtree whose keys
are the old keys without `key`. -/
theorem deleteNode_spec (n : BstNode) :
    ∀ key : Int, n.Ordered →
      (deleteNode n key).Ordered ∧
      ∀ x, x ∈ (deleteNode n key).keys ↔ x ∈ n.keys ∧ x ≠ key := by
  induction n with
  | nil =>
    intro key _
    simp [deleteNode, BstNode.Ordered, BstNode.keys]
  | node k l r ihl ihr =>
    intro key ho
    obtain ⟨hl, hr, hlk, hrk⟩ := ho
    rcases lt_trichotomy key k with h | h | h
    · obtain ⟨ho', hk'⟩ := ihl key hl
      rw [deleteNode_lt k l r key h]
      refine ⟨⟨ho', hr, fun x hx => hlk x ((hk' x).mp hx).1, hrk⟩, fun x => ?_⟩
      rw [mem_keys_node, mem_keys_node, hk']
      constructor
      · rintro (⟨h1, h2⟩ | h1 | h1)
        · exact ⟨Or.inl h1, h2⟩
        · exact ⟨Or.inr (Or.inl h1), by omega⟩
        · exact ⟨Or.inr (Or.inr h1), by have := hrk x h1; omega⟩
      · rintro ⟨h1 | h1 | h1, h2⟩
        · exact Or.inl ⟨h1, h2⟩
        · exact Or.inr (Or.inl h1)
        · exact Or.inr (Or.inr h1)
    · subst h
      cases l with
      | nil =>
        rw [deleteNode_nil_left]
        refine ⟨hr, fun x => ?_⟩
        rw [mem_keys_node]
        constructor
        · intro h1
          exact ⟨Or.inr (Or.inr h1), by have := hrk x h1; omega⟩
        · rintro ⟨h1 | h1 | h1, h2⟩
          · simp [BstNode.keys] at h1
          · exact absurd h1 h2
          · exact h1
      | node kl ll lr =>
        cases r with
        | nil =>
          rw [deleteNode_nil_right]
          refine ⟨hl, fun x => ?_⟩
          rw [mem_keys_node key]
          constructor
          · intro h1
            exact ⟨Or.inl h1, by have := hlk x h1; omega⟩
          · rintro ⟨h1 | h1 | h1, h2⟩
            · exact h1
            · exact absurd h1 h2
            · simp [BstNode.keys] at h1
        | node kr rl rr =>
          rw [deleteNode_both]
          obtain ⟨hsmem, hsmin⟩ := succLoop_spec rl kr rr hr
          obtain ⟨ho', hk'⟩ := ihr (succLoop kr rl) hr
          have hks : key < succLoop kr rl := hrk _ hsmem
          refine ⟨⟨hl, ho', fun x hx => lt_trans (hlk x hx) hks, ?_⟩, fun x => ?_⟩
          · intro x hx
            obtain ⟨h1, h2⟩ := (hk' x).mp hx
            have := hsmin x h1
            omega
          · rw [mem_keys_node, mem_keys_node key, hk']
            constructor
            · rintro (h1 | h1 | ⟨h1, _⟩)
              · exact ⟨Or.inl h1, by have := hlk x h1; omega⟩
              · rw [h1]; exact ⟨Or.inr (Or.inr hsmem), by omega⟩
              · exact ⟨Or.inr (Or.inr h1), by have := hrk x h1; omega⟩
            · rintro ⟨h1 | h1 | h1, h2⟩
              · exact Or.inl h1
              · exact absurd h1 h2
              · by_cases hx : x = succLoop kr rl
                · exact Or.inr (Or.inl hx)
                · exact Or.inr (Or.inr ⟨h1, hx⟩)
    · obtain ⟨ho', hk'⟩ := ihr key hr
      rw [deleteNode_gt k l r key h]
      refine ⟨⟨hl, ho', hlk, fun x hx => hrk x ((hk' x).mp hx).1⟩, fun x => ?_⟩
      rw [mem_keys_node, mem_keys_node, hk']
      constructor
      · rintro (h1 | h1 | ⟨h1, h2⟩)
        · exact ⟨Or.inl h1, by have := hlk x h1; omega⟩
        · exact ⟨Or.inr (Or.inl h1), by omega⟩
        · exact ⟨Or.inr (Or.inr h1), h2⟩
      · rintro ⟨h1 | h1 | h1, h2⟩
        · exact Or.inl h1
        · exact Or.inr (Or.inl h1)
        · exact Or.inr (Or.inr ⟨h1, h2⟩)

/-- In an ordered subtree no key occurs twice. -/
theorem keys_nodup_of_ordered (n : BstNode) (ho : n.Ordered) : n.keys.Nodup := by
  induction n with
  | nil => simp [BstNode.keys]
  | node k l r ihl ihr =>
    obtain ⟨hl, hr, hlk, hrk⟩ := ho
    simp only [BstNode.keys]
    rw [List.nodup_append]
    refine ⟨ihl hl, List.nodup_cons.mpr ⟨fun hk => lt_irrefl k (hrk k hk), ihr hr⟩, ?_⟩
    intro x hx hx'
    have h1 := hlk x hx
    rcases List.mem_cons.mp hx' with h2 | h2
    · omega
    · have := hrk x h2
      omega

/-- C32: `Tree.Insert` and `Tree.Delete` preserve the binary-search-tree
ordering.  If in every node the keys of the left subtree are smaller and the
keys of the right subtree larger than the node's key, the same holds after
`Insert(key)` and after `Delete(key)`, and in both results no key occurs
twice; `Insert` adds `key` to the keys and `Delete` removes it. -/
theorem Insert_Delete_preserve_order (t : Tree) (key : Int) (ho : t.Root.Ordered) :
    ((t.Insert key).Root.Ordered ∧ (t.Insert key).Root.keys.Nodup ∧
      ∀ x, x ∈ (t.Insert key).Root.keys ↔ x = key ∨ x ∈ t.Root.keys) ∧
    ((t.Delete key).Root.Ordered ∧ (t.Delete key).Root.keys.Nodup ∧
      ∀ x, x ∈ (t.Delete key).Root.keys ↔ x ∈ t.Root.keys ∧ x ≠ key) := by
  have hi := Insert_ordered t key ho
  obtain ⟨hd, hk⟩ := deleteNode_spec t.Root key ho
  exact ⟨⟨hi, keys_nodup_of_ordered _ hi, Insert_keys t key⟩,
    ⟨hd, keys_nodup_of_ordered _ hd, hk⟩⟩

/-- Witness for C32: the tree built by inserting 5, 3, 8, 1, 4, 7, 9; inserting
6 and deleting the root key 5 (a node with two children). -/
theorem Insert_Delete_preserve_order_witness :
    ([5, 3, 8, 1, 4, 7, 9].foldl Tree.Insert { Root := BstNode.nil }).Root.Ordered ∧
    (([5, 3, 8, 1, 4, 7, 9].foldl Tree.Insert { Root := BstNode.nil }).Insert 6).Root.keys =
      [1, 3, 4, 5, 6, 7, 8, 9] ∧
    (([5, 3, 8, 1, 4, 7, 9].foldl Tree.Insert { Root := BstNode.nil }).Delete 5).Root.keys =
      [1, 3, 4, 7, 8, 9] ∧
    (([5, 3, 8, 1, 4, 7, 9].foldl Tree.Insert { Root := BstNode.nil }).Insert 5).Root.Ordered ∧
    (([5, 3, 8, 1, 4, 7, 9].foldl Tree.Insert { Root := BstNode.nil }).Delete 5).Root.Ordered ∧
    (([5, 3, 8, 1, 4, 7, 9].foldl Tree.Insert { Root := BstNode.nil }).Delete 5).Root.keys.Nodup :=
  ⟨(foldl_Insert [5, 3, 8, 1, 4, 7, 9] { Root := BstNode.nil } trivial).1, by decide, by decide,
   (Insert_Delete_preserve_order _ 5
     (foldl_Insert [5, 3, 8, 1, 4, 7, 9] { Root := BstNode.nil } trivial).1).1.1,
   (Insert_Delete_preserve_order _ 5
     (foldl_Insert [5, 3, 8, 1, 4, 7, 9] { Root := BstNode.nil } trivial).1).2.1,
   (Insert_Delete_preserve_order _ 5
     (foldl_Insert [5, 3, 8, 1, 4, 7, 9] { Root := BstNode.nil } trivial).1).2.2.1⟩

end Bst

/-! # Top-K users: the heap order on score ties -/

namespace TopKDedupe

open ContainerHeap

/-- C31 as stated fails: in the heap holding users 1 and 2 with the same score
10, `h[0].ID < h[1].ID` but `Less(0, 1)` is false, and `Less(1, 0)` is true
although `h[1].ID > h[0].ID`. -/
theorem Less_tie_smaller_ID_not_less :
    (elem [(⟨1, "A", 10⟩ : User), ⟨2, "B", 10⟩] 0).Score =
      (elem [(⟨1, "A", 10⟩ : User), ⟨2, "B", 10⟩] 1).Score ∧
    (elem [(⟨1, "A", 10⟩ : User), ⟨2, "B", 10⟩] 0).ID <
      (elem [(⟨1, "A", 10⟩ : User), ⟨2, "B", 10⟩] 1).ID ∧
    Less [⟨1, "A", 10⟩, ⟨2, "B", 10⟩] 0 1 = false ∧
    Less [⟨1, "A", 10⟩, ⟨2, "B", 10⟩] 1 0 = true := by
  decide

/-- C31, amended: for every `UserMinHeap` `h` and indices `i`, `j` in range
with `h[i].Score == h[j].Score`, `h.Less(i, j)` is true exactly when
`h[i].ID > h[j].ID`: on a score tie the larger ID is considered less. -/
theorem Less_on_tie (h : List User) (i j : Nat) (hi : i < h.length) (hj : j < h.length)
    (hs : (h.get ⟨i, hi⟩).Score = (h.get ⟨j, hj⟩).Score) :
    Less h i j = true ↔ (h.get ⟨i, hi⟩).ID > (h.get ⟨j, hj⟩).ID := by
  unfold Less less
  rw [elem_eq_getElem h i hi, elem_eq_getElem h j hj]
  simp only [List.get_eq_getElem] at hs ⊢
  rw [if_neg (not_not.mpr hs)]
  exact decide_eq_true_iff

/-- Witness for C31 on the tie of the package test `ties_by_score_id`: users 2
and 1 with score 10. -/
theorem Less_on_tie_witness :
    ((([⟨2, "B", 10⟩, ⟨1, "A", 10⟩, ⟨3, "C", 9⟩] : List User).get ⟨0, by decide⟩).Score =
      (([⟨2, "B", 10⟩, ⟨1, "A", 10⟩, ⟨3, "C", 9⟩] : List User).get ⟨1, by decide⟩).Score) ∧
    (Less [⟨2, "B", 10⟩, ⟨1, "A", 10⟩, ⟨3, "C", 9⟩] 0 1 = true ↔
      (([⟨2, "B", 10⟩, ⟨1, "A", 10⟩, ⟨3, "C", 9⟩] : List User).get ⟨0, by decide⟩).ID >
        (([⟨2, "B", 10⟩, ⟨1, "A", 10⟩, ⟨3, "C", 9⟩] : List User).get ⟨1, by decide⟩).ID) :=
  ⟨by decide,
   Less_on_tie [⟨2, "B", 10⟩, ⟨1, "A", 10⟩, ⟨3, "C", 9⟩] 0 1 (by decide) (by decide) (by decide)⟩

end TopKDedupe
